import Mathlib

/-!
Verification of the dsdmaze maze-generation core.

The Rust sources `src/maze_generator.rs`, `src/maze_generator/generator_dfs.rs`
and `src/maze_generator/generator_rd.rs` are shallowly embedded below.  The
pseudo-random engine (`Pcg64` seeded from a string, and the thread RNG used by
`rand::random()`) is abstracted as an arbitrary stream of naturals with a
cursor; `gen_range` draws the next stream value and maps it into the requested
range, so every behaviour of the real generator corresponds to some stream.
Recursive procedures take explicit fuel; rejection-sampling loops return
`Option`, with `none` on fuel exhaustion.
-/

namespace DsdMaze

/-- Abstract random source: a stream of naturals together with a cursor. -/
structure Rng where
  stream : Nat → Nat
  pos : Nat

/-- Draw the next raw value from the source. -/
def Rng.next (r : Rng) : Nat × Rng :=
  (r.stream r.pos, ⟨r.stream, r.pos + 1⟩)

/-- Advance the cursor by `n` draws. -/
def Rng.advance (r : Rng) (n : Nat) : Rng :=
  ⟨r.stream, r.pos + n⟩

/-- Model of `rng.gen_range(lo..=hi)` (inclusive range). -/
def genRange (lo hi : Nat) (r : Rng) : Nat × Rng :=
  let vr := r.next
  (lo + vr.1 % (hi + 1 - lo), vr.2)

/-- Model of `rng.gen_range(lo..hi)` (half-open range). -/
def genRangeEx (lo hi : Nat) (r : Rng) : Nat × Rng :=
  let vr := r.next
  (lo + vr.1 % (hi - lo), vr.2)

/-- The `Direction` enum of `maze_generator.rs`. -/
inductive Direction
  | top
  | bottom
  | left
  | right
deriving DecidableEq, Repr

/-- Sampling a `Direction` (`gen_range(0..=3)` plus the match in the
`Distribution` impl). -/
def randDirection (r : Rng) : Direction × Rng :=
  let vr := genRange 0 3 r
  (match vr.1 with
    | 0 => .top
    | 1 => .bottom
    | 2 => .left
    | _ => .right, vr.2)

/-- The `Orientation` enum of `generator_rd.rs`. -/
inductive Orientation
  | horizontal
  | vertical
deriving DecidableEq, Repr

/-- Sampling an `Orientation` (`gen_range(0..=1)` plus the match in the
`Distribution` impl). -/
def randOrientation (r : Rng) : Orientation × Rng :=
  let vr := genRange 0 1 r
  (match vr.1 with
    | 0 => .horizontal
    | _ => .vertical, vr.2)

/-- Write `b` at every index of `idxs` in order (a `for` loop of stores). -/
def setAll (a : List Bool) (idxs : List Nat) (b : Bool) : List Bool :=
  idxs.foldl (fun acc i => acc.set i b) a

/-- The `SelectedGenerator` enum of `maze_generator.rs`. -/
inductive SelectedGenerator
  | DFS
  | RD
deriving DecidableEq, Repr

/-! ## DFS carver (`generator_dfs.rs`) -/

/-- The visited-neighbour count of `GeneratorDFS::add_path` (the four reads
`(x-1, y)`, `(x+1, y)`, `(x, y-1)`, `(x, y+1)`; the array stores `true` for
wall, so a neighbour counts when its entry is `false`). -/
def countOpenNeighbors (size : Nat) (a : List Bool) (x y : Nat) : Nat :=
  (if a.getD ((x - 1) * size + y) true = false then 1 else 0) +
  (if a.getD ((x + 1) * size + y) true = false then 1 else 0) +
  (if a.getD (x * size + (y - 1)) true = false then 1 else 0) +
  (if a.getD (x * size + (y + 1)) true = false then 1 else 0)

/-- Swap two positions of a direction list (`slice::swap`). -/
def listSwap (l : List Direction) (i j : Nat) : List Direction :=
  let vi := l.getD i .top
  let vj := l.getD j .top
  (l.set i vj).set j vi

/-- The Fisher–Yates shuffle `directions.shuffle(rng)` applied to the freshly
built vector `[Top, Bottom, Left, Right]` (rand 0.8 walks `i = 3, 2, 1` and
swaps `i` with `gen_range(0..=i)`). -/
def shuffleDirections (r : Rng) : List Direction × Rng :=
  let l0 := [Direction.top, Direction.bottom, Direction.left, Direction.right]
  let p3 := genRangeEx 0 4 r
  let l1 := listSwap l0 3 p3.1
  let p2 := genRangeEx 0 3 p3.2
  let l2 := listSwap l1 2 p2.1
  let p1 := genRangeEx 0 2 p2.2
  (listSwap l2 1 p1.1, p1.2)

/-- The candidate cell one step from `(x, y)` in direction `d` (the four
recursive-call targets of `add_path`). -/
def dirStep (d : Direction) (x y : Nat) : Nat × Nat :=
  match d with
  | .top => (x, y - 1)
  | .bottom => (x, y + 1)
  | .left => (x - 1, y)
  | .right => (x + 1, y)

/-- `GeneratorDFS::add_path` with the native recursion replaced by the
explicit worklist the spec's design notes call for: the head of `stack` is
the current candidate, and carving a cell pushes its four shuffled neighbour
candidates in front of the remaining work, which yields exactly the nested
call order of the Rust function.  `fuel` is structural; one unit pays for one
worklist step, and each carved cell contributes at most four steps, so the
fuel supplied by `dfsGenerate` is never exhausted. -/
def addPath (size : Nat) : Nat → List Bool → Rng → List (Nat × Nat) → List Bool × Rng
  | 0, a, r, _ => (a, r)
  | _ + 1, a, r, [] => (a, r)
  | fuel + 1, a, r, (x, y) :: rest =>
    if size - 1 ≤ x ∨ x < 1 ∨ y < 1 ∨ size - 1 ≤ y then
      addPath size fuel a r rest
    else if a.getD (x * size + y) true = false then
      addPath size fuel a r rest
    else if 1 < countOpenNeighbors size a x y then
      addPath size fuel a r rest
    else
      let a1 := a.set (x * size + y) false
      let dr := shuffleDirections r
      addPath size fuel a1 dr.2 (dr.1.map (fun d => dirStep d x y) ++ rest)

/-- `GeneratorDFS::generate`. -/
def dfsGenerate (size : Nat) (r : Rng) : List Bool × Rng :=
  let a := List.replicate (size * size) true
  let px := genRange 3 (size - 3) r
  let x := px.1
  let py := genRange 3 (size - 3) px.2
  let y := py.1
  let pd := randDirection py.2
  let a1 := a.set (x * size + y) false
  addPath size (4 * size * size + 5) a1 pd.2 [dirStep pd.1 x y]

/-! ## RD divider (`generator_rd.rs`) -/

/-- `GeneratorRD::get_orientation`. -/
def getOrientation (sx sy ex ey : Nat) (r : Rng) : Orientation × Rng :=
  let chamberWidth := ex - sx
  let chamberHeight := ey - sy
  if chamberHeight < chamberWidth then (.vertical, r)
  else if chamberWidth < chamberHeight then (.horizontal, r)
  else randOrientation r

/-- `GeneratorRD::divide_chamber`.  Structural fuel replaces native recursion;
every recursive call strictly shrinks the chamber rectangle, so the fuel
supplied by `rdGenerate` (the maze size) is never exhausted. -/
def divideChamber (size : Nat) :
    Nat → Nat → Nat → Nat → Nat → Orientation → Rng → List Bool → List Bool × Rng
  | 0, _, _, _, _, _, r, a => (a, r)
  | fuel + 1, sx, sy, ex, ey, orient, r, a =>
    if ex - sx < 1 ∨ ey - sy < 1 then (a, r)
    else
      match orient with
      | .horizontal =>
        let pw := genRangeEx sy ey r
        let wallField := pw.1
        let wallIndex := wallField * 2 + 1 + 1
        let a1 := setAll a
          ((List.range' (sx * 2 + 1) (ex * 2 + 2 + 1 - (sx * 2 + 1))).map
            (fun n => wallIndex * size + n)) true
        let pp := genRange sx ex pw.2
        let a2 := a1.set (wallIndex * size + (pp.1 * 2 + 1)) false
        let po1 := getOrientation sx sy ex wallField pp.2
        let po2 := getOrientation sx (wallField + 1) ex ey po1.2
        let q1 := divideChamber size fuel sx sy ex wallField po1.1 po2.2 a2
        divideChamber size fuel sx (wallField + 1) ex ey po2.1 q1.2 q1.1
      | .vertical =>
        let pw := genRangeEx sx ex r
        let wallField := pw.1
        let wallIndex := wallField * 2 + 1 + 1
        let a1 := setAll a
          ((List.range' (sy * 2 + 1) (ey * 2 + 2 + 1 - (sy * 2 + 1))).map
            (fun n => n * size + wallIndex)) true
        let pp := genRange sy ey pw.2
        let a2 := a1.set ((pp.1 * 2 + 1) * size + wallIndex) false
        let po1 := getOrientation sx sy wallField ey pp.2
        let po2 := getOrientation (wallField + 1) sy ex ey po1.2
        let q1 := divideChamber size fuel sx sy wallField ey po1.1 po2.2 a2
        divideChamber size fuel (wallField + 1) sy ex ey po2.1 q1.2 q1.1

/-- The indices written by the border loop of `GeneratorRD::generate`
(for each `n < size`: `n*size`, `n`, `n*size + (size-1)`, `(size-1)*size + n`). -/
def borderIdxs (size : Nat) : List Nat :=
  (List.range size).foldr
    (fun n acc => n * size :: n :: (n * size + (size - 1)) :: ((size - 1) * size + n) :: acc)
    []

/-- `GeneratorRD::generate`. -/
def rdGenerate (size : Nat) (r : Rng) : List Bool × Rng :=
  let a := List.replicate (size * size) false
  let a1 := setAll a (borderIdxs size) true
  let mazeFields := (size - 1) / 2
  let po := randOrientation r
  divideChamber size size 0 0 (mazeFields - 1) (mazeFields - 1) po.1 po.2 a1

/-! ## Orchestrator (`maze_generator.rs`) -/

/-- The data of `MazeGenerator` observable through its accessors after
`generate_maze()`: effective size, start, exit, exit border, grid. -/
structure MazeResult where
  mazeSize : Nat
  startPosition : Nat × Nat
  endPosition : Nat × Nat
  endBorder : Direction
  mazeArray : List Bool
deriving DecidableEq, Repr

/-- The `while` loop of `MazeGenerator::set_start_position`, entered with the
two initial draws already made. -/
def setStartLoop (size : Nat) (a : List Bool) :
    Nat → Nat → Nat → Rng → Option ((Nat × Nat) × Rng)
  | fuel, x, y, r =>
    if a.getD (y * size + x) true then
      match fuel with
      | 0 => none
      | fuel + 1 =>
        let px := genRange 1 (size - 1) r
        let py := genRange 1 (size - 1) px.2
        setStartLoop size a fuel px.1 py.1 py.2
    else some ((x, y), r)

/-- `MazeGenerator::set_start_position`. -/
def setStartPosition (size : Nat) (a : List Bool) (fuel : Nat) (r : Rng) :
    Option ((Nat × Nat) × Rng) :=
  let px := genRange 1 (size - 1) r
  let py := genRange 1 (size - 1) px.2
  setStartLoop size a fuel px.1 py.1 py.2

/-- `MazeGenerator::set_exit`.  `exit_index` comes from the seeded engine, but
`exit_wall` comes from `rand::random()`, i.e. the thread RNG, modelled here as
the second source `tr`.  On success the result carries the exit point, the
exit border, the pierced array and both final sources. -/
def setExitLoop (size : Nat) (a : List Bool) :
    Nat → Rng → Rng → Option ((Nat × Nat) × Direction × List Bool × Rng × Rng)
  | 0, _, _ => none
  | fuel + 1, r, tr =>
    let pe := genRange 1 (size - 1) r
    let exitIndex := pe.1
    let r1 := pe.2
    let pw := randDirection tr
    let tr1 := pw.2
    match pw.1 with
    | .top =>
      if a.getD (1 * size + exitIndex) true = false then
        some ((exitIndex, 1), .top, a.set (0 * size + exitIndex) false, r1, tr1)
      else setExitLoop size a fuel r1 tr1
    | .bottom =>
      if a.getD ((size - 2) * size + exitIndex) true = false then
        some ((exitIndex, size - 2), .bottom,
          a.set ((size - 1) * size + exitIndex) false, r1, tr1)
      else setExitLoop size a fuel r1 tr1
    | .left =>
      if a.getD (exitIndex * size + 1) true = false then
        some ((1, exitIndex), .left, a.set (exitIndex * size + 0) false, r1, tr1)
      else setExitLoop size a fuel r1 tr1
    | .right =>
      if a.getD (exitIndex * size + (size - 2)) true = false then
        some ((size - 2, exitIndex), .right,
          a.set (exitIndex * size + (size - 1)) false, r1, tr1)
      else setExitLoop size a fuel r1 tr1

/-- `MazeGenerator::generate_maze` for a generator freshly constructed by
`MazeGenerator::new` with seeded source `r`; `tr` models the thread RNG
consumed by `rand::random()` inside `set_exit`, and `fuel` bounds the two
rejection-sampling loops. -/
def generateMaze (gen : SelectedGenerator) (size0 : Nat) (r tr : Rng) (fuel : Nat) :
    Option MazeResult :=
  let sar :=
    match gen with
    | .RD =>
      let size := if size0 % 2 = 0 then size0 + 1 else size0
      let pa := rdGenerate size r
      (size, pa.1, pa.2)
    | .DFS =>
      let pa := dfsGenerate size0 r
      (size0, pa.1, pa.2)
  let size := sar.1
  let a := sar.2.1
  match setStartPosition size a fuel sar.2.2 with
  | none => none
  | some (startPos, r2) =>
    match setExitLoop size a fuel r2 tr with
    | none => none
    | some (endPos, endBorder, a1, _, _) =>
      some ⟨size, startPos, endPos, endBorder, a1⟩

/-! ## Derived definitions used in the statements -/

/-- The border cell that `set_exit` pierces, determined by the exit point and
the recorded border (written as (row, column)). -/
def holeCell (size : Nat) (p : Nat × Nat) (d : Direction) : Nat × Nat :=
  match d with
  | .top => (0, p.1)
  | .bottom => (size - 1, p.1)
  | .left => (p.2, 0)
  | .right => (p.2, size - 1)

/-- The cell `c` lies on the outer face named by `d`. -/
def onBorderSide (size : Nat) (d : Direction) (c : Nat × Nat) : Prop :=
  match d with
  | .top => c.1 = 0
  | .bottom => c.1 = size - 1
  | .left => c.2 = 0
  | .right => c.2 = size - 1

/-- The `k`-th candidate point drawn by `set_start_position` from source `r`
(the pair of `gen_range(1..=size-1)` draws of iteration `k`). -/
def startCandidate (size : Nat) (r : Rng) (k : Nat) : Nat × Nat :=
  ((genRange 1 (size - 1) (r.advance (2 * k))).1,
   (genRange 1 (size - 1) (r.advance (2 * k + 1))).1)

/-- The start-placement loop terminates on grid `a` with source `r` for some
fuel. -/
def startTerminates (size : Nat) (a : List Bool) (r : Rng) : Prop :=
  ∃ fuel, (setStartPosition size a fuel r).isSome = true

/-- The `exit_index` drawn at iteration `k` of `set_exit` from the seeded
source `s`. -/
def exitCandidate (size : Nat) (s : Rng) (k : Nat) : Nat :=
  (genRange 1 (size - 1) (s.advance k)).1

/-- The `exit_wall` drawn at iteration `k` of `set_exit` from the thread
source `ts`. -/
def exitWallCandidate (ts : Rng) (k : Nat) : Direction :=
  (randDirection (ts.advance k)).1

/-- Iteration `k` of `set_exit` accepts: the cell one step inside the drawn
border at the drawn index is open. -/
def exitAccept (size : Nat) (a : List Bool) (s ts : Rng) (k : Nat) : Prop :=
  match exitWallCandidate ts k with
  | .top => a.getD (1 * size + exitCandidate size s k) true = false
  | .bottom => a.getD ((size - 2) * size + exitCandidate size s k) true = false
  | .left => a.getD (exitCandidate size s k * size + 1) true = false
  | .right => a.getD (exitCandidate size s k * size + (size - 2)) true = false

/-- The all-zero random source, used to instantiate the theorems. -/
def zeroSrc : Rng := ⟨fun _ => 0, 0⟩

/-- The all-one random source, used to instantiate the theorems. -/
def oneSrc : Rng := ⟨fun _ => 1, 0⟩

/-- The all-five random source, used to instantiate the theorems. -/
def fiveSrc : Rng := ⟨fun _ => 5, 0⟩

/-- A source that draws five twice and zero from then on, used to
instantiate the theorems. -/
def fiveFiveZeroSrc : Rng := ⟨fun n => if n < 2 then 5 else 0, 0⟩

/-! ## Checked mirrors of the generation pipeline

Each `...Chk` function replays the control flow of the corresponding source
function on exactly the same states (the state-updating expressions are the
originals), and returns `true` exactly when every grid index the source
function reads or writes is within the array, every random-range request is
non-empty, and every `usize` subtraction the source performs has a
non-smaller minuend. -/

/-- `gen_range(lo..=hi)` requests a non-empty range. -/
def rangeOkIncl (lo hi : Nat) : Bool := decide (lo ≤ hi)

/-- `gen_range(lo..hi)` requests a non-empty range. -/
def rangeOkExcl (lo hi : Nat) : Bool := decide (lo < hi)

/-- Checks of one `add_path` worklist run (guard subtractions are covered by
`size ≥ 1` checked in `dfsGenerateChk`; `x - 1` and `y - 1` occur only
behind the guard and are certified there). -/
def addPathChk (size : Nat) : Nat → List Bool → Rng → List (Nat × Nat) → Bool
  | 0, _, _, _ => true
  | _ + 1, _, _, [] => true
  | fuel + 1, a, r, (x, y) :: rest =>
    if size - 1 ≤ x ∨ x < 1 ∨ y < 1 ∨ size - 1 ≤ y then
      addPathChk size fuel a r rest
    else
      decide (x * size + y < a.length) &&
      (if a.getD (x * size + y) true = false then
        addPathChk size fuel a r rest
      else
        decide (1 ≤ x) && decide (1 ≤ y) &&
        decide ((x - 1) * size + y < a.length) &&
        decide ((x + 1) * size + y < a.length) &&
        decide (x * size + (y - 1) < a.length) &&
        decide (x * size + (y + 1) < a.length) &&
        (if 1 < countOpenNeighbors size a x y then
          addPathChk size fuel a r rest
        else
          addPathChk size fuel (a.set (x * size + y) false)
            (shuffleDirections r).2
            ((shuffleDirections r).1.map (fun d => dirStep d x y) ++ rest)))

/-- Checks of `GeneratorDFS::generate`: the two seed draws and the direction
draw are non-empty ranges, `maze_size - 3` and `maze_size - 1` do not
underflow, the seed write is in bounds, and the carve run checks out. -/
def dfsGenerateChk (size : Nat) (r : Rng) : Bool :=
  let a := List.replicate (size * size) true
  let px := genRange 3 (size - 3) r
  let x := px.1
  let py := genRange 3 (size - 3) px.2
  let y := py.1
  let pd := randDirection py.2
  let a1 := a.set (x * size + y) false
  decide (3 ≤ size) && decide (1 ≤ size) &&
    rangeOkIncl 3 (size - 3) && rangeOkIncl 3 (size - 3) && rangeOkIncl 0 3 &&
    decide (x * size + y < a.length) &&
    addPathChk size (4 * size * size + 5) a1 pd.2 [dirStep pd.1 x y]

/-- Checks of `GeneratorRD::get_orientation`: both width and height
subtractions are safe, and the tie-break draw is a non-empty range. -/
def getOrientationChk (sx sy ex ey : Nat) : Bool :=
  decide (sx ≤ ex) && decide (sy ≤ ey) &&
    (if ey - sy < ex - sx then true
     else if ex - sx < ey - sy then true
     else rangeOkIncl 0 1)

/-- Checks of `divide_chamber`: the guard subtractions are safe, wall and
passage draws are non-empty ranges, every wall write and the passage write
are in bounds, and both recursive calls check out on the arrays the source
run threads through them. -/
def divideChamberChk (size : Nat) :
    Nat → Nat → Nat → Nat → Nat → Orientation → Rng → List Bool → Bool
  | 0, _, _, _, _, _, _, _ => true
  | fuel + 1, sx, sy, ex, ey, orient, r, a =>
    decide (sx ≤ ex) && decide (sy ≤ ey) &&
    (if ex - sx < 1 ∨ ey - sy < 1 then true
     else
       match orient with
       | .horizontal =>
         let pw := genRangeEx sy ey r
         let wallField := pw.1
         let wallIndex := wallField * 2 + 1 + 1
         let idxs := (List.range' (sx * 2 + 1) (ex * 2 + 2 + 1 - (sx * 2 + 1))).map
           (fun n => wallIndex * size + n)
         let a1 := setAll a idxs true
         let pp := genRange sx ex pw.2
         let a2 := a1.set (wallIndex * size + (pp.1 * 2 + 1)) false
         let po1 := getOrientation sx sy ex wallField pp.2
         let po2 := getOrientation sx (wallField + 1) ex ey po1.2
         let q1 := divideChamber size fuel sx sy ex wallField po1.1 po2.2 a2
         rangeOkExcl sy ey && idxs.all (fun j => decide (j < a.length)) &&
           rangeOkIncl sx ex &&
           decide (wallIndex * size + (pp.1 * 2 + 1) < a1.length) &&
           getOrientationChk sx sy ex wallField &&
           getOrientationChk sx (wallField + 1) ex ey &&
           divideChamberChk size fuel sx sy ex wallField po1.1 po2.2 a2 &&
           divideChamberChk size fuel sx (wallField + 1) ex ey po2.1 q1.2 q1.1
       | .vertical =>
         let pw := genRangeEx sx ex r
         let wallField := pw.1
         let wallIndex := wallField * 2 + 1 + 1
         let idxs := (List.range' (sy * 2 + 1) (ey * 2 + 2 + 1 - (sy * 2 + 1))).map
           (fun n => n * size + wallIndex)
         let a1 := setAll a idxs true
         let pp := genRange sy ey pw.2
         let a2 := a1.set ((pp.1 * 2 + 1) * size + wallIndex) false
         let po1 := getOrientation sx sy wallField ey pp.2
         let po2 := getOrientation (wallField + 1) sy ex ey po1.2
         let q1 := divideChamber size fuel sx sy wallField ey po1.1 po2.2 a2
         rangeOkExcl sx ex && idxs.all (fun j => decide (j < a.length)) &&
           rangeOkIncl sy ey &&
           decide ((pp.1 * 2 + 1) * size + wallIndex < a1.length) &&
           getOrientationChk sx sy wallField ey &&
           getOrientationChk (wallField + 1) sy ex ey &&
           divideChamberChk size fuel sx sy wallField ey po1.1 po2.2 a2 &&
           divideChamberChk size fuel (wallField + 1) sy ex ey po2.1 q1.2 q1.1)

/-- Checks of `GeneratorRD::generate`: `maze_size - 1` and
`maze_fields - 1` do not underflow, every border write is in bounds, the
orientation draw is non-empty, and the division checks out. -/
def rdGenerateChk (size : Nat) (r : Rng) : Bool :=
  let a := List.replicate (size * size) false
  let a1 := setAll a (borderIdxs size) true
  let mazeFields := (size - 1) / 2
  let po := randOrientation r
  decide (1 ≤ size) &&
    (borderIdxs size).all (fun j => decide (j < a.length)) &&
    decide (1 ≤ mazeFields) &&
    rangeOkIncl 0 1 &&
    divideChamberChk size size 0 0 (mazeFields - 1) (mazeFields - 1) po.1 po.2 a1

/-- Checks of the `while` loop of `set_start_position`: each probed index is
in bounds and every redraw is a non-empty range. -/
def setStartLoopChk (size : Nat) (a : List Bool) :
    Nat → Nat → Nat → Rng → Bool
  | fuel, x, y, r =>
    decide (y * size + x < a.length) &&
    (if a.getD (y * size + x) true then
      match fuel with
      | 0 => true
      | fuel + 1 =>
        let px := genRange 1 (size - 1) r
        let py := genRange 1 (size - 1) px.2
        rangeOkIncl 1 (size - 1) && rangeOkIncl 1 (size - 1) &&
          setStartLoopChk size a fuel px.1 py.1 py.2
    else true)

/-- Checks of `set_start_position`: `maze_size - 1` does not underflow, the
two initial draws are non-empty ranges, and the loop checks out. -/
def setStartPositionChk (size : Nat) (a : List Bool) (fuel : Nat) (r : Rng) :
    Bool :=
  let px := genRange 1 (size - 1) r
  let py := genRange 1 (size - 1) px.2
  decide (1 ≤ size) && rangeOkIncl 1 (size - 1) && rangeOkIncl 1 (size - 1) &&
    setStartLoopChk size a fuel px.1 py.1 py.2

/-- Checks of `set_exit`: `maze_size - 1` and `maze_size - 2` do not
underflow, the index and border draws are non-empty ranges, and each probed
or pierced index is in bounds. -/
def setExitLoopChk (size : Nat) (a : List Bool) : Nat → Rng → Rng → Bool
  | 0, _, _ => true
  | fuel + 1, r, tr =>
    let pe := genRange 1 (size - 1) r
    let exitIndex := pe.1
    let r1 := pe.2
    let pw := randDirection tr
    let tr1 := pw.2
    decide (2 ≤ size) && rangeOkIncl 1 (size - 1) && rangeOkIncl 0 3 &&
    (match pw.1 with
     | .top =>
       decide (1 * size + exitIndex < a.length) &&
       (if a.getD (1 * size + exitIndex) true = false then
         decide (0 * size + exitIndex < a.length)
       else setExitLoopChk size a fuel r1 tr1)
     | .bottom =>
       decide ((size - 2) * size + exitIndex < a.length) &&
       (if a.getD ((size - 2) * size + exitIndex) true = false then
         decide ((size - 1) * size + exitIndex < a.length)
       else setExitLoopChk size a fuel r1 tr1)
     | .left =>
       decide (exitIndex * size + 1 < a.length) &&
       (if a.getD (exitIndex * size + 1) true = false then
         decide (exitIndex * size + 0 < a.length)
       else setExitLoopChk size a fuel r1 tr1)
     | .right =>
       decide (exitIndex * size + (size - 2) < a.length) &&
       (if a.getD (exitIndex * size + (size - 2)) true = false then
         decide (exitIndex * size + (size - 1) < a.length)
       else setExitLoopChk size a fuel r1 tr1))

/-- Checks of the whole `generate_maze()` pipeline: the selected generator
checks out, then start placement, then exit placement on the grid and
source state the real pipeline threads through them. -/
def generateMazeChk (gen : SelectedGenerator) (size0 : Nat) (r tr : Rng)
    (fuel : Nat) : Bool :=
  let sar :=
    match gen with
    | .RD =>
      let size := if size0 % 2 = 0 then size0 + 1 else size0
      let pa := rdGenerate size r
      (size, pa.1, pa.2, rdGenerateChk size r)
    | .DFS =>
      let pa := dfsGenerate size0 r
      (size0, pa.1, pa.2, dfsGenerateChk size0 r)
  let size := sar.1
  let a := sar.2.1
  sar.2.2.2 && setStartPositionChk size a fuel sar.2.2.1 &&
    (match setStartPosition size a fuel sar.2.2.1 with
     | none => true
     | some (_, r2) => setExitLoopChk size a fuel r2 tr)

/-! ## The open-cell graph, trees and chambers (statement vocabulary) -/

/-- The 4-adjacency relation on grid cells, written as (row, column) pairs; the flat array index of cell (r, c) in a maze of edge size is r * size + c. -/
def adjC (u v : Nat × Nat) : Prop :=
  (u.1 = v.1 ∧ (u.2 + 1 = v.2 ∨ v.2 + 1 = u.2)) ∨
  (u.2 = v.2 ∧ (u.1 + 1 = v.1 ∨ v.1 + 1 = u.1))

instance adjC.instDecidable (u v : Nat × Nat) : Decidable (adjC u v) := by
  unfold adjC
  exact inferInstance

/-- The set of open (passable) cells of a grid. -/
def openFinset (size : Nat) (a : List Bool) : Finset (Nat × Nat) :=
  (Finset.range size ×ˢ Finset.range size).filter
    (fun c => a.getD (c.1 * size + c.2) true = false)

/-- A step of flood fill inside the cell set `S`. -/
def stepIn (S : Finset (Nat × Nat)) (u v : Nat × Nat) : Prop :=
  u ∈ S ∧ v ∈ S ∧ adjC u v

/-- Flood-fill reachability inside the cell set `S`. -/
def ReachIn (S : Finset (Nat × Nat)) (u v : Nat × Nat) : Prop :=
  Relation.ReflTransGen (stepIn S) u v

/-- Number of 4-adjacency edges with both endpoints in `S` (each edge counted
once, at its left or top endpoint). -/
def edgeCount (S : Finset (Nat × Nat)) : Nat :=
  (S.filter (fun v => (v.1, v.2 + 1) ∈ S)).card +
    (S.filter (fun v => (v.1 + 1, v.2) ∈ S)).card

/-- Every pair of cells of `S` is joined by a flood fill inside `S`. -/
def Conn (S : Finset (Nat × Nat)) : Prop :=
  ∀ u ∈ S, ∀ v ∈ S, ReachIn S u v

/-- A certificate that `S` grew from a single root cell, each later cell
being adjacent to exactly one cell already in the set. -/
inductive CarvedTree : Finset (Nat × Nat) → Prop
  | root (c : Nat × Nat) : CarvedTree {c}
  | grow (S : Finset (Nat × Nat)) (c : Nat × Nat) (hc : c ∉ S)
      (hdeg : (S.filter (fun v => adjC c v)).card = 1)
      (hS : CarvedTree S) : CarvedTree (insert c S)

/-- A cycle inside the cell set `S`: at least three pairwise distinct cells,
all in `S`, consecutively 4-adjacent, and with the last cell adjacent to the
first again. -/
def IsCycleIn (S : Finset (Nat × Nat)) (l : List (Nat × Nat)) : Prop :=
  3 ≤ l.length ∧ l.Nodup ∧ (∀ c ∈ l, c ∈ S) ∧ l.Chain' adjC ∧
    ∀ u ∈ l.getLast?, ∀ v ∈ l.head?, adjC u v

/-- The cell set `S` contains a cycle. -/
def HasCycle (S : Finset (Nat × Nat)) : Prop :=
  ∃ l, IsCycleIn S l

/-- The cell `c` is open (passable). -/
def openCell (size : Nat) (a : List Bool) (c : Nat × Nat) : Prop :=
  a.getD (c.1 * size + c.2) true = false

/-- The cell `c` lies in the array rectangle of chamber `(sx, sy, ex, ey)`. -/
def inRect (sx sy ex ey : Nat) (c : Nat × Nat) : Prop :=
  2 * sy + 1 ≤ c.1 ∧ c.1 ≤ 2 * ey + 1 ∧ 2 * sx + 1 ≤ c.2 ∧ c.2 ≤ 2 * ex + 1

instance inRect.instDecidable (sx sy ex ey : Nat) (c : Nat × Nat) :
    Decidable (inRect sx sy ex ey c) := by
  unfold inRect
  exact inferInstance

/-- The open cells of the rectangle of chamber `(sx, sy, ex, ey)`. -/
def rectOpen (size : Nat) (a : List Bool) (sx sy ex ey : Nat) :
    Finset (Nat × Nat) :=
  ((Finset.Icc (2 * sy + 1) (2 * ey + 1)) ×ˢ
      (Finset.Icc (2 * sx + 1) (2 * ex + 1))).filter
    (fun c => a.getD (c.1 * size + c.2) true = false)

/-! ## Basic facts about the helpers -/

theorem getD_set (a : List Bool) (i j : Nat) (b d : Bool) :
    (a.set i b).getD j d = if i = j ∧ j < a.length then b else a.getD j d := by
  rw [List.getD_eq_getElem?_getD, List.getD_eq_getElem?_getD, List.getElem?_set]
  by_cases hij : i = j
  · subst hij
    by_cases hlen : i < a.length
    · simp [hlen]
    · have hnone : a[i]? = none := by
        rw [List.getElem?_eq_none_iff]
        omega
      simp [hlen, hnone]
  · simp [hij]

theorem setAll_length (idxs : List Nat) (a : List Bool) (b : Bool) :
    (setAll a idxs b).length = a.length := by
  induction idxs generalizing a with
  | nil => rfl
  | cons i t ih => simpa [setAll] using (ih (a.set i b)).trans (List.length_set a i b)

theorem getD_setAll (idxs : List Nat) (a : List Bool) (b : Bool) (j : Nat) (d : Bool) :
    (setAll a idxs b).getD j d = if j ∈ idxs ∧ j < a.length then b else a.getD j d := by
  induction idxs generalizing a with
  | nil => simp [setAll]
  | cons i t ih =>
    have hstep : setAll a (i :: t) b = setAll (a.set i b) t b := rfl
    rw [hstep, ih (a.set i b), List.length_set, getD_set]
    by_cases hjt : j ∈ t
    · by_cases hlen : j < a.length <;> simp [hjt, hlen]
    · by_cases hij : i = j
      · subst hij
        by_cases hlen : i < a.length <;> simp [hjt, hlen]
      · have hnot : ¬(j ∈ i :: t ∧ j < a.length) := by
          rintro ⟨hmem, -⟩
          rcases List.mem_cons.mp hmem with h1 | h1
          · exact hij h1.symm
          · exact hjt h1
        have hnot2 : ¬(j ∈ t ∧ j < a.length) := by
          rintro ⟨hmem, -⟩
          exact hjt hmem
        rw [if_neg hnot2, if_neg (by rintro ⟨h1, -⟩; exact hij h1), if_neg hnot]

theorem genRange_bounds (lo hi : Nat) (r : Rng) (h : lo ≤ hi) :
    lo ≤ (genRange lo hi r).1 ∧ (genRange lo hi r).1 ≤ hi := by
  have hfst : (genRange lo hi r).1 = lo + r.stream r.pos % (hi + 1 - lo) := rfl
  have hpos : 0 < hi + 1 - lo := by omega
  have hmod := Nat.mod_lt (r.stream r.pos) hpos
  omega

theorem genRange_snd (lo hi : Nat) (r : Rng) :
    (genRange lo hi r).2 = r.advance 1 := rfl

theorem genRangeEx_bounds (lo hi : Nat) (r : Rng) (h : lo < hi) :
    lo ≤ (genRangeEx lo hi r).1 ∧ (genRangeEx lo hi r).1 < hi := by
  have hfst : (genRangeEx lo hi r).1 = lo + r.stream r.pos % (hi - lo) := rfl
  have hpos : 0 < hi - lo := by omega
  have hmod := Nat.mod_lt (r.stream r.pos) hpos
  omega

/-! ## Grid cells and the open-cell graph -/

theorem adjC_symm {u v : Nat × Nat} (h : adjC u v) : adjC v u := by
  unfold adjC at h ⊢
  tauto

theorem adjC_ne {u v : Nat × Nat} (h : adjC u v) : u ≠ v := by
  intro he
  subst he
  unfold adjC at h
  rcases h with ⟨-, h2⟩ | ⟨-, h2⟩ <;> omega

/-- Injectivity of flat row-major indexing for in-range columns. -/
theorem index_inj {size r c r1 c1 : Nat} (hc : c < size) (hc1 : c1 < size)
    (h : r * size + c = r1 * size + c1) : r = r1 ∧ c = c1 := by
  have hr : r = r1 := by
    rcases Nat.lt_trichotomy r r1 with hlt | heq | hgt
    · exfalso
      have h2 : (r + 1) * size ≤ r1 * size := Nat.mul_le_mul_right size hlt
      rw [Nat.add_mul, Nat.one_mul] at h2
      omega
    · exact heq
    · exfalso
      have h2 : (r1 + 1) * size ≤ r * size := Nat.mul_le_mul_right size hgt
      rw [Nat.add_mul, Nat.one_mul] at h2
      omega
  subst hr
  omega

theorem mem_openFinset {size : Nat} {a : List Bool} {c : Nat × Nat} :
    c ∈ openFinset size a ↔
      c.1 < size ∧ c.2 < size ∧ a.getD (c.1 * size + c.2) true = false := by
  unfold openFinset
  simp [Finset.mem_filter, Finset.mem_product, and_assoc]

theorem ReachIn.mono {S T : Finset (Nat × Nat)} (hsub : S ⊆ T) {u v : Nat × Nat}
    (h : ReachIn S u v) : ReachIn T u v :=
  Relation.ReflTransGen.mono (fun _ _ hst => ⟨hsub hst.1, hsub hst.2.1, hst.2.2⟩) h

theorem ReachIn.symm {S : Finset (Nat × Nat)} {u v : Nat × Nat} (h : ReachIn S u v) :
    ReachIn S v u := by
  have hsym : Symmetric (stepIn S) := fun _ _ hst => ⟨hst.2.1, hst.1, adjC_symm hst.2.2⟩
  exact Relation.ReflTransGen.symmetric hsym h

theorem ReachIn.single {S : Finset (Nat × Nat)} {u v : Nat × Nat} (h : stepIn S u v) :
    ReachIn S u v :=
  Relation.ReflTransGen.single h

theorem ReachIn.mem_right {S : Finset (Nat × Nat)} {u v : Nat × Nat} (hu : u ∈ S)
    (h : ReachIn S u v) : v ∈ S := by
  induction h with
  | refl => exact hu
  | tail _ hstep ih => exact hstep.2.1

/-! ## Trees of open cells

`edgeCount` counts the undirected 4-adjacency edges inside a cell set by
their canonical (left/top) endpoint; `Conn` is full flood-fill connectivity;
`CarvedTree` certifies that a set was built from a root by repeatedly
attaching a fresh cell with exactly one neighbour already present — which is
precisely what the DFS carve rule enforces. -/

theorem exists_unique_neighbor {S : Finset (Nat × Nat)} {c : Nat × Nat}
    (hdeg : (S.filter (fun v => adjC c v)).card = 1) :
    ∃ s0, (s0 ∈ S ∧ adjC c s0) ∧ ∀ v ∈ S, adjC c v → v = s0 := by
  obtain ⟨s0, hs0⟩ := Finset.card_eq_one.mp hdeg
  refine ⟨s0, ?_, ?_⟩
  · have : s0 ∈ S.filter (fun v => adjC c v) := by
      rw [hs0]
      exact Finset.mem_singleton_self s0
    exact ⟨(Finset.mem_filter.mp this).1, (Finset.mem_filter.mp this).2⟩
  · intro v hv hadj
    have : v ∈ S.filter (fun v => adjC c v) := Finset.mem_filter.mpr ⟨hv, hadj⟩
    rw [hs0] at this
    exact Finset.mem_singleton.mp this

theorem carvedTree_conn {S : Finset (Nat × Nat)} (h : CarvedTree S) : Conn S := by
  induction h with
  | root c =>
    intro u hu v hv
    rw [Finset.mem_singleton] at hu hv
    subst hu
    subst hv
    exact Relation.ReflTransGen.refl
  | grow S c hc hdeg hS ih =>
    obtain ⟨s0, ⟨hs0S, hs0adj⟩, -⟩ := exists_unique_neighbor hdeg
    have hsub : S ⊆ insert c S := Finset.subset_insert c S
    have hcmem : c ∈ insert c S := Finset.mem_insert_self c S
    have hstep : ReachIn (insert c S) c s0 :=
      ReachIn.single ⟨hcmem, hsub hs0S, hs0adj⟩
    intro u hu v hv
    rcases Finset.mem_insert.mp hu with hu1 | hu1 <;>
      rcases Finset.mem_insert.mp hv with hv1 | hv1
    · subst hu1; subst hv1; exact Relation.ReflTransGen.refl
    · subst hu1
      exact hstep.trans ((ih s0 hs0S v hv1).mono hsub)
    · subst hv1
      exact ReachIn.symm (hstep.trans ((ih s0 hs0S u hu1).mono hsub))
    · exact (ih u hu1 v hv1).mono hsub

theorem filter_shift_insert (S : Finset (Nat × Nat)) (c : Nat × Nat) (f : Nat × Nat → Nat × Nat)
    (hc : c ∉ S) (hfc : f c ≠ c) :
    ((insert c S).filter (fun v => f v ∈ insert c S)).card =
      (S.filter (fun v => f v ∈ S)).card +
        ((if f c ∈ S then 1 else 0) + (S.filter (fun v => f v = c)).card) := by
  have hsplit : S.filter (fun v => f v ∈ insert c S) =
      S.filter (fun v => f v = c) ∪ S.filter (fun v => f v ∈ S) := by
    rw [← Finset.filter_or]
    exact Finset.filter_congr (fun v _ => by simp [Finset.mem_insert])
  have hdisj : Disjoint (S.filter (fun v => f v = c))
      (S.filter (fun v => f v ∈ S)) := by
    rw [Finset.disjoint_left]
    intro v hv1 hv2
    have h1 := (Finset.mem_filter.mp hv1).2
    have h2 := (Finset.mem_filter.mp hv2).2
    rw [h1] at h2
    exact hc h2
  rw [Finset.filter_insert]
  by_cases hfcS : f c ∈ S
  · rw [if_pos (Finset.mem_insert.mpr (Or.inr hfcS))]
    rw [Finset.card_insert_of_not_mem
      (fun hmem => hc (Finset.mem_filter.mp hmem).1)]
    rw [hsplit, Finset.card_union_of_disjoint hdisj, if_pos hfcS]
    omega
  · have : f c ∉ insert c S := by
      rw [Finset.mem_insert]
      rintro (h1 | h1)
      · exact hfc h1
      · exact hfcS h1
    rw [if_neg this, hsplit, Finset.card_union_of_disjoint hdisj, if_neg hfcS]
    omega

theorem neighbor_filter_card (S : Finset (Nat × Nat)) (c : Nat × Nat) :
    (S.filter (fun v => adjC c v)).card =
      ((if (c.1, c.2 + 1) ∈ S then 1 else 0) +
        (S.filter (fun v => (v.1, v.2 + 1) = c)).card) +
      ((if (c.1 + 1, c.2) ∈ S then 1 else 0) +
        (S.filter (fun v => (v.1 + 1, v.2) = c)).card) := by
  have hiff : ∀ v : Nat × Nat, adjC c v ↔
      ((v = (c.1, c.2 + 1) ∨ (v.1, v.2 + 1) = c) ∨
       (v = (c.1 + 1, c.2) ∨ (v.1 + 1, v.2) = c)) := by
    intro v
    unfold adjC
    simp only [Prod.ext_iff]
    constructor
    · rintro (⟨h1, h2 | h2⟩ | ⟨h1, h2 | h2⟩)
      · exact Or.inl (Or.inl ⟨h1.symm, h2.symm⟩)
      · exact Or.inl (Or.inr ⟨h1.symm, h2⟩)
      · exact Or.inr (Or.inl ⟨h2.symm, h1.symm⟩)
      · exact Or.inr (Or.inr ⟨h2, h1.symm⟩)
    · rintro ((⟨h1, h2⟩ | ⟨h1, h2⟩) | (⟨h1, h2⟩ | ⟨h1, h2⟩))
      · exact Or.inl ⟨h1.symm, Or.inl h2.symm⟩
      · exact Or.inl ⟨h1.symm, Or.inr h2⟩
      · exact Or.inr ⟨h2.symm, Or.inl h1.symm⟩
      · exact Or.inr ⟨h2.symm, Or.inr h1⟩
  rw [Finset.filter_congr (fun v _ => hiff v)]
  rw [Finset.filter_or, Finset.filter_or, Finset.filter_or]
  have d1 : Disjoint (S.filter (fun v => v = (c.1, c.2 + 1)))
      (S.filter (fun v => (v.1, v.2 + 1) = c)) := by
    rw [Finset.disjoint_left]
    intro v h1 h2
    have e1 := (Finset.mem_filter.mp h1).2
    have e2 := (Finset.mem_filter.mp h2).2
    rw [e1] at e2
    have := congrArg Prod.snd e2
    simp at this
    omega
  have d2 : Disjoint (S.filter (fun v => v = (c.1 + 1, c.2)))
      (S.filter (fun v => (v.1 + 1, v.2) = c)) := by
    rw [Finset.disjoint_left]
    intro v h1 h2
    have e1 := (Finset.mem_filter.mp h1).2
    have e2 := (Finset.mem_filter.mp h2).2
    rw [e1] at e2
    have := congrArg Prod.fst e2
    simp at this
    omega
  have d3 : Disjoint
      (S.filter (fun v => v = (c.1, c.2 + 1)) ∪
        S.filter (fun v => (v.1, v.2 + 1) = c))
      (S.filter (fun v => v = (c.1 + 1, c.2)) ∪
        S.filter (fun v => (v.1 + 1, v.2) = c)) := by
    rw [Finset.disjoint_left]
    intro v h1 h2
    rw [Finset.mem_union] at h1 h2
    have e1 : (v.1 = c.1 ∧ v.2 = c.2 + 1) ∨ (v.1 = c.1 ∧ v.2 + 1 = c.2) := by
      rcases h1 with h | h
      · have := (Finset.mem_filter.mp h).2
        rw [this]
        exact Or.inl ⟨rfl, rfl⟩
      · have := (Finset.mem_filter.mp h).2
        rw [Prod.ext_iff] at this
        exact Or.inr ⟨this.1, this.2⟩
    have e2 : (v.1 = c.1 + 1 ∧ v.2 = c.2) ∨ (v.1 + 1 = c.1 ∧ v.2 = c.2) := by
      rcases h2 with h | h
      · have := (Finset.mem_filter.mp h).2
        rw [this]
        exact Or.inl ⟨rfl, rfl⟩
      · have := (Finset.mem_filter.mp h).2
        rw [Prod.ext_iff] at this
        exact Or.inr ⟨this.1, this.2⟩
    omega
  rw [Finset.card_union_of_disjoint d3, Finset.card_union_of_disjoint d1,
    Finset.card_union_of_disjoint d2]
  have s1 : (S.filter (fun v => v = (c.1, c.2 + 1))).card =
      if (c.1, c.2 + 1) ∈ S then 1 else 0 := by
    rw [Finset.filter_eq']
    by_cases hmem : (c.1, c.2 + 1) ∈ S <;> simp [hmem]
  have s2 : (S.filter (fun v => v = (c.1 + 1, c.2))).card =
      if (c.1 + 1, c.2) ∈ S then 1 else 0 := by
    rw [Finset.filter_eq']
    by_cases hmem : (c.1 + 1, c.2) ∈ S <;> simp [hmem]
  simp only [Finset.filter_congr_decidable] at s1 s2 ⊢
  omega

theorem edgeCount_insert (S : Finset (Nat × Nat)) (c : Nat × Nat) (hc : c ∉ S) :
    edgeCount (insert c S) = edgeCount S + (S.filter (fun v => adjC c v)).card := by
  unfold edgeCount
  rw [filter_shift_insert S c (fun v => (v.1, v.2 + 1)) hc
      (by intro h; simp [Prod.ext_iff] at h),
    filter_shift_insert S c (fun v => (v.1 + 1, v.2)) hc
      (by intro h; simp [Prod.ext_iff] at h),
    neighbor_filter_card]
  omega

theorem carvedTree_edgeCount {S : Finset (Nat × Nat)} (h : CarvedTree S) :
    edgeCount S + 1 = S.card := by
  induction h with
  | root c =>
    have h1 : edgeCount {c} = 0 := by
      unfold edgeCount
      rw [Finset.filter_singleton, Finset.filter_singleton]
      rw [if_neg (by rw [Finset.mem_singleton, Prod.ext_iff]; simp),
        if_neg (by rw [Finset.mem_singleton, Prod.ext_iff]; simp)]
      simp
    rw [h1, Finset.card_singleton]
  | grow S c hc hdeg hS ih =>
    rw [edgeCount_insert S c hc, hdeg, Finset.card_insert_of_not_mem hc]
    omega

theorem mem_of_mem_getLast? {l : List (Nat × Nat)} {u : Nat × Nat}
    (h : u ∈ l.getLast?) : u ∈ l := by
  obtain ⟨hne, rfl⟩ := List.mem_getLast?_eq_getLast h
  exact List.getLast_mem hne

/-- Any cell on a cycle has two distinct cycle neighbours. -/
theorem cycle_two_neighbors {S : Finset (Nat × Nat)} {l : List (Nat × Nat)}
    (hcyc : IsCycleIn S l) {c : Nat × Nat} (hc : c ∈ l) :
    ∃ u v, u ∈ l ∧ v ∈ l ∧ u ≠ v ∧ u ≠ c ∧ v ≠ c ∧ adjC c u ∧ adjC c v := by
  obtain ⟨hlen, hnodup, -, hchain, hclose⟩ := hcyc
  obtain ⟨l1, l2, rfl⟩ := List.append_of_mem hc
  have hnd := hnodup
  rw [List.nodup_append] at hnd
  obtain ⟨hnd1, hnd2, hdisj⟩ := hnd
  have hcnotl1 : c ∉ l1 := fun hmem1 => (hdisj hmem1) (List.mem_cons_self c l2)
  have hcnotl2 : c ∉ l2 := (List.nodup_cons.mp hnd2).1
  have hndl2 : l2.Nodup := (List.nodup_cons.mp hnd2).2
  rw [List.chain'_append] at hchain
  obtain ⟨hch1, hch2, hjoin⟩ := hchain
  rcases l2 with - | ⟨h2, t2⟩
  · rcases l1 with - | ⟨h1, t1⟩
    · simp at hlen
    · have hlastfull : ((h1 :: t1) ++ [c]).getLast? = some c := List.getLast?_concat _
      have hadjh1 : adjC c h1 :=
        hclose c (Option.mem_def.mpr hlastfull) h1 (Option.mem_def.mpr rfl)
      rcases t1 with - | ⟨th, tt⟩
      · simp at hlen
      · obtain ⟨u0, hu0⟩ := Option.isSome_iff_exists.mp
          (List.getLast?_isSome.mpr (List.cons_ne_nil th tt))
        have hu0full : (h1 :: th :: tt).getLast? = some u0 := by
          rw [List.getLast?_cons_cons]
          exact hu0
        have hu0mem : u0 ∈ th :: tt := mem_of_mem_getLast? (Option.mem_def.mpr hu0)
        have hu0meml1 : u0 ∈ h1 :: th :: tt := List.mem_cons_of_mem h1 hu0mem
        have hadju0 : adjC u0 c :=
          hjoin u0 (Option.mem_def.mpr hu0full) c (Option.mem_def.mpr rfl)
        exact ⟨u0, h1, List.mem_append_left _ hu0meml1,
          List.mem_append_left _ (by simp),
          fun heq => (List.nodup_cons.mp hnd1).1 (heq ▸ hu0mem),
          fun heq => hcnotl1 (heq ▸ hu0meml1),
          fun heq => hcnotl1 (heq ▸ List.mem_cons_self h1 _),
          adjC_symm hadju0, hadjh1⟩
  · have hadj2 : adjC c h2 := (List.chain'_cons.mp hch2).1
    rcases l1 with - | ⟨h1, t1⟩
    · rcases t2 with - | ⟨th, tt⟩
      · simp at hlen
      · obtain ⟨u0, hu0⟩ := Option.isSome_iff_exists.mp
          (List.getLast?_isSome.mpr (List.cons_ne_nil th tt))
        have hu0mem : u0 ∈ th :: tt := mem_of_mem_getLast? (Option.mem_def.mpr hu0)
        have hu0meml2 : u0 ∈ h2 :: th :: tt := List.mem_cons_of_mem h2 hu0mem
        have hu0full : ([] ++ c :: h2 :: th :: tt).getLast? = some u0 := by
          rw [List.nil_append, List.getLast?_cons_cons, List.getLast?_cons_cons]
          exact hu0
        have hadju0 : adjC u0 c :=
          hclose u0 (Option.mem_def.mpr hu0full) c (Option.mem_def.mpr rfl)
        exact ⟨u0, h2, List.mem_append_right _ (List.mem_cons_of_mem c hu0meml2),
          List.mem_append_right _ (by simp),
          fun heq => (List.nodup_cons.mp hndl2).1 (heq ▸ hu0mem),
          fun heq => hcnotl2 (heq ▸ hu0meml2),
          fun heq => hcnotl2 (heq ▸ List.mem_cons_self h2 _),
          adjC_symm hadju0, hadj2⟩
    · obtain ⟨u0, hu0⟩ := Option.isSome_iff_exists.mp
        (List.getLast?_isSome.mpr (List.cons_ne_nil h1 t1))
      have hu0mem : u0 ∈ h1 :: t1 := mem_of_mem_getLast? (Option.mem_def.mpr hu0)
      have hadju0 : adjC u0 c :=
        hjoin u0 (Option.mem_def.mpr hu0) c (Option.mem_def.mpr rfl)
      exact ⟨u0, h2, List.mem_append_left _ hu0mem,
        List.mem_append_right _ (by simp),
        fun heq => (hdisj hu0mem)
          (by rw [heq]; exact List.mem_cons_of_mem c (List.mem_cons_self h2 t2)),
        fun heq => hcnotl1 (heq ▸ hu0mem),
        fun heq => hcnotl2 (heq ▸ List.mem_cons_self h2 _),
        adjC_symm hadju0, hadj2⟩

/-- A carved tree has no cycle. -/
theorem carvedTree_noCycle {S : Finset (Nat × Nat)} (h : CarvedTree S) :
    ¬ HasCycle S := by
  induction h with
  | root c =>
    rintro ⟨l, hlen, hnodup, hmem, -, -⟩
    match l, hlen with
    | a :: b :: t, _ =>
      have ha : a = c := Finset.mem_singleton.mp (hmem a (by simp))
      have hb : b = c := Finset.mem_singleton.mp (hmem b (by simp))
      have : a ∉ b :: t := (List.nodup_cons.mp hnodup).1
      exact this (by simp [ha, hb])
  | grow S c hc hdeg hS ih =>
    rintro ⟨l, hcyc⟩
    by_cases hcl : c ∈ l
    · obtain ⟨u, v, hul, hvl, huv, huc, hvc, hadju, hadjv⟩ :=
        cycle_two_neighbors hcyc hcl
      have huS : u ∈ S := by
        rcases Finset.mem_insert.mp (hcyc.2.2.1 u hul) with h1 | h1
        · exact absurd h1 huc
        · exact h1
      have hvS : v ∈ S := by
        rcases Finset.mem_insert.mp (hcyc.2.2.1 v hvl) with h1 | h1
        · exact absurd h1 hvc
        · exact h1
      have hsub : {u, v} ⊆ S.filter (fun w => adjC c w) := by
        intro w hw
        rcases Finset.mem_insert.mp hw with h1 | h1
        · exact Finset.mem_filter.mpr ⟨h1 ▸ huS, h1 ▸ hadju⟩
        · have h2 := Finset.mem_singleton.mp h1
          exact Finset.mem_filter.mpr ⟨h2 ▸ hvS, h2 ▸ hadjv⟩
      have hge : 2 ≤ (S.filter (fun w => adjC c w)).card := by
        have h2 : ({u, v} : Finset (Nat × Nat)).card = 2 := by
          rw [Finset.card_insert_of_not_mem (by simp [huv]), Finset.card_singleton]
        calc 2 = ({u, v} : Finset (Nat × Nat)).card := h2.symm
          _ ≤ _ := Finset.card_le_card hsub
      omega
    · refine ih ⟨l, hcyc.1, hcyc.2.1, ?_, hcyc.2.2.2.1, hcyc.2.2.2.2⟩
      intro w hw
      rcases Finset.mem_insert.mp (hcyc.2.2.1 w hw) with h1 | h1
      · exact absurd (h1 ▸ hw) hcl
      · exact h1

/-! ## DFS invariants -/

theorem index_lt {size x y : Nat} (hx : x < size) (hy : y < size) :
    x * size + y < size * size := by
  have h1 : (x + 1) * size ≤ size * size := Nat.mul_le_mul_right size hx
  rw [Nat.add_mul, Nat.one_mul] at h1
  omega

theorem openFinset_set_false {size : Nat} {a : List Bool} {x y : Nat}
    (hx : x < size) (hy : y < size) (hlen : a.length = size * size) :
    openFinset size (a.set (x * size + y) false) =
      insert (x, y) (openFinset size a) := by
  ext c
  rcases c with ⟨r, q⟩
  rw [Finset.mem_insert, mem_openFinset, mem_openFinset, getD_set]
  constructor
  · rintro ⟨hr, hq, hval⟩
    by_cases hidx : x * size + y = r * size + q ∧ r * size + q < a.length
    · obtain ⟨hxr, hyq⟩ := index_inj hy hq hidx.1
      exact Or.inl (by rw [Prod.ext_iff]; exact ⟨hxr.symm, hyq.symm⟩)
    · rw [if_neg hidx] at hval
      exact Or.inr ⟨hr, hq, hval⟩
  · rintro (heq | ⟨hr, hq, hval⟩)
    · rw [Prod.ext_iff] at heq
      obtain ⟨h1, h2⟩ := heq
      subst h1
      subst h2
      refine ⟨hx, hy, ?_⟩
      rw [if_pos ⟨rfl, by rw [hlen]; exact index_lt hx hy⟩]
    · refine ⟨hr, hq, ?_⟩
      by_cases hidx : x * size + y = r * size + q ∧ r * size + q < a.length
      · rw [if_pos hidx]
      · rw [if_neg hidx]
        exact hval

theorem getD_set_false_mono {a : List Bool} {i j : Nat}
    (h : a.getD j true = false) : (a.set i false).getD j true = false := by
  rw [getD_set]
  by_cases hij : i = j ∧ j < a.length
  · rw [if_pos hij]
  · rw [if_neg hij]
    exact h

theorem countOpenNeighbors_mono {size : Nat} {a a1 : List Bool} {x y : Nat}
    (h : ∀ j, a.getD j true = false → a1.getD j true = false) :
    countOpenNeighbors size a x y ≤ countOpenNeighbors size a1 x y := by
  unfold countOpenNeighbors
  have hmono : ∀ j : Nat,
      (if a.getD j true = false then 1 else 0) ≤
        (if a1.getD j true = false then 1 else 0) := by
    intro j
    by_cases hj : a.getD j true = false
    · rw [if_pos hj, if_pos (h j hj)]
    · rw [if_neg hj]
      omega
  exact Nat.add_le_add (Nat.add_le_add (Nat.add_le_add (hmono _) (hmono _)) (hmono _))
    (hmono _)

theorem countOpenNeighbors_eq_filter {size : Nat} {a : List Bool} {x y : Nat}
    (hx1 : 1 ≤ x) (hx2 : x ≤ size - 2)
    (hy1 : 1 ≤ y) (hy2 : y ≤ size - 2) (hsz : 3 ≤ size) :
    countOpenNeighbors size a x y =
      ((openFinset size a).filter (fun v => adjC (x, y) v)).card := by
  rw [neighbor_filter_card]
  have hxlt : x < size := by omega
  have hylt : y < size := by omega
  have hxp : x + 1 < size := by omega
  have hyp : y + 1 < size := by omega
  have t1 : ((x, y).1, (x, y).2 + 1) ∈ openFinset size a ↔
      a.getD (x * size + (y + 1)) true = false := by
    rw [mem_openFinset]
    constructor
    · rintro ⟨-, -, hval⟩
      exact hval
    · intro hval
      exact ⟨hxlt, hyp, hval⟩
  have t2 : ((x, y).1 + 1, (x, y).2) ∈ openFinset size a ↔
      a.getD ((x + 1) * size + y) true = false := by
    rw [mem_openFinset]
    constructor
    · rintro ⟨-, -, hval⟩
      exact hval
    · intro hval
      exact ⟨hxp, hylt, hval⟩
  have t3 : (openFinset size a).filter (fun v => (v.1, v.2 + 1) = (x, y)) =
      (openFinset size a).filter (fun v => v = (x, y - 1)) := by
    apply Finset.filter_congr
    intro v hv
    rw [Prod.ext_iff, Prod.ext_iff]
    simp only []
    omega
  have t4 : (openFinset size a).filter (fun v => (v.1 + 1, v.2) = (x, y)) =
      (openFinset size a).filter (fun v => v = (x - 1, y)) := by
    apply Finset.filter_congr
    intro v hv
    rw [Prod.ext_iff, Prod.ext_iff]
    simp only []
    omega
  have t5 : ((openFinset size a).filter (fun v => v = (x, y - 1))).card =
      if (x, y - 1) ∈ openFinset size a then 1 else 0 := by
    rw [Finset.filter_eq']
    by_cases hmem : (x, y - 1) ∈ openFinset size a <;> simp [hmem]
  have t6 : ((openFinset size a).filter (fun v => v = (x - 1, y))).card =
      if (x - 1, y) ∈ openFinset size a then 1 else 0 := by
    rw [Finset.filter_eq']
    by_cases hmem : (x - 1, y) ∈ openFinset size a <;> simp [hmem]
  have t7 : (x, y - 1) ∈ openFinset size a ↔
      a.getD (x * size + (y - 1)) true = false := by
    rw [mem_openFinset]
    constructor
    · rintro ⟨-, -, hval⟩
      exact hval
    · intro hval
      exact ⟨hxlt, by omega, hval⟩
  have t8 : (x - 1, y) ∈ openFinset size a ↔
      a.getD ((x - 1) * size + y) true = false := by
    rw [mem_openFinset]
    constructor
    · rintro ⟨-, -, hval⟩
      exact hval
    · intro hval
      exact ⟨by omega, hylt, hval⟩
  rw [t3, t4, t5, t6]
  simp only [t1, t2, t7, t8]
  unfold countOpenNeighbors
  omega

theorem pushed_candidate_count {size : Nat} {a1 : List Bool} {x y : Nat}
    (hx1 : 1 ≤ x) (hy1 : 1 ≤ y)
    (hopen : a1.getD (x * size + y) true = false) (d : Direction) :
    1 ≤ countOpenNeighbors size a1 (dirStep d x y).1 (dirStep d x y).2 := by
  rcases d with - | - | - | -
  · have : x * size + (y - 1 + 1) = x * size + y := by omega
    unfold dirStep countOpenNeighbors
    simp only []
    rw [this, if_pos hopen]
    omega
  · have : x * size + (y + 1 - 1) = x * size + y := by omega
    unfold dirStep countOpenNeighbors
    simp only []
    rw [this, if_pos hopen]
    omega
  · have h1 : x - 1 + 1 = x := by omega
    have : (x - 1 + 1) * size + y = x * size + y := by rw [h1]
    unfold dirStep countOpenNeighbors
    simp only []
    rw [this, if_pos hopen]
    omega
  · have h1 : x + 1 - 1 = x := by omega
    have : (x + 1 - 1) * size + y = x * size + y := by rw [h1]
    unfold dirStep countOpenNeighbors
    simp only []
    rw [this, if_pos hopen]
    omega

/-- The carve invariant of `add_path`: if the open cells form a carved tree
and every pending candidate already touches an open cell, then this is
preserved (for any fuel), the array keeps its length, and cells only ever
open (never close). -/
theorem addPath_invariant (size : Nat) (fuel : Nat) :
    ∀ (a : List Bool) (r : Rng) (stack : List (Nat × Nat)),
      a.length = size * size →
      CarvedTree (openFinset size a) →
      (∀ p ∈ stack, 1 ≤ countOpenNeighbors size a p.1 p.2) →
      (addPath size fuel a r stack).1.length = size * size ∧
      (∀ j, a.getD j true = false →
        (addPath size fuel a r stack).1.getD j true = false) ∧
      CarvedTree (openFinset size (addPath size fuel a r stack).1) := by
  induction fuel with
  | zero =>
    intro a r stack hlen hct hstack
    exact ⟨hlen, fun j h => h, hct⟩
  | succ fuel ih =>
    intro a r stack hlen hct hstack
    rcases stack with - | ⟨⟨x, y⟩, rest⟩
    · exact ⟨hlen, fun j h => h, hct⟩
    · by_cases hguard : size - 1 ≤ x ∨ x < 1 ∨ y < 1 ∨ size - 1 ≤ y
      · rw [show addPath size (fuel + 1) a r ((x, y) :: rest) =
            addPath size fuel a r rest from by
          simp only [addPath]
          rw [if_pos hguard]]
        exact ih a r rest hlen hct (fun p hp => hstack p (List.mem_cons_of_mem _ hp))
      · by_cases hopen : a.getD (x * size + y) true = false
        · rw [show addPath size (fuel + 1) a r ((x, y) :: rest) =
              addPath size fuel a r rest from by
            simp only [addPath]
            rw [if_neg hguard, if_pos hopen]]
          exact ih a r rest hlen hct (fun p hp => hstack p (List.mem_cons_of_mem _ hp))
        · by_cases hcnt : 1 < countOpenNeighbors size a x y
          · rw [show addPath size (fuel + 1) a r ((x, y) :: rest) =
                addPath size fuel a r rest from by
              simp only [addPath]
              rw [if_neg hguard, if_neg hopen, if_pos hcnt]]
            exact ih a r rest hlen hct (fun p hp => hstack p (List.mem_cons_of_mem _ hp))
          · have heq : addPath size (fuel + 1) a r ((x, y) :: rest) =
                addPath size fuel (a.set (x * size + y) false) (shuffleDirections r).2
                  ((shuffleDirections r).1.map (fun d => dirStep d x y) ++ rest) := by
              simp only [addPath]
              rw [if_neg hguard, if_neg hopen, if_neg hcnt]
            push_neg at hguard
            obtain ⟨hg1, hg2, hg3, hg4⟩ := hguard
            have hx : x < size := by omega
            have hy : y < size := by omega
            have hsz : 3 ≤ size := by omega
            have hlen1 : (a.set (x * size + y) false).length = size * size := by
              rw [List.length_set]
              exact hlen
            have hopen1 : (a.set (x * size + y) false).getD (x * size + y) true
                = false := by
              rw [getD_set, if_pos ⟨rfl, by rw [hlen]; exact index_lt hx hy⟩]
            have hcmem : (x, y) ∉ openFinset size a := by
              rw [mem_openFinset]
              rintro ⟨-, -, hv⟩
              exact hopen hv
            have hcnt1 : countOpenNeighbors size a x y = 1 := by
              have hge : 1 ≤ countOpenNeighbors size a x y :=
                hstack (x, y) (List.mem_cons_self _ _)
              omega
            have hdeg : ((openFinset size a).filter
                (fun v => adjC (x, y) v)).card = 1 := by
              rw [← countOpenNeighbors_eq_filter hg2 (by omega) hg3 (by omega) hsz]
              exact hcnt1
            have hct1 : CarvedTree (openFinset size (a.set (x * size + y) false)) := by
              rw [openFinset_set_false hx hy hlen]
              exact CarvedTree.grow _ _ hcmem hdeg hct
            have hmono1 : ∀ j, a.getD j true = false →
                (a.set (x * size + y) false).getD j true = false :=
              fun j hj => getD_set_false_mono hj
            have hstack1 : ∀ p ∈ (shuffleDirections r).1.map
                (fun d => dirStep d x y) ++ rest,
                1 ≤ countOpenNeighbors size (a.set (x * size + y) false) p.1 p.2 := by
              intro p hp
              rcases List.mem_append.mp hp with hp1 | hp1
              · obtain ⟨d, -, rfl⟩ := List.mem_map.mp hp1
                exact pushed_candidate_count hg2 hg3 hopen1 d
              · calc 1 ≤ countOpenNeighbors size a p.1 p.2 :=
                    hstack p (List.mem_cons_of_mem _ hp1)
                  _ ≤ _ := countOpenNeighbors_mono hmono1
            rw [heq]
            obtain ⟨hl, hm, hc⟩ := ih (a.set (x * size + y) false)
              (shuffleDirections r).2 _ hlen1 hct1 hstack1
            exact ⟨hl, fun j hj => hm j (hmono1 j hj), hc⟩

theorem getD_replicate_true (n j : Nat) :
    (List.replicate n true).getD j true = true := by
  rw [List.getD_eq_getElem?_getD, List.getElem?_replicate]
  by_cases hj : j < n <;> simp [hj]

theorem openFinset_replicate_true (size : Nat) :
    openFinset size (List.replicate (size * size) true) = ∅ := by
  ext c
  rw [mem_openFinset]
  simp [getD_replicate_true]

/-- After `GeneratorDFS::generate` the open cells form a carved tree and the
array has the right length. -/
theorem dfsGenerate_invariant (size : Nat) (r : Rng) (hsz : 7 ≤ size) :
    (dfsGenerate size r).1.length = size * size ∧
    (CarvedTree (openFinset size (dfsGenerate size r).1)) ∧
    (∃ p : Nat × Nat, 1 ≤ p.1 ∧ p.1 ≤ size - 2 ∧ 1 ≤ p.2 ∧ p.2 ≤ size - 2 ∧
      (dfsGenerate size r).1.getD (p.1 * size + p.2) true = false) := by
  have hseed : 3 ≤ size - 3 := by omega
  have hxb := genRange_bounds 3 (size - 3) r hseed
  have hyb := genRange_bounds 3 (size - 3) (genRange 3 (size - 3) r).2 hseed
  set x := (genRange 3 (size - 3) r).1 with hxdef
  set y := (genRange 3 (size - 3) (genRange 3 (size - 3) r).2).1 with hydef
  have hx : x < size := by omega
  have hy : y < size := by omega
  have hx1 : 1 ≤ x := by omega
  have hy1 : 1 ≤ y := by omega
  have hlen0 : (List.replicate (size * size) true).length = size * size :=
    List.length_replicate _ _
  have hlen1 : ((List.replicate (size * size) true).set (x * size + y) false).length
      = size * size := by
    rw [List.length_set]
    exact hlen0
  have hof : openFinset size
      ((List.replicate (size * size) true).set (x * size + y) false) = {(x, y)} := by
    rw [openFinset_set_false hx hy hlen0, openFinset_replicate_true]
    rfl
  have hct : CarvedTree (openFinset size
      ((List.replicate (size * size) true).set (x * size + y) false)) := by
    rw [hof]
    exact CarvedTree.root (x, y)
  have hopen1 : ((List.replicate (size * size) true).set (x * size + y) false).getD
      (x * size + y) true = false := by
    rw [getD_set, if_pos ⟨rfl, by rw [hlen0]; exact index_lt hx hy⟩]
  have hstack : ∀ p ∈ [dirStep (randDirection
        (genRange 3 (size - 3) (genRange 3 (size - 3) r).2).2).1 x y],
      1 ≤ countOpenNeighbors size
        ((List.replicate (size * size) true).set (x * size + y) false) p.1 p.2 := by
    intro p hp
    rcases List.mem_singleton.mp hp with rfl
    exact pushed_candidate_count hx1 hy1 hopen1 _
  have hmain := addPath_invariant size (4 * size * size + 5)
    ((List.replicate (size * size) true).set (x * size + y) false)
    (randDirection (genRange 3 (size - 3) (genRange 3 (size - 3) r).2).2).2
    [dirStep (randDirection (genRange 3 (size - 3) (genRange 3 (size - 3) r).2).2).1 x y]
    hlen1 hct hstack
  exact ⟨hmain.1, hmain.2.2,
    ⟨(x, y), hx1, by omega, hy1, by omega, hmain.2.1 (x * size + y) hopen1⟩⟩

/-- `add_path` writes only interior cells: any index that is not of the form
`x * size + y` with `x, y ∈ [1, size-2]` keeps its value. -/
theorem addPath_frame (size : Nat) (fuel : Nat) :
    ∀ (a : List Bool) (r : Rng) (stack : List (Nat × Nat)) (j : Nat),
      (∀ x y : Nat, 1 ≤ x → x ≤ size - 2 → 1 ≤ y → y ≤ size - 2 →
        j ≠ x * size + y) →
      (addPath size fuel a r stack).1.getD j true = a.getD j true := by
  induction fuel with
  | zero =>
    intro a r stack j hj
    rfl
  | succ fuel ih =>
    intro a r stack j hj
    rcases stack with - | ⟨⟨x, y⟩, rest⟩
    · rfl
    · by_cases hguard : size - 1 ≤ x ∨ x < 1 ∨ y < 1 ∨ size - 1 ≤ y
      · rw [show addPath size (fuel + 1) a r ((x, y) :: rest) =
            addPath size fuel a r rest from by
          simp only [addPath]
          rw [if_pos hguard]]
        exact ih a r rest j hj
      · by_cases hopen : a.getD (x * size + y) true = false
        · rw [show addPath size (fuel + 1) a r ((x, y) :: rest) =
              addPath size fuel a r rest from by
            simp only [addPath]
            rw [if_neg hguard, if_pos hopen]]
          exact ih a r rest j hj
        · by_cases hcnt : 1 < countOpenNeighbors size a x y
          · rw [show addPath size (fuel + 1) a r ((x, y) :: rest) =
                addPath size fuel a r rest from by
              simp only [addPath]
              rw [if_neg hguard, if_neg hopen, if_pos hcnt]]
            exact ih a r rest j hj
          · rw [show addPath size (fuel + 1) a r ((x, y) :: rest) =
                addPath size fuel (a.set (x * size + y) false) (shuffleDirections r).2
                  ((shuffleDirections r).1.map (fun d => dirStep d x y) ++ rest) from by
              simp only [addPath]
              rw [if_neg hguard, if_neg hopen, if_neg hcnt]]
            push_neg at hguard
            obtain ⟨hg1, hg2, hg3, hg4⟩ := hguard
            rw [ih _ _ _ j hj, getD_set,
              if_neg (fun hcon =>
                hj x y hg2 (by omega) hg3 (by omega) hcon.1.symm)]

/-- Border cells are walls after `GeneratorDFS::generate`. -/
theorem dfsGenerate_border (size : Nat) (r : Rng) (hsz : 7 ≤ size)
    (r0 c0 : Nat) (hr0 : r0 < size) (hc0 : c0 < size)
    (hring : r0 = 0 ∨ r0 = size - 1 ∨ c0 = 0 ∨ c0 = size - 1) :
    (dfsGenerate size r).1.getD (r0 * size + c0) true = true := by
  have hseed : 3 ≤ size - 3 := by omega
  have hxb := genRange_bounds 3 (size - 3) r hseed
  have hyb := genRange_bounds 3 (size - 3) (genRange 3 (size - 3) r).2 hseed
  set x := (genRange 3 (size - 3) r).1 with hxdef
  set y := (genRange 3 (size - 3) (genRange 3 (size - 3) r).2).1 with hydef
  have hj : ∀ x1 y1 : Nat, 1 ≤ x1 → x1 ≤ size - 2 → 1 ≤ y1 → y1 ≤ size - 2 →
      r0 * size + c0 ≠ x1 * size + y1 := by
    intro x1 y1 h1 h2 h3 h4 hcon
    obtain ⟨he1, he2⟩ := index_inj hc0 (by omega) hcon
    omega
  have hframe := addPath_frame size (4 * size * size + 5)
    ((List.replicate (size * size) true).set (x * size + y) false)
    (randDirection (genRange 3 (size - 3) (genRange 3 (size - 3) r).2).2).2
    [dirStep (randDirection (genRange 3 (size - 3) (genRange 3 (size - 3) r).2).2).1 x y]
    (r0 * size + c0) hj
  have hres : (dfsGenerate size r).1 = (addPath size (4 * size * size + 5)
      ((List.replicate (size * size) true).set (x * size + y) false)
      (randDirection (genRange 3 (size - 3) (genRange 3 (size - 3) r).2).2).2
      [dirStep (randDirection
        (genRange 3 (size - 3) (genRange 3 (size - 3) r).2).2).1 x y]).1 := rfl
  rw [hres, hframe, getD_set,
    if_neg (fun hcon => hj x y (by omega) (by omega) (by omega) (by omega) hcon.1.symm),
    getD_replicate_true]

/-! ## RD invariants

A chamber `(sx, sy, ex, ey)` of `divide_chamber` covers the array rectangle
with rows `[2*sy+1, 2*ey+1]` and columns `[2*sx+1, 2*ex+1]`. -/

theorem mem_rectOpen {size : Nat} {a : List Bool} {sx sy ex ey : Nat}
    {c : Nat × Nat} :
    c ∈ rectOpen size a sx sy ex ey ↔ inRect sx sy ex ey c ∧ openCell size a c := by
  unfold rectOpen inRect openCell
  rw [Finset.mem_filter, Finset.mem_product, Finset.mem_Icc, Finset.mem_Icc]
  tauto

theorem rectOpen_congr {size : Nat} {a a1 : List Bool} {sx sy ex ey : Nat}
    (h : ∀ c : Nat × Nat, inRect sx sy ex ey c →
      a1.getD (c.1 * size + c.2) true = a.getD (c.1 * size + c.2) true) :
    rectOpen size a1 sx sy ex ey = rectOpen size a sx sy ex ey := by
  ext c
  rw [mem_rectOpen, mem_rectOpen]
  unfold openCell
  constructor
  · rintro ⟨hin, hval⟩
    exact ⟨hin, by rw [← h c hin]; exact hval⟩
  · rintro ⟨hin, hval⟩
    exact ⟨hin, by rw [h c hin]; exact hval⟩

theorem rectOpen_mono {size : Nat} {a : List Bool}
    {sx sy ex ey sx1 sy1 ex1 ey1 : Nat}
    (h : ∀ c : Nat × Nat, inRect sx1 sy1 ex1 ey1 c → inRect sx sy ex ey c) :
    rectOpen size a sx1 sy1 ex1 ey1 ⊆ rectOpen size a sx sy ex ey := by
  intro c hc
  rw [mem_rectOpen] at hc ⊢
  exact ⟨h c hc.1, hc.2⟩

/-- Horizontal move inside an all-open rectangle. -/
theorem rect_reach_col {size : Nat} {a : List Bool} {sx sy ex ey : Nat}
    (hopen : ∀ c : Nat × Nat, inRect sx sy ex ey c → openCell size a c) :
    ∀ (d r0 c0 : Nat), inRect sx sy ex ey (r0, c0) →
      inRect sx sy ex ey (r0, c0 + d) →
      ReachIn (rectOpen size a sx sy ex ey) (r0, c0) (r0, c0 + d) := by
  intro d
  induction d with
  | zero =>
    intro r0 c0 h1 h2
    exact Relation.ReflTransGen.refl
  | succ d ih =>
    intro r0 c0 h1 h2
    have hmid : inRect sx sy ex ey (r0, c0 + d) := by
      obtain ⟨a1, a2, a3, a4⟩ := h1
      obtain ⟨b1, b2, b3, b4⟩ := h2
      exact ⟨a1, a2, by simp at a3 ⊢; omega, by simp at b4 ⊢; omega⟩
    have hstep : stepIn (rectOpen size a sx sy ex ey) (r0, c0 + d) (r0, c0 + d + 1) :=
      ⟨mem_rectOpen.mpr ⟨hmid, hopen _ hmid⟩,
       mem_rectOpen.mpr ⟨h2, hopen _ h2⟩,
       Or.inl ⟨rfl, Or.inl rfl⟩⟩
    exact Relation.ReflTransGen.tail (ih r0 c0 h1 hmid) hstep

/-- Vertical move inside an all-open rectangle. -/
theorem rect_reach_row {size : Nat} {a : List Bool} {sx sy ex ey : Nat}
    (hopen : ∀ c : Nat × Nat, inRect sx sy ex ey c → openCell size a c) :
    ∀ (d r0 c0 : Nat), inRect sx sy ex ey (r0, c0) →
      inRect sx sy ex ey (r0 + d, c0) →
      ReachIn (rectOpen size a sx sy ex ey) (r0, c0) (r0 + d, c0) := by
  intro d
  induction d with
  | zero =>
    intro r0 c0 h1 h2
    exact Relation.ReflTransGen.refl
  | succ d ih =>
    intro r0 c0 h1 h2
    have hmid : inRect sx sy ex ey (r0 + d, c0) := by
      obtain ⟨a1, a2, a3, a4⟩ := h1
      obtain ⟨b1, b2, b3, b4⟩ := h2
      exact ⟨by simp at a1 ⊢; omega, by simp at b2 ⊢; omega, a3, a4⟩
    have hstep : stepIn (rectOpen size a sx sy ex ey) (r0 + d, c0) (r0 + d + 1, c0) :=
      ⟨mem_rectOpen.mpr ⟨hmid, hopen _ hmid⟩,
       mem_rectOpen.mpr ⟨h2, hopen _ h2⟩,
       Or.inr ⟨rfl, Or.inl rfl⟩⟩
    exact Relation.ReflTransGen.tail (ih r0 c0 h1 hmid) hstep

/-- In an all-open rectangle every cell reaches every other cell. -/
theorem rect_allOpen_conn {size : Nat} {a : List Bool} {sx sy ex ey : Nat}
    (hopen : ∀ c : Nat × Nat, inRect sx sy ex ey c → openCell size a c) :
    ∀ u v, u ∈ rectOpen size a sx sy ex ey → v ∈ rectOpen size a sx sy ex ey →
      ReachIn (rectOpen size a sx sy ex ey) u v := by
  rintro ⟨u1, u2⟩ ⟨v1, v2⟩ hu hv
  have hinu := (mem_rectOpen.mp hu).1
  have hinv := (mem_rectOpen.mp hv).1
  have hmix : inRect sx sy ex ey (u1, v2) := by
    obtain ⟨a1, a2, a3, a4⟩ := hinu
    obtain ⟨b1, b2, b3, b4⟩ := hinv
    exact ⟨a1, a2, b3, b4⟩
  have hcols : ReachIn (rectOpen size a sx sy ex ey) (u1, u2) (u1, v2) := by
    rcases Nat.le_total u2 v2 with hle | hle
    · have heq : v2 = u2 + (v2 - u2) := by omega
      rw [heq]
      exact rect_reach_col hopen (v2 - u2) u1 u2 hinu (by rw [← heq]; exact hmix)
    · have heq : u2 = v2 + (u2 - v2) := by omega
      refine ReachIn.symm ?_
      rw [heq]
      exact rect_reach_col hopen (u2 - v2) u1 v2 hmix (by rw [← heq]; exact hinu)
  have hrows : ReachIn (rectOpen size a sx sy ex ey) (u1, v2) (v1, v2) := by
    rcases Nat.le_total u1 v1 with hle | hle
    · have heq : v1 = u1 + (v1 - u1) := by omega
      rw [heq]
      exact rect_reach_row hopen (v1 - u1) u1 v2 hmix (by rw [← heq]; exact hinv)
    · have heq : u1 = v1 + (u1 - v1) := by omega
      refine ReachIn.symm ?_
      rw [heq]
      exact rect_reach_row hopen (u1 - v1) v1 v2 hinv (by rw [← heq]; exact hmix)
  exact hcols.trans hrows

/-- Value after drawing a row of walls (`maze_array[W * size + n] = true` for
`n` in `[lo, lo + n0)`). -/
theorem getD_setAll_map_row {size : Nat} {a : List Bool} {W lo n0 : Nat}
    (hlen : a.length = size * size) (hW : W < size) (hno : lo + n0 ≤ size)
    (r0 c0 : Nat) (hr0 : r0 < size) (hc0 : c0 < size) :
    (setAll a ((List.range' lo n0).map (fun n => W * size + n)) true).getD
      (r0 * size + c0) true =
    if r0 = W ∧ lo ≤ c0 ∧ c0 < lo + n0 then true
    else a.getD (r0 * size + c0) true := by
  rw [getD_setAll]
  by_cases hmem : r0 = W ∧ lo ≤ c0 ∧ c0 < lo + n0
  · rw [if_pos hmem, if_pos]
    constructor
    · rw [List.mem_map]
      exact ⟨c0, List.mem_range'_1.mpr ⟨hmem.2.1, hmem.2.2⟩, by rw [hmem.1]⟩
    · rw [hlen]
      exact index_lt hr0 hc0
  · rw [if_neg hmem, if_neg]
    rintro ⟨hinmem, -⟩
    rw [List.mem_map] at hinmem
    obtain ⟨n, hn, hidx⟩ := hinmem
    rw [List.mem_range'_1] at hn
    obtain ⟨heq1, heq2⟩ := index_inj (by omega) hc0 hidx
    exact hmem ⟨heq1.symm, by omega, by omega⟩

/-- Value after drawing a column of walls (`maze_array[n * size + W] = true`
for `n` in `[lo, lo + n0)`). -/
theorem getD_setAll_map_col {size : Nat} {a : List Bool} {W lo n0 : Nat}
    (hlen : a.length = size * size) (hW : W < size) (hno : lo + n0 ≤ size)
    (r0 c0 : Nat) (hr0 : r0 < size) (hc0 : c0 < size) :
    (setAll a ((List.range' lo n0).map (fun n => n * size + W)) true).getD
      (r0 * size + c0) true =
    if c0 = W ∧ lo ≤ r0 ∧ r0 < lo + n0 then true
    else a.getD (r0 * size + c0) true := by
  rw [getD_setAll]
  by_cases hmem : c0 = W ∧ lo ≤ r0 ∧ r0 < lo + n0
  · rw [if_pos hmem, if_pos]
    constructor
    · rw [List.mem_map]
      exact ⟨r0, List.mem_range'_1.mpr ⟨hmem.2.1, hmem.2.2⟩, by rw [hmem.1]⟩
    · rw [hlen]
      exact index_lt hr0 hc0
  · rw [if_neg hmem, if_neg]
    rintro ⟨hinmem, -⟩
    rw [List.mem_map] at hinmem
    obtain ⟨n, hn, hidx⟩ := hinmem
    rw [List.mem_range'_1] at hn
    obtain ⟨heq1, heq2⟩ := index_inj hW hc0 hidx
    exact hmem ⟨heq2.symm, by omega, by omega⟩

/-- The master invariant of `divide_chamber`: on an all-open chamber
rectangle whose right/bottom closing wall lines are already walls at even
positions, the call (for any fuel) keeps the array length, never touches a
cell outside the rectangle, keeps every odd/odd cell open, and leaves the
open cells of the rectangle connected. -/
theorem divideChamber_main (size : Nat) (fuel : Nat) :
    ∀ (sx sy ex ey : Nat) (orient : Orientation) (r : Rng) (a : List Bool),
      a.length = size * size →
      sx ≤ ex → sy ≤ ey →
      2 * ex + 2 ≤ size - 1 → 2 * ey + 2 ≤ size - 1 → 3 ≤ size →
      (∀ c : Nat × Nat, inRect sx sy ex ey c → openCell size a c) →
      (∀ rr, 2 * sy + 1 ≤ rr → rr ≤ 2 * ey + 1 → rr % 2 = 0 →
        a.getD (rr * size + (2 * ex + 2)) true = true) →
      (∀ cc, 2 * sx + 1 ≤ cc → cc ≤ 2 * ex + 1 → cc % 2 = 0 →
        a.getD ((2 * ey + 2) * size + cc) true = true) →
      (divideChamber size fuel sx sy ex ey orient r a).1.length = size * size ∧
      (∀ r0 c0, r0 < size → c0 < size → ¬ inRect sx sy ex ey (r0, c0) →
        (divideChamber size fuel sx sy ex ey orient r a).1.getD (r0 * size + c0) true
          = a.getD (r0 * size + c0) true) ∧
      (∀ c : Nat × Nat, inRect sx sy ex ey c → c.1 % 2 = 1 → c.2 % 2 = 1 →
        openCell size (divideChamber size fuel sx sy ex ey orient r a).1 c) ∧
      (∀ u v, u ∈ rectOpen size (divideChamber size fuel sx sy ex ey orient r a).1 sx sy ex ey →
        v ∈ rectOpen size (divideChamber size fuel sx sy ex ey orient r a).1 sx sy ex ey →
        ReachIn (rectOpen size (divideChamber size fuel sx sy ex ey orient r a).1 sx sy ex ey) u v) := by
  induction fuel with
  | zero =>
    intro sx sy ex ey orient r a hlen hxe hye hex hey hsz hP1 hP2r hP2c
    exact ⟨hlen, fun r0 c0 h1 h2 h3 => rfl,
      fun c hc h1 h2 => hP1 c hc, rect_allOpen_conn hP1⟩
  | succ fuel ih =>
    intro sx sy ex ey orient r a hlen hxe hye hex hey hsz hP1 hP2r hP2c
    by_cases hguard : ex - sx < 1 ∨ ey - sy < 1
    · rw [show divideChamber size (fuel + 1) sx sy ex ey orient r a = (a, r) from by
        simp only [divideChamber]
        rw [if_pos hguard]]
      exact ⟨hlen, fun r0 c0 h1 h2 h3 => rfl,
        fun c hc h1 h2 => hP1 c hc, rect_allOpen_conn hP1⟩
    · have hsxex : sx < ex := by omega
      have hsyey : sy < ey := by omega
      rcases orient with - | -
      · -- horizontal split
        have hred : divideChamber size (fuel + 1) sx sy ex ey .horizontal r a =
            divideChamber size fuel sx
              ((genRangeEx sy ey r).1 + 1) ex ey
              (getOrientation sx ((genRangeEx sy ey r).1 + 1) ex ey
                (getOrientation sx sy ex (genRangeEx sy ey r).1
                  (genRange sx ex (genRangeEx sy ey r).2).2).2).1
              (divideChamber size fuel sx sy ex (genRangeEx sy ey r).1
                (getOrientation sx sy ex (genRangeEx sy ey r).1
                  (genRange sx ex (genRangeEx sy ey r).2).2).1
                (getOrientation sx ((genRangeEx sy ey r).1 + 1) ex ey
                  (getOrientation sx sy ex (genRangeEx sy ey r).1
                    (genRange sx ex (genRangeEx sy ey r).2).2).2).2
                ((setAll a
                  ((List.range' (sx * 2 + 1) (ex * 2 + 2 + 1 - (sx * 2 + 1))).map
                    (fun n => ((genRangeEx sy ey r).1 * 2 + 1 + 1) * size + n)) true).set
                  (((genRangeEx sy ey r).1 * 2 + 1 + 1) * size +
                    ((genRange sx ex (genRangeEx sy ey r).2).1 * 2 + 1)) false)).2
              (divideChamber size fuel sx sy ex (genRangeEx sy ey r).1
                (getOrientation sx sy ex (genRangeEx sy ey r).1
                  (genRange sx ex (genRangeEx sy ey r).2).2).1
                (getOrientation sx ((genRangeEx sy ey r).1 + 1) ex ey
                  (getOrientation sx sy ex (genRangeEx sy ey r).1
                    (genRange sx ex (genRangeEx sy ey r).2).2).2).2
                ((setAll a
                  ((List.range' (sx * 2 + 1) (ex * 2 + 2 + 1 - (sx * 2 + 1))).map
                    (fun n => ((genRangeEx sy ey r).1 * 2 + 1 + 1) * size + n)) true).set
                  (((genRangeEx sy ey r).1 * 2 + 1 + 1) * size +
                    ((genRange sx ex (genRangeEx sy ey r).2).1 * 2 + 1)) false)).1 := by
          simp only [divideChamber]
          rw [if_neg hguard]
        rw [hred]
        have hwfb := genRangeEx_bounds sy ey r hsyey
        have hpfb := genRange_bounds sx ex (genRangeEx sy ey r).2 hxe
        set wf := (genRangeEx sy ey r).1 with hwfdef
        set pf := (genRange sx ex (genRangeEx sy ey r).2).1 with hpfdef
        set a2 := (setAll a
            ((List.range' (sx * 2 + 1) (ex * 2 + 2 + 1 - (sx * 2 + 1))).map
              (fun n => (wf * 2 + 1 + 1) * size + n)) true).set
            ((wf * 2 + 1 + 1) * size + (pf * 2 + 1)) false with ha2def
        have hWlt : wf * 2 + 1 + 1 < size := by omega
        have hpcollt : pf * 2 + 1 < size := by omega
        have hlenW : (setAll a
            ((List.range' (sx * 2 + 1) (ex * 2 + 2 + 1 - (sx * 2 + 1))).map
              (fun n => (wf * 2 + 1 + 1) * size + n)) true).length = size * size := by
          rw [setAll_length]
          exact hlen
        have hlen2 : a2.length = size * size := by
          rw [ha2def, List.length_set]
          exact hlenW
        have hn0 : (sx * 2 + 1) + (ex * 2 + 2 + 1 - (sx * 2 + 1)) ≤ size := by omega
        have ha2v : ∀ r0 c0, r0 < size → c0 < size →
            a2.getD (r0 * size + c0) true =
              if r0 = wf * 2 + 1 + 1 ∧ c0 = pf * 2 + 1 then false
              else if r0 = wf * 2 + 1 + 1 ∧ 2 * sx + 1 ≤ c0 ∧ c0 ≤ 2 * ex + 2 then true
              else a.getD (r0 * size + c0) true := by
          intro r0 c0 hr0 hc0
          rw [ha2def, getD_set]
          by_cases hPeq : r0 = wf * 2 + 1 + 1 ∧ c0 = pf * 2 + 1
          · rw [if_pos hPeq, if_pos]
            refine ⟨by rw [hPeq.1, hPeq.2], ?_⟩
            rw [hlenW]
            exact index_lt hr0 hc0
          · rw [if_neg (fun hcon => hPeq
              (by
                obtain ⟨he1, he2⟩ := index_inj hpcollt hc0 hcon.1
                exact ⟨he1.symm, he2.symm⟩)), if_neg hPeq]
            rw [getD_setAll_map_row hlen hWlt hn0 r0 c0 hr0 hc0]
            by_cases hw : r0 = wf * 2 + 1 + 1 ∧ 2 * sx + 1 ≤ c0 ∧ c0 ≤ 2 * ex + 2
            · rw [if_pos ⟨hw.1, by omega, by omega⟩, if_pos hw]
            · rw [if_neg (fun hcon => hw ⟨hcon.1, by omega, by omega⟩), if_neg hw]
        -- sub-chamber 1: rows [2*sy+1, 2*wf+1]
        obtain ⟨hQ1a, hQ1b, hQ1c, hQ1d⟩ :=
          ih sx sy ex wf
            (getOrientation sx sy ex wf (genRange sx ex (genRangeEx sy ey r).2).2).1
            (getOrientation sx (wf + 1) ex ey
              (getOrientation sx sy ex wf
                (genRange sx ex (genRangeEx sy ey r).2).2).2).2
            a2 hlen2 hxe (by omega) hex (by omega) hsz
            (by
              rintro ⟨r0, c0⟩ ⟨hc1, hc2, hc3, hc4⟩
              unfold openCell
              simp only [] at hc1 hc2 hc3 hc4 ⊢
              rw [ha2v r0 c0 (by omega) (by omega),
                if_neg (by rintro ⟨he, -⟩; omega),
                if_neg (by rintro ⟨he, -⟩; omega)]
              exact hP1 (r0, c0) ⟨hc1, by omega, hc3, hc4⟩)
            (by
              intro rr h1 h2 h3
              rw [ha2v rr (2 * ex + 2) (by omega) (by omega),
                if_neg (by rintro ⟨he, -⟩; omega),
                if_neg (by rintro ⟨he, -⟩; omega)]
              exact hP2r rr h1 (by omega) h3)
            (by
              intro cc h1 h2 h3
              rw [ha2v (2 * wf + 2) cc (by omega) (by omega)]
              rw [if_neg (by rintro ⟨-, he⟩; omega),
                if_pos ⟨by omega, h1, by omega⟩])
        set a3 := (divideChamber size fuel sx sy ex wf
          (getOrientation sx sy ex wf (genRange sx ex (genRangeEx sy ey r).2).2).1
          (getOrientation sx (wf + 1) ex ey
            (getOrientation sx sy ex wf
              (genRange sx ex (genRangeEx sy ey r).2).2).2).2 a2).1 with ha3def
        -- sub-chamber 2: rows [2*wf+3, 2*ey+1]
        obtain ⟨hQ2a, hQ2b, hQ2c, hQ2d⟩ :=
          ih sx (wf + 1) ex ey
            (getOrientation sx (wf + 1) ex ey
              (getOrientation sx sy ex wf
                (genRange sx ex (genRangeEx sy ey r).2).2).2).1
            (divideChamber size fuel sx sy ex wf
              (getOrientation sx sy ex wf (genRange sx ex (genRangeEx sy ey r).2).2).1
              (getOrientation sx (wf + 1) ex ey
                (getOrientation sx sy ex wf
                  (genRange sx ex (genRangeEx sy ey r).2).2).2).2 a2).2
            a3 hQ1a hxe (by omega) hex hey hsz
            (by
              rintro ⟨r0, c0⟩ ⟨hc1, hc2, hc3, hc4⟩
              unfold openCell
              simp only [] at hc1 hc2 hc3 hc4 ⊢
              rw [hQ1b r0 c0 (by omega) (by omega)
                (by rintro ⟨hd1, hd2, -⟩; simp only [] at hd1 hd2; omega)]
              rw [ha2v r0 c0 (by omega) (by omega),
                if_neg (by rintro ⟨he, -⟩; omega),
                if_neg (by rintro ⟨he, -⟩; omega)]
              exact hP1 (r0, c0) ⟨by omega, hc2, hc3, hc4⟩)
            (by
              intro rr h1 h2 h3
              rw [hQ1b rr (2 * ex + 2) (by omega) (by omega)
                (by rintro ⟨-, -, -, hd4⟩; simp only [] at hd4; omega)]
              rw [ha2v rr (2 * ex + 2) (by omega) (by omega),
                if_neg (by rintro ⟨he, -⟩; omega),
                if_neg (by rintro ⟨he, -⟩; omega)]
              exact hP2r rr (by omega) h2 h3)
            (by
              intro cc h1 h2 h3
              rw [hQ1b (2 * ey + 2) cc (by omega) (by omega)
                (by rintro ⟨-, hd2, -⟩; simp only [] at hd2; omega)]
              rw [ha2v (2 * ey + 2) cc (by omega) (by omega),
                if_neg (by rintro ⟨he, -⟩; omega),
                if_neg (by rintro ⟨he, -⟩; omega)]
              exact hP2c cc h1 h2 h3)
        set a4 := (divideChamber size fuel sx (wf + 1) ex ey
          (getOrientation sx (wf + 1) ex ey
            (getOrientation sx sy ex wf
              (genRange sx ex (genRangeEx sy ey r).2).2).2).1
          (divideChamber size fuel sx sy ex wf
            (getOrientation sx sy ex wf (genRange sx ex (genRangeEx sy ey r).2).2).1
            (getOrientation sx (wf + 1) ex ey
              (getOrientation sx sy ex wf
                (genRange sx ex (genRangeEx sy ey r).2).2).2).2 a2).2 a3).1 with ha4def
        -- the combined value of a4 away from the two sub-rectangles
        have ha4out : ∀ r0 c0, r0 < size → c0 < size →
            ¬ inRect sx sy ex wf (r0, c0) → ¬ inRect sx (wf + 1) ex ey (r0, c0) →
            a4.getD (r0 * size + c0) true = a2.getD (r0 * size + c0) true := by
          intro r0 c0 h1 h2 h3 h4
          rw [hQ2b r0 c0 h1 h2 h4, hQ1b r0 c0 h1 h2 h3]
        have hrect1sub : ∀ c : Nat × Nat, inRect sx sy ex wf c → inRect sx sy ex ey c := by
          rintro ⟨r0, c0⟩ ⟨h1, h2, h3, h4⟩
          exact ⟨h1, by simp only [] at h2 ⊢; omega, h3, h4⟩
        have hrect2sub : ∀ c : Nat × Nat, inRect sx (wf + 1) ex ey c →
            inRect sx sy ex ey c := by
          rintro ⟨r0, c0⟩ ⟨h1, h2, h3, h4⟩
          exact ⟨by simp only [] at h1 ⊢; omega, h2, h3, h4⟩
        -- frame of the whole step
        have hframe : ∀ r0 c0, r0 < size → c0 < size →
            ¬ inRect sx sy ex ey (r0, c0) →
            a4.getD (r0 * size + c0) true = a.getD (r0 * size + c0) true := by
          intro r0 c0 h1 h2 h3
          rw [ha4out r0 c0 h1 h2
            (fun hcon => h3 (hrect1sub _ hcon)) (fun hcon => h3 (hrect2sub _ hcon))]
          rw [ha2v r0 c0 h1 h2]
          have hnot1 : ¬ (r0 = wf * 2 + 1 + 1 ∧ c0 = pf * 2 + 1) := by
            rintro ⟨he1, he2⟩
            exact h3 ⟨by omega, by omega, by omega, by omega⟩
          rw [if_neg hnot1]
          by_cases hW2 : r0 = wf * 2 + 1 + 1 ∧ 2 * sx + 1 ≤ c0 ∧ c0 ≤ 2 * ex + 2
          · obtain ⟨he1, he2, he3⟩ := hW2
            have hc0e : c0 = 2 * ex + 2 := by
              by_contra hne
              exact h3 ⟨by omega, by omega, by omega, by omega⟩
            rw [if_pos ⟨he1, he2, he3⟩, hc0e]
            exact (hP2r r0 (by omega) (by omega) (by omega)).symm
          · rw [if_neg hW2]
        -- odd/odd cells stay open
        have hodd : ∀ c : Nat × Nat, inRect sx sy ex ey c → c.1 % 2 = 1 →
            c.2 % 2 = 1 → openCell size a4 c := by
          rintro ⟨r0, c0⟩ ⟨h1, h2, h3, h4⟩ ho1 ho2
          simp only [] at h1 h2 h3 h4 ho1 ho2
          by_cases hup : r0 ≤ 2 * wf + 1
          · have hin1 : inRect sx sy ex wf (r0, c0) := ⟨h1, by omega, h3, h4⟩
            have hopen3 := hQ1c (r0, c0) hin1 ho1 ho2
            unfold openCell at hopen3 ⊢
            rw [hQ2b r0 c0 (by omega) (by omega)
              (by rintro ⟨hd1, -⟩; simp only [] at hd1; omega)]
            exact hopen3
          · have hdown : 2 * wf + 3 ≤ r0 := by omega
            exact hQ2c (r0, c0) ⟨by omega, h2, h3, h4⟩ ho1 ho2
        refine ⟨hQ2a, hframe, hodd, ?_⟩
        -- connectivity: every open rectangle cell reaches the passage cell
        have hrect1eq : rectOpen size a4 sx sy ex wf = rectOpen size a3 sx sy ex wf := by
          apply rectOpen_congr
          rintro ⟨r0, c0⟩ ⟨h1, h2, h3, h4⟩
          simp only [] at h1 h2 h3 h4
          exact hQ2b r0 c0 (by omega) (by omega)
            (by rintro ⟨hd1, -⟩; simp only [] at hd1; omega)
        have hProw : ∀ c0, 2 * sx + 1 ≤ c0 → c0 ≤ 2 * ex + 1 → c0 < size →
            (openCell size a4 (wf * 2 + 1 + 1, c0) ↔ c0 = pf * 2 + 1) := by
          intro c0 hcl hcr hclt
          unfold openCell
          simp only []
          rw [ha4out (wf * 2 + 1 + 1) c0 (by omega) hclt
            (by rintro ⟨-, hd2, -⟩; simp only [] at hd2; omega)
            (by rintro ⟨hd1, -⟩; simp only [] at hd1; omega)]
          rw [ha2v (wf * 2 + 1 + 1) c0 (by omega) hclt]
          by_cases hc : c0 = pf * 2 + 1
          · rw [if_pos ⟨rfl, hc⟩]
            simp [hc]
          · rw [if_neg (fun hcon => hc hcon.2), if_pos ⟨rfl, hcl, by omega⟩]
            simp [hc]
        have hPopen : openCell size a4 (wf * 2 + 1 + 1, pf * 2 + 1) := by
          rw [hProw (pf * 2 + 1) (by omega) (by omega) (by omega)]
        have hPin : inRect sx sy ex ey (wf * 2 + 1 + 1, pf * 2 + 1) :=
          ⟨by omega, by omega, by omega, by omega⟩
        have hPmem : (wf * 2 + 1 + 1, pf * 2 + 1) ∈ rectOpen size a4 sx sy ex ey :=
          mem_rectOpen.mpr ⟨hPin, hPopen⟩
        -- anchor cells just above and below the passage
        have hA1in : inRect sx sy ex wf (2 * wf + 1, pf * 2 + 1) :=
          ⟨by omega, by omega, by omega, by omega⟩
        have hA1open : openCell size a4 (2 * wf + 1, pf * 2 + 1) := by
          have h3 := hQ1c (2 * wf + 1, pf * 2 + 1) hA1in (by omega) (by omega)
          unfold openCell at h3 ⊢
          rw [hQ2b (2 * wf + 1) (pf * 2 + 1) (by omega) (by omega)
            (by rintro ⟨hd1, -⟩; simp only [] at hd1; omega)]
          exact h3
        have hA2in : inRect sx (wf + 1) ex ey (2 * wf + 3, pf * 2 + 1) :=
          ⟨by omega, by omega, by omega, by omega⟩
        have hA2open : openCell size a4 (2 * wf + 3, pf * 2 + 1) :=
          hQ2c (2 * wf + 3, pf * 2 + 1) hA2in (by omega) (by omega)
        have hreachP : ∀ w ∈ rectOpen size a4 sx sy ex ey,
            ReachIn (rectOpen size a4 sx sy ex ey) w (wf * 2 + 1 + 1, pf * 2 + 1) := by
          rintro ⟨r0, c0⟩ hw
          obtain ⟨⟨h1, h2, h3, h4⟩, hopenw⟩ := mem_rectOpen.mp hw
          simp only [] at h1 h2 h3 h4
          by_cases hup : r0 ≤ 2 * wf + 1
          · have hin1 : inRect sx sy ex wf (r0, c0) := ⟨h1, by omega, h3, h4⟩
            have hw1 : (r0, c0) ∈ rectOpen size a4 sx sy ex wf :=
              mem_rectOpen.mpr ⟨hin1, hopenw⟩
            have hA1mem : (2 * wf + 1, pf * 2 + 1) ∈ rectOpen size a4 sx sy ex wf :=
              mem_rectOpen.mpr ⟨hA1in, hA1open⟩
            have hr1 : ReachIn (rectOpen size a4 sx sy ex wf) (r0, c0)
                (2 * wf + 1, pf * 2 + 1) := by
              rw [hrect1eq] at hw1 hA1mem ⊢
              exact hQ1d _ _ hw1 hA1mem
            have hr2 : ReachIn (rectOpen size a4 sx sy ex ey) (r0, c0)
                (2 * wf + 1, pf * 2 + 1) :=
              hr1.mono (rectOpen_mono hrect1sub)
            refine hr2.trans (ReachIn.single ⟨?_, hPmem, ?_⟩)
            · exact mem_rectOpen.mpr ⟨hrect1sub _ hA1in, hA1open⟩
            · exact Or.inr ⟨rfl, Or.inl (by simp only []; omega)⟩
          · by_cases hmid : r0 = 2 * wf + 2
            · have hc0 : c0 = pf * 2 + 1 := by
                rw [← hProw c0 h3 h4 (by omega)]
                unfold openCell
                simp only []
                rw [show wf * 2 + 1 + 1 = r0 from by omega]
                exact hopenw
              rw [show ((r0, c0) : Nat × Nat) = (wf * 2 + 1 + 1, pf * 2 + 1) from by
                rw [Prod.ext_iff]
                exact ⟨by simp only []; omega, by simp only []; exact hc0⟩]
              exact Relation.ReflTransGen.refl
            · have hdown : 2 * wf + 3 ≤ r0 := by omega
              have hin2 : inRect sx (wf + 1) ex ey (r0, c0) := ⟨by omega, h2, h3, h4⟩
              have hw2 : (r0, c0) ∈ rectOpen size a4 sx (wf + 1) ex ey :=
                mem_rectOpen.mpr ⟨hin2, hopenw⟩
              have hA2mem : (2 * wf + 3, pf * 2 + 1) ∈ rectOpen size a4 sx (wf + 1) ex ey :=
                mem_rectOpen.mpr ⟨hA2in, hA2open⟩
              have hr1 : ReachIn (rectOpen size a4 sx (wf + 1) ex ey) (r0, c0)
                  (2 * wf + 3, pf * 2 + 1) := hQ2d _ _ hw2 hA2mem
              have hr2 : ReachIn (rectOpen size a4 sx sy ex ey) (r0, c0)
                  (2 * wf + 3, pf * 2 + 1) :=
                hr1.mono (rectOpen_mono hrect2sub)
              refine hr2.trans (ReachIn.single ⟨?_, hPmem, ?_⟩)
              · exact mem_rectOpen.mpr ⟨hrect2sub _ hA2in, hA2open⟩
              · exact Or.inr ⟨rfl, Or.inr (by simp only []; omega)⟩
        intro u v hu hv
        exact (hreachP u hu).trans (ReachIn.symm (hreachP v hv))
      · -- vertical split
        have hred : divideChamber size (fuel + 1) sx sy ex ey .vertical r a =
            divideChamber size fuel
              ((genRangeEx sx ex r).1 + 1) sy ex ey
              (getOrientation ((genRangeEx sx ex r).1 + 1) sy ex ey
                (getOrientation sx sy (genRangeEx sx ex r).1 ey
                  (genRange sy ey (genRangeEx sx ex r).2).2).2).1
              (divideChamber size fuel sx sy (genRangeEx sx ex r).1 ey
                (getOrientation sx sy (genRangeEx sx ex r).1 ey
                  (genRange sy ey (genRangeEx sx ex r).2).2).1
                (getOrientation ((genRangeEx sx ex r).1 + 1) sy ex ey
                  (getOrientation sx sy (genRangeEx sx ex r).1 ey
                    (genRange sy ey (genRangeEx sx ex r).2).2).2).2
                ((setAll a
                  ((List.range' (sy * 2 + 1) (ey * 2 + 2 + 1 - (sy * 2 + 1))).map
                    (fun n => n * size + ((genRangeEx sx ex r).1 * 2 + 1 + 1))) true).set
                  (((genRange sy ey (genRangeEx sx ex r).2).1 * 2 + 1) * size +
                    ((genRangeEx sx ex r).1 * 2 + 1 + 1)) false)).2
              (divideChamber size fuel sx sy (genRangeEx sx ex r).1 ey
                (getOrientation sx sy (genRangeEx sx ex r).1 ey
                  (genRange sy ey (genRangeEx sx ex r).2).2).1
                (getOrientation ((genRangeEx sx ex r).1 + 1) sy ex ey
                  (getOrientation sx sy (genRangeEx sx ex r).1 ey
                    (genRange sy ey (genRangeEx sx ex r).2).2).2).2
                ((setAll a
                  ((List.range' (sy * 2 + 1) (ey * 2 + 2 + 1 - (sy * 2 + 1))).map
                    (fun n => n * size + ((genRangeEx sx ex r).1 * 2 + 1 + 1))) true).set
                  (((genRange sy ey (genRangeEx sx ex r).2).1 * 2 + 1) * size +
                    ((genRangeEx sx ex r).1 * 2 + 1 + 1)) false)).1 := by
          simp only [divideChamber]
          rw [if_neg hguard]
        rw [hred]
        have hwfb := genRangeEx_bounds sx ex r hsxex
        have hpfb := genRange_bounds sy ey (genRangeEx sx ex r).2 hye
        set wf := (genRangeEx sx ex r).1 with hwfdef
        set pf := (genRange sy ey (genRangeEx sx ex r).2).1 with hpfdef
        set a2 := (setAll a
            ((List.range' (sy * 2 + 1) (ey * 2 + 2 + 1 - (sy * 2 + 1))).map
              (fun n => n * size + (wf * 2 + 1 + 1))) true).set
            ((pf * 2 + 1) * size + (wf * 2 + 1 + 1)) false with ha2def
        have hWlt : wf * 2 + 1 + 1 < size := by omega
        have hprowlt : pf * 2 + 1 < size := by omega
        have hlenW : (setAll a
            ((List.range' (sy * 2 + 1) (ey * 2 + 2 + 1 - (sy * 2 + 1))).map
              (fun n => n * size + (wf * 2 + 1 + 1))) true).length = size * size := by
          rw [setAll_length]
          exact hlen
        have hlen2 : a2.length = size * size := by
          rw [ha2def, List.length_set]
          exact hlenW
        have hn0 : (sy * 2 + 1) + (ey * 2 + 2 + 1 - (sy * 2 + 1)) ≤ size := by omega
        have ha2v : ∀ r0 c0, r0 < size → c0 < size →
            a2.getD (r0 * size + c0) true =
              if r0 = pf * 2 + 1 ∧ c0 = wf * 2 + 1 + 1 then false
              else if c0 = wf * 2 + 1 + 1 ∧ 2 * sy + 1 ≤ r0 ∧ r0 ≤ 2 * ey + 2 then true
              else a.getD (r0 * size + c0) true := by
          intro r0 c0 hr0 hc0
          rw [ha2def, getD_set]
          by_cases hPeq : r0 = pf * 2 + 1 ∧ c0 = wf * 2 + 1 + 1
          · rw [if_pos hPeq, if_pos]
            refine ⟨by rw [hPeq.1, hPeq.2], ?_⟩
            rw [hlenW]
            exact index_lt hr0 hc0
          · rw [if_neg (fun hcon => hPeq
              (by
                obtain ⟨he1, he2⟩ := index_inj hWlt hc0 hcon.1
                exact ⟨he1.symm, he2.symm⟩)), if_neg hPeq]
            rw [getD_setAll_map_col hlen hWlt hn0 r0 c0 hr0 hc0]
            by_cases hw : c0 = wf * 2 + 1 + 1 ∧ 2 * sy + 1 ≤ r0 ∧ r0 ≤ 2 * ey + 2
            · rw [if_pos ⟨hw.1, by omega, by omega⟩, if_pos hw]
            · rw [if_neg (fun hcon => hw ⟨hcon.1, by omega, by omega⟩), if_neg hw]
        -- sub-chamber 1: columns [2*sx+1, 2*wf+1]
        obtain ⟨hQ1a, hQ1b, hQ1c, hQ1d⟩ :=
          ih sx sy wf ey
            (getOrientation sx sy wf ey (genRange sy ey (genRangeEx sx ex r).2).2).1
            (getOrientation (wf + 1) sy ex ey
              (getOrientation sx sy wf ey
                (genRange sy ey (genRangeEx sx ex r).2).2).2).2
            a2 hlen2 (by omega) hye (by omega) hey hsz
            (by
              rintro ⟨r0, c0⟩ ⟨hc1, hc2, hc3, hc4⟩
              unfold openCell
              simp only [] at hc1 hc2 hc3 hc4 ⊢
              rw [ha2v r0 c0 (by omega) (by omega),
                if_neg (by rintro ⟨-, he⟩; omega),
                if_neg (by rintro ⟨he, -⟩; omega)]
              exact hP1 (r0, c0) ⟨hc1, hc2, hc3, by omega⟩)
            (by
              intro rr h1 h2 h3
              rw [ha2v rr (2 * wf + 2) (by omega) (by omega)]
              rw [if_neg (by rintro ⟨he, -⟩; omega),
                if_pos ⟨by omega, h1, by omega⟩])
            (by
              intro cc h1 h2 h3
              rw [ha2v (2 * ey + 2) cc (by omega) (by omega),
                if_neg (by rintro ⟨he, -⟩; omega),
                if_neg (by rintro ⟨he, -⟩; omega)]
              exact hP2c cc h1 (by omega) h3)
        set a3 := (divideChamber size fuel sx sy wf ey
          (getOrientation sx sy wf ey (genRange sy ey (genRangeEx sx ex r).2).2).1
          (getOrientation (wf + 1) sy ex ey
            (getOrientation sx sy wf ey
              (genRange sy ey (genRangeEx sx ex r).2).2).2).2 a2).1 with ha3def
        -- sub-chamber 2: columns [2*wf+3, 2*ex+1]
        obtain ⟨hQ2a, hQ2b, hQ2c, hQ2d⟩ :=
          ih (wf + 1) sy ex ey
            (getOrientation (wf + 1) sy ex ey
              (getOrientation sx sy wf ey
                (genRange sy ey (genRangeEx sx ex r).2).2).2).1
            (divideChamber size fuel sx sy wf ey
              (getOrientation sx sy wf ey (genRange sy ey (genRangeEx sx ex r).2).2).1
              (getOrientation (wf + 1) sy ex ey
                (getOrientation sx sy wf ey
                  (genRange sy ey (genRangeEx sx ex r).2).2).2).2 a2).2
            a3 hQ1a (by omega) hye hex hey hsz
            (by
              rintro ⟨r0, c0⟩ ⟨hc1, hc2, hc3, hc4⟩
              unfold openCell
              simp only [] at hc1 hc2 hc3 hc4 ⊢
              rw [hQ1b r0 c0 (by omega) (by omega)
                (by rintro ⟨-, -, hd3, hd4⟩; simp only [] at hd3 hd4; omega)]
              rw [ha2v r0 c0 (by omega) (by omega),
                if_neg (by rintro ⟨-, he⟩; omega),
                if_neg (by rintro ⟨he, -⟩; omega)]
              exact hP1 (r0, c0) ⟨hc1, hc2, by omega, hc4⟩)
            (by
              intro rr h1 h2 h3
              rw [hQ1b rr (2 * ex + 2) (by omega) (by omega)
                (by rintro ⟨-, -, -, hd4⟩; simp only [] at hd4; omega)]
              rw [ha2v rr (2 * ex + 2) (by omega) (by omega),
                if_neg (by rintro ⟨-, he⟩; omega),
                if_neg (by rintro ⟨he, -⟩; omega)]
              exact hP2r rr h1 h2 h3)
            (by
              intro cc h1 h2 h3
              rw [hQ1b (2 * ey + 2) cc (by omega) (by omega)
                (by rintro ⟨-, hd2, -⟩; simp only [] at hd2; omega)]
              rw [ha2v (2 * ey + 2) cc (by omega) (by omega),
                if_neg (by rintro ⟨he, -⟩; omega),
                if_neg (by rintro ⟨he, -⟩; omega)]
              exact hP2c cc (by omega) h2 h3)
        set a4 := (divideChamber size fuel (wf + 1) sy ex ey
          (getOrientation (wf + 1) sy ex ey
            (getOrientation sx sy wf ey
              (genRange sy ey (genRangeEx sx ex r).2).2).2).1
          (divideChamber size fuel sx sy wf ey
            (getOrientation sx sy wf ey (genRange sy ey (genRangeEx sx ex r).2).2).1
            (getOrientation (wf + 1) sy ex ey
              (getOrientation sx sy wf ey
                (genRange sy ey (genRangeEx sx ex r).2).2).2).2 a2).2 a3).1 with ha4def
        have ha4out : ∀ r0 c0, r0 < size → c0 < size →
            ¬ inRect sx sy wf ey (r0, c0) → ¬ inRect (wf + 1) sy ex ey (r0, c0) →
            a4.getD (r0 * size + c0) true = a2.getD (r0 * size + c0) true := by
          intro r0 c0 h1 h2 h3 h4
          rw [hQ2b r0 c0 h1 h2 h4, hQ1b r0 c0 h1 h2 h3]
        have hrect1sub : ∀ c : Nat × Nat, inRect sx sy wf ey c → inRect sx sy ex ey c := by
          rintro ⟨r0, c0⟩ ⟨h1, h2, h3, h4⟩
          exact ⟨h1, h2, h3, by simp only [] at h4 ⊢; omega⟩
        have hrect2sub : ∀ c : Nat × Nat, inRect (wf + 1) sy ex ey c →
            inRect sx sy ex ey c := by
          rintro ⟨r0, c0⟩ ⟨h1, h2, h3, h4⟩
          exact ⟨h1, h2, by simp only [] at h3 ⊢; omega, h4⟩
        have hframe : ∀ r0 c0, r0 < size → c0 < size →
            ¬ inRect sx sy ex ey (r0, c0) →
            a4.getD (r0 * size + c0) true = a.getD (r0 * size + c0) true := by
          intro r0 c0 h1 h2 h3
          rw [ha4out r0 c0 h1 h2
            (fun hcon => h3 (hrect1sub _ hcon)) (fun hcon => h3 (hrect2sub _ hcon))]
          rw [ha2v r0 c0 h1 h2]
          have hnot1 : ¬ (r0 = pf * 2 + 1 ∧ c0 = wf * 2 + 1 + 1) := by
            rintro ⟨he1, he2⟩
            exact h3 ⟨by omega, by omega, by omega, by omega⟩
          rw [if_neg hnot1]
          by_cases hW2 : c0 = wf * 2 + 1 + 1 ∧ 2 * sy + 1 ≤ r0 ∧ r0 ≤ 2 * ey + 2
          · obtain ⟨he1, he2, he3⟩ := hW2
            have hr0e : r0 = 2 * ey + 2 := by
              by_contra hne
              exact h3 ⟨by omega, by omega, by omega, by omega⟩
            rw [if_pos ⟨he1, he2, he3⟩, hr0e]
            exact (hP2c c0 (by omega) (by omega) (by omega)).symm
          · rw [if_neg hW2]
        have hodd : ∀ c : Nat × Nat, inRect sx sy ex ey c → c.1 % 2 = 1 →
            c.2 % 2 = 1 → openCell size a4 c := by
          rintro ⟨r0, c0⟩ ⟨h1, h2, h3, h4⟩ ho1 ho2
          simp only [] at h1 h2 h3 h4 ho1 ho2
          by_cases hup : c0 ≤ 2 * wf + 1
          · have hin1 : inRect sx sy wf ey (r0, c0) := ⟨h1, h2, h3, by omega⟩
            have hopen3 := hQ1c (r0, c0) hin1 ho1 ho2
            unfold openCell at hopen3 ⊢
            rw [hQ2b r0 c0 (by omega) (by omega)
              (by rintro ⟨-, -, hd3, -⟩; simp only [] at hd3; omega)]
            exact hopen3
          · have hdown : 2 * wf + 3 ≤ c0 := by omega
            exact hQ2c (r0, c0) ⟨h1, h2, by omega, h4⟩ ho1 ho2
        refine ⟨hQ2a, hframe, hodd, ?_⟩
        have hrect1eq : rectOpen size a4 sx sy wf ey = rectOpen size a3 sx sy wf ey := by
          apply rectOpen_congr
          rintro ⟨r0, c0⟩ ⟨h1, h2, h3, h4⟩
          simp only [] at h1 h2 h3 h4
          exact hQ2b r0 c0 (by omega) (by omega)
            (by rintro ⟨-, -, hd3, -⟩; simp only [] at hd3; omega)
        have hPcol : ∀ r0, 2 * sy + 1 ≤ r0 → r0 ≤ 2 * ey + 1 → r0 < size →
            (openCell size a4 (r0, wf * 2 + 1 + 1) ↔ r0 = pf * 2 + 1) := by
          intro r0 hcl hcr hclt
          unfold openCell
          simp only []
          rw [ha4out r0 (wf * 2 + 1 + 1) hclt (by omega)
            (by rintro ⟨-, -, -, hd4⟩; simp only [] at hd4; omega)
            (by rintro ⟨-, -, hd3, -⟩; simp only [] at hd3; omega)]
          rw [ha2v r0 (wf * 2 + 1 + 1) hclt (by omega)]
          by_cases hc : r0 = pf * 2 + 1
          · rw [if_pos ⟨hc, rfl⟩]
            simp [hc]
          · rw [if_neg (fun hcon => hc hcon.1), if_pos ⟨rfl, hcl, by omega⟩]
            simp [hc]
        have hPopen : openCell size a4 (pf * 2 + 1, wf * 2 + 1 + 1) := by
          rw [hPcol (pf * 2 + 1) (by omega) (by omega) (by omega)]
        have hPin : inRect sx sy ex ey (pf * 2 + 1, wf * 2 + 1 + 1) :=
          ⟨by omega, by omega, by omega, by omega⟩
        have hPmem : (pf * 2 + 1, wf * 2 + 1 + 1) ∈ rectOpen size a4 sx sy ex ey :=
          mem_rectOpen.mpr ⟨hPin, hPopen⟩
        have hA1in : inRect sx sy wf ey (pf * 2 + 1, 2 * wf + 1) :=
          ⟨by omega, by omega, by omega, by omega⟩
        have hA1open : openCell size a4 (pf * 2 + 1, 2 * wf + 1) := by
          have h3 := hQ1c (pf * 2 + 1, 2 * wf + 1) hA1in (by omega) (by omega)
          unfold openCell at h3 ⊢
          rw [hQ2b (pf * 2 + 1) (2 * wf + 1) (by omega) (by omega)
            (by rintro ⟨-, -, hd3, -⟩; simp only [] at hd3; omega)]
          exact h3
        have hA2in : inRect (wf + 1) sy ex ey (pf * 2 + 1, 2 * wf + 3) :=
          ⟨by omega, by omega, by omega, by omega⟩
        have hA2open : openCell size a4 (pf * 2 + 1, 2 * wf + 3) :=
          hQ2c (pf * 2 + 1, 2 * wf + 3) hA2in (by omega) (by omega)
        have hreachP : ∀ w ∈ rectOpen size a4 sx sy ex ey,
            ReachIn (rectOpen size a4 sx sy ex ey) w (pf * 2 + 1, wf * 2 + 1 + 1) := by
          rintro ⟨r0, c0⟩ hw
          obtain ⟨⟨h1, h2, h3, h4⟩, hopenw⟩ := mem_rectOpen.mp hw
          simp only [] at h1 h2 h3 h4
          by_cases hup : c0 ≤ 2 * wf + 1
          · have hin1 : inRect sx sy wf ey (r0, c0) := ⟨h1, h2, h3, by omega⟩
            have hw1 : (r0, c0) ∈ rectOpen size a4 sx sy wf ey :=
              mem_rectOpen.mpr ⟨hin1, hopenw⟩
            have hA1mem : (pf * 2 + 1, 2 * wf + 1) ∈ rectOpen size a4 sx sy wf ey :=
              mem_rectOpen.mpr ⟨hA1in, hA1open⟩
            have hr1 : ReachIn (rectOpen size a4 sx sy wf ey) (r0, c0)
                (pf * 2 + 1, 2 * wf + 1) := by
              rw [hrect1eq] at hw1 hA1mem ⊢
              exact hQ1d _ _ hw1 hA1mem
            have hr2 : ReachIn (rectOpen size a4 sx sy ex ey) (r0, c0)
                (pf * 2 + 1, 2 * wf + 1) :=
              hr1.mono (rectOpen_mono hrect1sub)
            refine hr2.trans (ReachIn.single ⟨?_, hPmem, ?_⟩)
            · exact mem_rectOpen.mpr ⟨hrect1sub _ hA1in, hA1open⟩
            · exact Or.inl ⟨rfl, Or.inl (by simp only []; omega)⟩
          · by_cases hmid : c0 = 2 * wf + 2
            · have hr0 : r0 = pf * 2 + 1 := by
                rw [← hPcol r0 h1 h2 (by omega)]
                unfold openCell
                simp only []
                rw [show wf * 2 + 1 + 1 = c0 from by omega]
                exact hopenw
              rw [show ((r0, c0) : Nat × Nat) = (pf * 2 + 1, wf * 2 + 1 + 1) from by
                rw [Prod.ext_iff]
                exact ⟨by simp only []; exact hr0, by simp only []; omega⟩]
              exact Relation.ReflTransGen.refl
            · have hdown : 2 * wf + 3 ≤ c0 := by omega
              have hin2 : inRect (wf + 1) sy ex ey (r0, c0) := ⟨h1, h2, by omega, h4⟩
              have hw2 : (r0, c0) ∈ rectOpen size a4 (wf + 1) sy ex ey :=
                mem_rectOpen.mpr ⟨hin2, hopenw⟩
              have hA2mem : (pf * 2 + 1, 2 * wf + 3) ∈ rectOpen size a4 (wf + 1) sy ex ey :=
                mem_rectOpen.mpr ⟨hA2in, hA2open⟩
              have hr1 : ReachIn (rectOpen size a4 (wf + 1) sy ex ey) (r0, c0)
                  (pf * 2 + 1, 2 * wf + 3) := hQ2d _ _ hw2 hA2mem
              have hr2 : ReachIn (rectOpen size a4 sx sy ex ey) (r0, c0)
                  (pf * 2 + 1, 2 * wf + 3) :=
                hr1.mono (rectOpen_mono hrect2sub)
              refine hr2.trans (ReachIn.single ⟨?_, hPmem, ?_⟩)
              · exact mem_rectOpen.mpr ⟨hrect2sub _ hA2in, hA2open⟩
              · exact Or.inl ⟨rfl, Or.inr (by simp only []; omega)⟩
        intro u v hu hv
        exact (hreachP u hu).trans (ReachIn.symm (hreachP v hv))

theorem mem_borderIdxs {size j : Nat} :
    j ∈ borderIdxs size ↔ ∃ n, n < size ∧
      (j = n * size ∨ j = n ∨ j = n * size + (size - 1) ∨
        j = (size - 1) * size + n) := by
  unfold borderIdxs
  have hgen : ∀ l : List Nat,
      (j ∈ l.foldr (fun n acc => n * size :: n :: (n * size + (size - 1)) ::
        ((size - 1) * size + n) :: acc) []) ↔
      ∃ n, n ∈ l ∧ (j = n * size ∨ j = n ∨ j = n * size + (size - 1) ∨
        j = (size - 1) * size + n) := by
    intro l
    induction l with
    | nil => simp
    | cons n t ih =>
      simp only [List.foldr_cons, List.mem_cons, ih]
      constructor
      · rintro (h | h | h | h | ⟨m, hm, hd⟩)
        · exact ⟨n, Or.inl rfl, Or.inl h⟩
        · exact ⟨n, Or.inl rfl, Or.inr (Or.inl h)⟩
        · exact ⟨n, Or.inl rfl, Or.inr (Or.inr (Or.inl h))⟩
        · exact ⟨n, Or.inl rfl, Or.inr (Or.inr (Or.inr h))⟩
        · exact ⟨m, Or.inr hm, hd⟩
      · rintro ⟨m, hm | hm, hd⟩
        · subst hm
          tauto
        · exact Or.inr (Or.inr (Or.inr (Or.inr ⟨m, hm, hd⟩)))
  rw [hgen]
  constructor
  · rintro ⟨n, hn, hd⟩
    exact ⟨n, List.mem_range.mp hn, hd⟩
  · rintro ⟨n, hn, hd⟩
    exact ⟨n, List.mem_range.mpr hn, hd⟩

theorem getD_replicate_false_lt {n j : Nat} (hj : j < n) :
    (List.replicate n false).getD j true = false := by
  rw [List.getD_eq_getElem?_getD, List.getElem?_replicate, if_pos hj]
  rfl

/-- Cell values of the bordered all-open initial array of
`GeneratorRD::generate`. -/
theorem rdInit_cell (size : Nat) (r0 c0 : Nat) (hr0 : r0 < size) (hc0 : c0 < size) :
    (setAll (List.replicate (size * size) false) (borderIdxs size) true).getD
      (r0 * size + c0) true =
    if r0 = 0 ∨ r0 = size - 1 ∨ c0 = 0 ∨ c0 = size - 1 then true else false := by
  have hlt : r0 * size + c0 < size * size := index_lt hr0 hc0
  rw [getD_setAll]
  by_cases hb : r0 = 0 ∨ r0 = size - 1 ∨ c0 = 0 ∨ c0 = size - 1
  · rw [if_pos hb, if_pos]
    refine ⟨?_, by rw [List.length_replicate]; exact hlt⟩
    rw [mem_borderIdxs]
    rcases hb with hb | hb | hb | hb
    · exact ⟨c0, hc0, Or.inr (Or.inl (by rw [hb, Nat.zero_mul, Nat.zero_add]))⟩
    · exact ⟨c0, hc0, Or.inr (Or.inr (Or.inr (by rw [hb])))⟩
    · exact ⟨r0, hr0, Or.inl (by rw [hb, Nat.add_zero])⟩
    · exact ⟨r0, hr0, Or.inr (Or.inr (Or.inl (by rw [hb])))⟩
  · rw [if_neg hb, if_neg, getD_replicate_false_lt hlt]
    rintro ⟨hmem, -⟩
    rw [mem_borderIdxs] at hmem
    obtain ⟨n, hn, hd⟩ := hmem
    rcases hd with hd | hd | hd | hd
    · have hd1 : r0 * size + c0 = n * size + 0 := by omega
      obtain ⟨he1, he2⟩ := index_inj hc0 (by omega) hd1
      exact hb (Or.inr (Or.inr (Or.inl he2)))
    · have hd1 : r0 * size + c0 = 0 * size + n := by
        rw [Nat.zero_mul, Nat.zero_add]
        exact hd
      obtain ⟨he1, he2⟩ := index_inj hc0 hn hd1
      exact hb (Or.inl he1)
    · obtain ⟨he1, he2⟩ := index_inj hc0 (by omega) hd
      exact hb (Or.inr (Or.inr (Or.inr he2)))
    · obtain ⟨he1, he2⟩ := index_inj hc0 hn hd
      exact hb (Or.inr (Or.inl he1))

/-- After `GeneratorRD::generate` (odd size): right length, fully walled
border, the open cells are exactly the open cells of the interior rectangle,
odd/odd cells are open, and the open cells are all mutually reachable. -/
theorem rdGenerate_invariant (size : Nat) (r : Rng) (hsz : 7 ≤ size)
    (hodd : size % 2 = 1) :
    (rdGenerate size r).1.length = size * size ∧
    (∀ r0 c0, r0 < size → c0 < size →
      (r0 = 0 ∨ r0 = size - 1 ∨ c0 = 0 ∨ c0 = size - 1) →
      (rdGenerate size r).1.getD (r0 * size + c0) true = true) ∧
    openFinset size (rdGenerate size r).1 =
      rectOpen size (rdGenerate size r).1 0 0 ((size - 1) / 2 - 1) ((size - 1) / 2 - 1) ∧
    (∀ c : Nat × Nat, inRect 0 0 ((size - 1) / 2 - 1) ((size - 1) / 2 - 1) c →
      c.1 % 2 = 1 → c.2 % 2 = 1 → openCell size (rdGenerate size r).1 c) ∧
    (∀ u v, u ∈ openFinset size (rdGenerate size r).1 →
      v ∈ openFinset size (rdGenerate size r).1 →
      ReachIn (openFinset size (rdGenerate size r).1) u v) := by
  have hf : 2 * ((size - 1) / 2) = size - 1 := by omega
  have hf1 : 1 ≤ (size - 1) / 2 := by omega
  have hfe : 2 * ((size - 1) / 2 - 1) + 2 = size - 1 := by omega
  have hres : (rdGenerate size r).1 =
      (divideChamber size size 0 0 ((size - 1) / 2 - 1) ((size - 1) / 2 - 1)
        (randOrientation r).1 (randOrientation r).2
        (setAll (List.replicate (size * size) false) (borderIdxs size) true)).1 := rfl
  have hlen0 : (setAll (List.replicate (size * size) false)
      (borderIdxs size) true).length = size * size := by
    rw [setAll_length, List.length_replicate]
  obtain ⟨hQa, hQb, hQc, hQd⟩ := divideChamber_main size size 0 0
    ((size - 1) / 2 - 1) ((size - 1) / 2 - 1)
    (randOrientation r).1 (randOrientation r).2
    (setAll (List.replicate (size * size) false) (borderIdxs size) true)
    hlen0 (Nat.zero_le _) (Nat.zero_le _) (by omega) (by omega) (by omega)
    (by
      rintro ⟨r0, c0⟩ ⟨h1, h2, h3, h4⟩
      unfold openCell
      simp only [] at h1 h2 h3 h4 ⊢
      rw [rdInit_cell size r0 c0 (by omega) (by omega), if_neg (by omega)])
    (by
      intro rr h1 h2 h3
      rw [show 2 * ((size - 1) / 2 - 1) + 2 = size - 1 from hfe,
        rdInit_cell size rr (size - 1) (by omega) (by omega),
        if_pos (by omega)])
    (by
      intro cc h1 h2 h3
      rw [show 2 * ((size - 1) / 2 - 1) + 2 = size - 1 from hfe,
        rdInit_cell size (size - 1) cc (by omega) (by omega),
        if_pos (by omega)])
  rw [hres]
  have hborder : ∀ r0 c0, r0 < size → c0 < size →
      (r0 = 0 ∨ r0 = size - 1 ∨ c0 = 0 ∨ c0 = size - 1) →
      (divideChamber size size 0 0 ((size - 1) / 2 - 1) ((size - 1) / 2 - 1)
        (randOrientation r).1 (randOrientation r).2
        (setAll (List.replicate (size * size) false) (borderIdxs size) true)).1.getD
          (r0 * size + c0) true = true := by
    intro r0 c0 h1 h2 h3
    rw [hQb r0 c0 h1 h2
      (by rintro ⟨hd1, hd2, hd3, hd4⟩; simp only [] at hd1 hd2 hd3 hd4; omega),
      rdInit_cell size r0 c0 h1 h2, if_pos h3]
  have hopeneq : openFinset size (divideChamber size size 0 0
      ((size - 1) / 2 - 1) ((size - 1) / 2 - 1)
      (randOrientation r).1 (randOrientation r).2
      (setAll (List.replicate (size * size) false) (borderIdxs size) true)).1 =
      rectOpen size (divideChamber size size 0 0
        ((size - 1) / 2 - 1) ((size - 1) / 2 - 1)
        (randOrientation r).1 (randOrientation r).2
        (setAll (List.replicate (size * size) false) (borderIdxs size) true)).1
        0 0 ((size - 1) / 2 - 1) ((size - 1) / 2 - 1) := by
    ext c
    rcases c with ⟨r0, c0⟩
    rw [mem_openFinset, mem_rectOpen]
    unfold inRect openCell
    simp only []
    constructor
    · rintro ⟨h1, h2, h3⟩
      by_cases hin : 1 ≤ r0 ∧ r0 ≤ size - 2 ∧ 1 ≤ c0 ∧ c0 ≤ size - 2
      · exact ⟨⟨by omega, by omega, by omega, by omega⟩, h3⟩
      · exfalso
        have hb := hborder r0 c0 h1 h2 (by omega)
        rw [h3] at hb
        exact Bool.false_ne_true hb
    · rintro ⟨⟨h1, h2, h3, h4⟩, h5⟩
      exact ⟨by omega, by omega, h5⟩
  refine ⟨hQa, hborder, hopeneq, hQc, ?_⟩
  intro u v hu hv
  rw [hopeneq] at hu hv
  rw [hopeneq]
  exact hQd u v hu hv

/-! ## Start and exit placement -/

theorem advance_zero (r : Rng) : r.advance 0 = r := rfl

theorem advance_add (r : Rng) (m n : Nat) :
    (r.advance m).advance n = r.advance (m + n) := by
  unfold Rng.advance
  rw [Nat.add_assoc]

theorem startCandidate_bounds (size : Nat) (r : Rng) (k : Nat) (hsz : 2 ≤ size) :
    1 ≤ (startCandidate size r k).1 ∧ (startCandidate size r k).1 ≤ size - 1 ∧
    1 ≤ (startCandidate size r k).2 ∧ (startCandidate size r k).2 ≤ size - 1 := by
  have h1 := genRange_bounds 1 (size - 1) (r.advance (2 * k)) (by omega)
  have h2 := genRange_bounds 1 (size - 1) (r.advance (2 * k + 1)) (by omega)
  exact ⟨h1.1, h1.2, h2.1, h2.2⟩

theorem bool_not_true {b : Bool} (h : ¬ b = true) : b = false := by
  cases b
  · rfl
  · exact absurd rfl h

theorem startCandidate_shift (size : Nat) (r : Rng) (k : Nat) :
    startCandidate size (r.advance 2) k = startCandidate size r (k + 1) := by
  unfold startCandidate
  have h1 : (r.advance 2).advance (2 * k) = r.advance (2 * (k + 1)) := by
    show Rng.mk r.stream (r.pos + 2 + 2 * k) = Rng.mk r.stream (r.pos + 2 * (k + 1))
    congr 1
    omega
  have h2 : (r.advance 2).advance (2 * k + 1) = r.advance (2 * (k + 1) + 1) := by
    show Rng.mk r.stream (r.pos + 2 + (2 * k + 1)) =
      Rng.mk r.stream (r.pos + (2 * (k + 1) + 1))
    congr 1
    omega
  rw [h1, h2]

/-- `set_start_position` returns the first candidate point whose cell is
open: all earlier candidates hit walls. -/
theorem setStartPosition_first_open (size : Nat) (a : List Bool) :
    ∀ (fuel : Nat) (r : Rng) (p : Nat × Nat) (r1 : Rng),
      setStartPosition size a fuel r = some (p, r1) →
      ∃ k, k ≤ fuel ∧ p = startCandidate size r k ∧
        a.getD (p.2 * size + p.1) true = false ∧
        ∀ j, j < k → a.getD ((startCandidate size r j).2 * size +
          (startCandidate size r j).1) true = true := by
  have hloop : ∀ (fuel : Nat) (r : Rng) (p : Nat × Nat) (r1 : Rng),
      setStartLoop size a fuel (startCandidate size r 0).1
        (startCandidate size r 0).2 (r.advance 2) = some (p, r1) →
      ∃ k, k ≤ fuel ∧ p = startCandidate size r k ∧
        a.getD (p.2 * size + p.1) true = false ∧
        ∀ j, j < k → a.getD ((startCandidate size r j).2 * size +
          (startCandidate size r j).1) true = true := by
    intro fuel
    induction fuel with
    | zero =>
      intro r p r1 h
      rw [setStartLoop] at h
      by_cases hval : a.getD ((startCandidate size r 0).2 * size +
          (startCandidate size r 0).1) true = true
      · rw [if_pos hval] at h
        exact absurd h (by simp)
      · rw [if_neg hval] at h
        simp only [Option.some.injEq, Prod.mk.injEq] at h
        refine ⟨0, Nat.le_refl 0, ?_, ?_, fun j hj => absurd hj (by omega)⟩
        · rw [← h.1]
        · rw [← h.1]
          exact bool_not_true hval
    | succ fuel ih =>
      intro r p r1 h
      rw [setStartLoop] at h
      by_cases hval : a.getD ((startCandidate size r 0).2 * size +
          (startCandidate size r 0).1) true = true
      · rw [if_pos hval] at h
        obtain ⟨k, hk, hp, hopen, hprev⟩ := ih (r.advance 2) p r1 h
        refine ⟨k + 1, by omega, ?_, hopen, ?_⟩
        · rw [hp, startCandidate_shift]
        · intro j hj
          rcases Nat.eq_zero_or_pos j with hj0 | hjpos
          · subst hj0
            exact hval
          · obtain ⟨j1, rfl⟩ := Nat.exists_eq_add_of_lt hjpos
            rw [Nat.zero_add] at hj ⊢
            have hv := hprev j1 (by omega)
            rw [startCandidate_shift] at hv
            exact hv
      · rw [if_neg hval] at h
        simp only [Option.some.injEq, Prod.mk.injEq] at h
        refine ⟨0, by omega, ?_, ?_, fun j hj => absurd hj (by omega)⟩
        · rw [← h.1]
        · rw [← h.1]
          exact bool_not_true hval
  intro fuel r p r1 h
  exact hloop fuel r p r1 h

/-- What a successful `set_exit` returns: some accepted index and border,
the recorded exit point one step inside that border, and the array with the
single border hole pierced. -/
theorem setExitLoop_result (size : Nat) (a : List Bool) :
    ∀ (fuel : Nat) (r tr : Rng) (p : Nat × Nat) (d : Direction) (a1 : List Bool)
      (r1 tr1 : Rng),
      setExitLoop size a fuel r tr = some (p, d, a1, r1, tr1) →
      2 ≤ size →
      ∃ ei, 1 ≤ ei ∧ ei ≤ size - 1 ∧
        ((d = .top ∧ a.getD (1 * size + ei) true = false ∧ p = (ei, 1) ∧
            a1 = a.set (0 * size + ei) false) ∨
         (d = .bottom ∧ a.getD ((size - 2) * size + ei) true = false ∧
            p = (ei, size - 2) ∧ a1 = a.set ((size - 1) * size + ei) false) ∨
         (d = .left ∧ a.getD (ei * size + 1) true = false ∧ p = (1, ei) ∧
            a1 = a.set (ei * size + 0) false) ∨
         (d = .right ∧ a.getD (ei * size + (size - 2)) true = false ∧
            p = (size - 2, ei) ∧ a1 = a.set (ei * size + (size - 1)) false)) := by
  intro fuel
  induction fuel with
  | zero =>
    intro r tr p d a1 r1 tr1 h hsz
    exact absurd h (by rw [setExitLoop]; simp)
  | succ fuel ih =>
    intro r tr p d a1 r1 tr1 h hsz
    rw [setExitLoop] at h
    have hei := genRange_bounds 1 (size - 1) r (by omega)
    rcases hd : (randDirection tr).1 with - | - | - | -
    all_goals rw [hd] at h
    · by_cases hacc : a.getD (1 * size + (genRange 1 (size - 1) r).1) true = false
      · rw [if_pos hacc] at h
        simp only [Option.some.injEq, Prod.mk.injEq] at h
        obtain ⟨hp, hdir, ha1, -, -⟩ := h
        exact ⟨(genRange 1 (size - 1) r).1, hei.1, hei.2,
          Or.inl ⟨hdir.symm, hacc, hp.symm, ha1.symm⟩⟩
      · rw [if_neg hacc] at h
        exact ih (genRange 1 (size - 1) r).2 (randDirection tr).2 p d a1 r1 tr1 h hsz
    · by_cases hacc : a.getD ((size - 2) * size + (genRange 1 (size - 1) r).1) true = false
      · rw [if_pos hacc] at h
        simp only [Option.some.injEq, Prod.mk.injEq] at h
        obtain ⟨hp, hdir, ha1, -, -⟩ := h
        exact ⟨(genRange 1 (size - 1) r).1, hei.1, hei.2,
          Or.inr (Or.inl ⟨hdir.symm, hacc, hp.symm, ha1.symm⟩)⟩
      · rw [if_neg hacc] at h
        exact ih (genRange 1 (size - 1) r).2 (randDirection tr).2 p d a1 r1 tr1 h hsz
    · by_cases hacc : a.getD ((genRange 1 (size - 1) r).1 * size + 1) true = false
      · rw [if_pos hacc] at h
        simp only [Option.some.injEq, Prod.mk.injEq] at h
        obtain ⟨hp, hdir, ha1, -, -⟩ := h
        exact ⟨(genRange 1 (size - 1) r).1, hei.1, hei.2,
          Or.inr (Or.inr (Or.inl ⟨hdir.symm, hacc, hp.symm, ha1.symm⟩))⟩
      · rw [if_neg hacc] at h
        exact ih (genRange 1 (size - 1) r).2 (randDirection tr).2 p d a1 r1 tr1 h hsz
    · by_cases hacc : a.getD ((genRange 1 (size - 1) r).1 * size + (size - 2)) true = false
      · rw [if_pos hacc] at h
        simp only [Option.some.injEq, Prod.mk.injEq] at h
        obtain ⟨hp, hdir, ha1, -, -⟩ := h
        exact ⟨(genRange 1 (size - 1) r).1, hei.1, hei.2,
          Or.inr (Or.inr (Or.inr ⟨hdir.symm, hacc, hp.symm, ha1.symm⟩))⟩
      · rw [if_neg hacc] at h
        exact ih (genRange 1 (size - 1) r).2 (randDirection tr).2 p d a1 r1 tr1 h hsz

/-! ## The orchestrator pipeline -/

theorem generateMaze_dfs_elim {size fuel : Nat} {r tr : Rng} {res : MazeResult}
    (hres : generateMaze .DFS size r tr fuel = some res) :
    ∃ start r2 endp d a2 r3 tr3,
      setStartPosition size (dfsGenerate size r).1 fuel (dfsGenerate size r).2 =
        some (start, r2) ∧
      setExitLoop size (dfsGenerate size r).1 fuel r2 tr =
        some (endp, d, a2, r3, tr3) ∧
      res = ⟨size, start, endp, d, a2⟩ := by
  unfold generateMaze at hres
  simp only [] at hres
  rcases hs : setStartPosition size (dfsGenerate size r).1 fuel (dfsGenerate size r).2
    with - | ⟨start, r2⟩
  · rw [hs] at hres
    exact absurd hres (by simp)
  · rw [hs] at hres
    simp only [] at hres
    rcases he : setExitLoop size (dfsGenerate size r).1 fuel r2 tr
      with - | ⟨endp, d, a2, r3, tr3⟩
    · rw [he] at hres
      exact absurd hres (by simp)
    · rw [he] at hres
      simp only [Option.some.injEq] at hres
      exact ⟨start, r2, endp, d, a2, r3, tr3, rfl, he, hres.symm⟩

theorem generateMaze_rd_elim {size fuel : Nat} {r tr : Rng} {res : MazeResult}
    (hres : generateMaze .RD size r tr fuel = some res) :
    ∃ start r2 endp d a2 r3 tr3,
      setStartPosition (if size % 2 = 0 then size + 1 else size)
        (rdGenerate (if size % 2 = 0 then size + 1 else size) r).1 fuel
        (rdGenerate (if size % 2 = 0 then size + 1 else size) r).2 =
        some (start, r2) ∧
      setExitLoop (if size % 2 = 0 then size + 1 else size)
        (rdGenerate (if size % 2 = 0 then size + 1 else size) r).1 fuel r2 tr =
        some (endp, d, a2, r3, tr3) ∧
      res = ⟨if size % 2 = 0 then size + 1 else size, start, endp, d, a2⟩ := by
  unfold generateMaze at hres
  simp only [] at hres
  rcases hs : setStartPosition (if size % 2 = 0 then size + 1 else size)
      (rdGenerate (if size % 2 = 0 then size + 1 else size) r).1 fuel
      (rdGenerate (if size % 2 = 0 then size + 1 else size) r).2
    with - | ⟨start, r2⟩
  · rw [hs] at hres
    exact absurd hres (by simp)
  · rw [hs] at hres
    simp only [] at hres
    rcases he : setExitLoop (if size % 2 = 0 then size + 1 else size)
        (rdGenerate (if size % 2 = 0 then size + 1 else size) r).1 fuel r2 tr
      with - | ⟨endp, d, a2, r3, tr3⟩
    · rw [he] at hres
      exact absurd hres (by simp)
    · rw [he] at hres
      simp only [Option.some.injEq] at hres
      exact ⟨start, r2, endp, d, a2, r3, tr3, rfl, he, hres.symm⟩

/-! ## Facts shared by the claim theorems -/

/-- A successful `set_start_position` on a grid whose border is fully walled
yields an open strictly interior cell. -/
theorem start_interior_open {size : Nat} {a : List Bool} {fuel : Nat} {r : Rng}
    {p : Nat × Nat} {r1 : Rng} (hsz : 3 ≤ size)
    (h : setStartPosition size a fuel r = some (p, r1))
    (hborder : ∀ r0 c0, r0 < size → c0 < size →
      (r0 = 0 ∨ r0 = size - 1 ∨ c0 = 0 ∨ c0 = size - 1) →
      a.getD (r0 * size + c0) true = true) :
    1 ≤ p.1 ∧ p.1 ≤ size - 2 ∧ 1 ≤ p.2 ∧ p.2 ≤ size - 2 ∧
      a.getD (p.2 * size + p.1) true = false := by
  obtain ⟨k, -, hp, hopen, -⟩ := setStartPosition_first_open size a fuel r p r1 h
  have hb := startCandidate_bounds size r k (by omega)
  rw [← hp] at hb
  obtain ⟨h1, h2, h3, h4⟩ := hb
  have hx2 : p.1 ≤ size - 2 := by
    by_contra hcon
    have hb := hborder p.2 p.1 (by omega) (by omega) (by omega)
    rw [hopen] at hb
    exact Bool.false_ne_true hb
  have hy2 : p.2 ≤ size - 2 := by
    by_contra hcon
    have hb := hborder p.2 p.1 (by omega) (by omega) (by omega)
    rw [hopen] at hb
    exact Bool.false_ne_true hb
  exact ⟨h1, hx2, h3, hy2, hopen⟩

/-- `setExitLoop_result` sharpened on fully-walled-border grids: the accepted
index is at most `size - 2`, since the cell one step inside the chosen face
at index `size - 1` would itself be a border cell. -/
theorem setExit_props {size : Nat} {a : List Bool} {fuel : Nat} {r tr : Rng}
    {p : Nat × Nat} {d : Direction} {a1 : List Bool} {r1 tr1 : Rng}
    (hsz : 3 ≤ size)
    (h : setExitLoop size a fuel r tr = some (p, d, a1, r1, tr1))
    (hborder : ∀ r0 c0, r0 < size → c0 < size →
      (r0 = 0 ∨ r0 = size - 1 ∨ c0 = 0 ∨ c0 = size - 1) →
      a.getD (r0 * size + c0) true = true) :
    ∃ ei, 1 ≤ ei ∧ ei ≤ size - 2 ∧
      ((d = .top ∧ a.getD (1 * size + ei) true = false ∧ p = (ei, 1) ∧
          a1 = a.set (0 * size + ei) false) ∨
       (d = .bottom ∧ a.getD ((size - 2) * size + ei) true = false ∧
          p = (ei, size - 2) ∧ a1 = a.set ((size - 1) * size + ei) false) ∨
       (d = .left ∧ a.getD (ei * size + 1) true = false ∧ p = (1, ei) ∧
          a1 = a.set (ei * size + 0) false) ∨
       (d = .right ∧ a.getD (ei * size + (size - 2)) true = false ∧
          p = (size - 2, ei) ∧ a1 = a.set (ei * size + (size - 1)) false)) := by
  obtain ⟨ei, h1, h2, hcase⟩ :=
    setExitLoop_result size a fuel r tr p d a1 r1 tr1 h (by omega)
  refine ⟨ei, h1, ?_, hcase⟩
  by_contra hcon
  have hei : ei = size - 1 := by omega
  rcases hcase with ⟨-, hopen, -, -⟩ | ⟨-, hopen, -, -⟩ |
    ⟨-, hopen, -, -⟩ | ⟨-, hopen, -, -⟩
  · have hb := hborder 1 ei (by omega) (by omega) (by omega)
    rw [hopen] at hb
    exact Bool.false_ne_true hb
  · have hb := hborder (size - 2) ei (by omega) (by omega) (by omega)
    rw [hopen] at hb
    exact Bool.false_ne_true hb
  · have hb := hborder ei 1 (by omega) (by omega) (by omega)
    rw [hopen] at hb
    exact Bool.false_ne_true hb
  · have hb := hborder ei (size - 2) (by omega) (by omega) (by omega)
    rw [hopen] at hb
    exact Bool.false_ne_true hb

/-- On a fully-walled border, the only possible open neighbour of the top
hole `(0, ei)` is the cell one step inside, `(1, ei)`. -/
theorem hole_adj_top {size : Nat} {a : List Bool} {ei : Nat}
    (hsz : 3 ≤ size) (h1 : 1 ≤ ei) (h2 : ei ≤ size - 2)
    (hborder : ∀ r0 c0, r0 < size → c0 < size →
      (r0 = 0 ∨ r0 = size - 1 ∨ c0 = 0 ∨ c0 = size - 1) →
      a.getD (r0 * size + c0) true = true) :
    ∀ v ∈ openFinset size a, adjC (0, ei) v → v = (1, ei) := by
  rintro ⟨vr, vc⟩ hvS hadj
  obtain ⟨hvr, hvc, hval⟩ := mem_openFinset.mp hvS
  simp only [] at hvr hvc hval
  unfold adjC at hadj
  simp only [] at hadj
  rcases hadj with ⟨ha1, ha2 | ha2⟩ | ⟨ha1, ha2 | ha2⟩
  · exfalso
    have hb := hborder vr vc hvr hvc (Or.inl (by omega))
    rw [hval] at hb
    exact Bool.false_ne_true hb
  · exfalso
    have hb := hborder vr vc hvr hvc (Or.inl (by omega))
    rw [hval] at hb
    exact Bool.false_ne_true hb
  · rw [Prod.ext_iff]
    exact ⟨by omega, by omega⟩
  · exact absurd ha2 (by omega)

/-- On a fully-walled border, the only possible open neighbour of the bottom
hole `(size - 1, ei)` is the cell one step inside, `(size - 2, ei)`. -/
theorem hole_adj_bottom {size : Nat} {a : List Bool} {ei : Nat}
    (hsz : 3 ≤ size) (h1 : 1 ≤ ei) (h2 : ei ≤ size - 2)
    (hborder : ∀ r0 c0, r0 < size → c0 < size →
      (r0 = 0 ∨ r0 = size - 1 ∨ c0 = 0 ∨ c0 = size - 1) →
      a.getD (r0 * size + c0) true = true) :
    ∀ v ∈ openFinset size a, adjC (size - 1, ei) v → v = (size - 2, ei) := by
  rintro ⟨vr, vc⟩ hvS hadj
  obtain ⟨hvr, hvc, hval⟩ := mem_openFinset.mp hvS
  simp only [] at hvr hvc hval
  unfold adjC at hadj
  simp only [] at hadj
  rcases hadj with ⟨ha1, ha2 | ha2⟩ | ⟨ha1, ha2 | ha2⟩
  · exfalso
    have hb := hborder vr vc hvr hvc (Or.inr (Or.inl (by omega)))
    rw [hval] at hb
    exact Bool.false_ne_true hb
  · exfalso
    have hb := hborder vr vc hvr hvc (Or.inr (Or.inl (by omega)))
    rw [hval] at hb
    exact Bool.false_ne_true hb
  · exact absurd ha2 (by omega)
  · rw [Prod.ext_iff]
    exact ⟨by omega, by omega⟩

/-- On a fully-walled border, the only possible open neighbour of the left
hole `(ei, 0)` is the cell one step inside, `(ei, 1)`. -/
theorem hole_adj_left {size : Nat} {a : List Bool} {ei : Nat}
    (hsz : 3 ≤ size) (h1 : 1 ≤ ei) (h2 : ei ≤ size - 2)
    (hborder : ∀ r0 c0, r0 < size → c0 < size →
      (r0 = 0 ∨ r0 = size - 1 ∨ c0 = 0 ∨ c0 = size - 1) →
      a.getD (r0 * size + c0) true = true) :
    ∀ v ∈ openFinset size a, adjC (ei, 0) v → v = (ei, 1) := by
  rintro ⟨vr, vc⟩ hvS hadj
  obtain ⟨hvr, hvc, hval⟩ := mem_openFinset.mp hvS
  simp only [] at hvr hvc hval
  unfold adjC at hadj
  simp only [] at hadj
  rcases hadj with ⟨ha1, ha2 | ha2⟩ | ⟨ha1, ha2 | ha2⟩
  · rw [Prod.ext_iff]
    exact ⟨by omega, by omega⟩
  · exact absurd ha2 (by omega)
  · exfalso
    have hb := hborder vr vc hvr hvc (Or.inr (Or.inr (Or.inl (by omega))))
    rw [hval] at hb
    exact Bool.false_ne_true hb
  · exfalso
    have hb := hborder vr vc hvr hvc (Or.inr (Or.inr (Or.inl (by omega))))
    rw [hval] at hb
    exact Bool.false_ne_true hb

/-- On a fully-walled border, the only possible open neighbour of the right
hole `(ei, size - 1)` is the cell one step inside, `(ei, size - 2)`. -/
theorem hole_adj_right {size : Nat} {a : List Bool} {ei : Nat}
    (hsz : 3 ≤ size) (h1 : 1 ≤ ei) (h2 : ei ≤ size - 2)
    (hborder : ∀ r0 c0, r0 < size → c0 < size →
      (r0 = 0 ∨ r0 = size - 1 ∨ c0 = 0 ∨ c0 = size - 1) →
      a.getD (r0 * size + c0) true = true) :
    ∀ v ∈ openFinset size a, adjC (ei, size - 1) v → v = (ei, size - 2) := by
  rintro ⟨vr, vc⟩ hvS hadj
  obtain ⟨hvr, hvc, hval⟩ := mem_openFinset.mp hvS
  simp only [] at hvr hvc hval
  unfold adjC at hadj
  simp only [] at hadj
  rcases hadj with ⟨ha1, ha2 | ha2⟩ | ⟨ha1, ha2 | ha2⟩
  · exact absurd ha2 (by omega)
  · rw [Prod.ext_iff]
    exact ⟨by omega, by omega⟩
  · exfalso
    have hb := hborder vr vc hvr hvc (Or.inr (Or.inr (Or.inr (by omega))))
    rw [hval] at hb
    exact Bool.false_ne_true hb
  · exfalso
    have hb := hborder vr vc hvr hvc (Or.inr (Or.inr (Or.inr (by omega))))
    rw [hval] at hb
    exact Bool.false_ne_true hb

/-- Generic piercing step: opening a walled cell `h` whose sole possible open
neighbour is the open cell `w` inserts `h` with neighbour degree one. -/
theorem hole_insert {size : Nat} {a : List Bool} {h w : Nat × Nat}
    (hlen : a.length = size * size)
    (hhr : h.1 < size) (hhc : h.2 < size)
    (hholewall : a.getD (h.1 * size + h.2) true = true)
    (hw : w ∈ openFinset size a) (hadj : adjC h w)
    (hother : ∀ v ∈ openFinset size a, adjC h v → v = w) :
    openFinset size (a.set (h.1 * size + h.2) false) =
      insert h (openFinset size a) ∧
    h ∉ openFinset size a ∧
    ((openFinset size a).filter (fun v => adjC h v)).card = 1 := by
  refine ⟨?_, ?_, ?_⟩
  · have := openFinset_set_false hhr hhc hlen (a := a)
    rw [this]
  · rw [mem_openFinset]
    rintro ⟨-, -, hv⟩
    rw [hholewall] at hv
    exact Bool.noConfusion hv
  · rw [show (openFinset size a).filter (fun v => adjC h v) = {w} from ?_]
    · exact Finset.card_singleton w
    · ext v
      rw [Finset.mem_filter, Finset.mem_singleton]
      constructor
      · rintro ⟨hvS, hvadj⟩
        exact hother v hvS hvadj
      · rintro rfl
        exact ⟨hw, hadj⟩

/-- What `set_exit` does to the open-cell set of a fully-bordered grid: it
inserts the single pierced hole, which has exactly one open neighbour — the
recorded exit cell one step inside the recorded border. -/
theorem setExit_pierce {size : Nat} {a : List Bool} {fuel : Nat} {r tr : Rng}
    {p : Nat × Nat} {d : Direction} {a1 : List Bool} {r1 tr1 : Rng}
    (hsz : 3 ≤ size)
    (h : setExitLoop size a fuel r tr = some (p, d, a1, r1, tr1))
    (hlen : a.length = size * size)
    (hborder : ∀ r0 c0, r0 < size → c0 < size →
      (r0 = 0 ∨ r0 = size - 1 ∨ c0 = 0 ∨ c0 = size - 1) →
      a.getD (r0 * size + c0) true = true) :
    openFinset size a1 = insert (holeCell size p d) (openFinset size a) ∧
    holeCell size p d ∉ openFinset size a ∧
    ((openFinset size a).filter (fun v => adjC (holeCell size p d) v)).card = 1 ∧
    (p.2, p.1) ∈ openFinset size a ∧ adjC (holeCell size p d) (p.2, p.1) ∧
    onBorderSide size d (holeCell size p d) ∧
    1 ≤ p.1 ∧ p.1 ≤ size - 2 ∧ 1 ≤ p.2 ∧ p.2 ≤ size - 2 := by
  obtain ⟨ei, h1, h2, hcase⟩ := setExit_props hsz h hborder
  rcases hcase with ⟨hd, hopen, hp, ha1⟩ | ⟨hd, hopen, hp, ha1⟩ |
    ⟨hd, hopen, hp, ha1⟩ | ⟨hd, hopen, hp, ha1⟩
  · subst hd
    subst hp
    have hw : ((1 : Nat), ei) ∈ openFinset size a :=
      mem_openFinset.mpr ⟨by omega, by omega, hopen⟩
    have hadj : adjC (0, ei) (1, ei) := Or.inr ⟨rfl, Or.inl rfl⟩
    have hhw : a.getD (0 * size + ei) true = true :=
      hborder 0 ei (by omega) (by omega) (Or.inl rfl)
    obtain ⟨he1, he2, he3⟩ := hole_insert hlen (h := ((0 : Nat), ei))
      (by omega) (by omega) hhw hw hadj (hole_adj_top hsz h1 h2 hborder)
    refine ⟨?_, he2, he3, hw, hadj, rfl, h1, h2, by omega, by omega⟩
    rw [ha1]
    exact he1
  · subst hd
    subst hp
    have hw : ((size - 2 : Nat), ei) ∈ openFinset size a :=
      mem_openFinset.mpr ⟨by omega, by omega, hopen⟩
    have hadj : adjC (size - 1, ei) (size - 2, ei) := by
      show (size - 1 = size - 2 ∧ (ei + 1 = ei ∨ ei + 1 = ei)) ∨
        (ei = ei ∧ (size - 1 + 1 = size - 2 ∨ size - 2 + 1 = size - 1))
      omega
    have hhw : a.getD ((size - 1) * size + ei) true = true :=
      hborder (size - 1) ei (by omega) (by omega) (Or.inr (Or.inl rfl))
    obtain ⟨he1, he2, he3⟩ := hole_insert hlen (h := ((size - 1 : Nat), ei))
      (by omega) (by omega) hhw hw hadj (hole_adj_bottom hsz h1 h2 hborder)
    refine ⟨?_, he2, he3, hw, hadj, rfl, h1, h2, by omega, by omega⟩
    rw [ha1]
    exact he1
  · subst hd
    subst hp
    have hw : (ei, (1 : Nat)) ∈ openFinset size a :=
      mem_openFinset.mpr ⟨by omega, by omega, hopen⟩
    have hadj : adjC (ei, 0) (ei, 1) := Or.inl ⟨rfl, Or.inl rfl⟩
    have hhw : a.getD (ei * size + 0) true = true :=
      hborder ei 0 (by omega) (by omega) (Or.inr (Or.inr (Or.inl rfl)))
    obtain ⟨he1, he2, he3⟩ := hole_insert hlen (h := (ei, (0 : Nat)))
      (by omega) (by omega) hhw hw hadj (hole_adj_left hsz h1 h2 hborder)
    refine ⟨?_, he2, he3, hw, hadj, rfl, by omega, by omega, h1, h2⟩
    rw [ha1]
    exact he1
  · subst hd
    subst hp
    have hw : (ei, (size - 2 : Nat)) ∈ openFinset size a :=
      mem_openFinset.mpr ⟨by omega, by omega, hopen⟩
    have hadj : adjC (ei, size - 1) (ei, size - 2) := by
      show (ei = ei ∧ (size - 1 + 1 = size - 2 ∨ size - 2 + 1 = size - 1)) ∨
        (size - 1 = size - 2 ∧ (ei + 1 = ei ∨ ei + 1 = ei))
      omega
    have hhw : a.getD (ei * size + (size - 1)) true = true :=
      hborder ei (size - 1) (by omega) (by omega) (Or.inr (Or.inr (Or.inr rfl)))
    obtain ⟨he1, he2, he3⟩ := hole_insert hlen (h := (ei, (size - 1 : Nat)))
      (by omega) (by omega) hhw hw hadj (hole_adj_right hsz h1 h2 hborder)
    refine ⟨?_, he2, he3, hw, hadj, rfl, by omega, by omega, h1, h2⟩
    rw [ha1]
    exact he1

/-- Attaching one new cell to a connected set by an edge keeps it connected. -/
theorem conn_insert {S : Finset (Nat × Nat)} {c s0 : Nat × Nat}
    (hconn : ∀ u ∈ S, ∀ v ∈ S, ReachIn S u v) (hs0 : s0 ∈ S) (hadj : adjC c s0) :
    ∀ u ∈ insert c S, ∀ v ∈ insert c S, ReachIn (insert c S) u v := by
  have hsub : S ⊆ insert c S := Finset.subset_insert c S
  have hcmem : c ∈ insert c S := Finset.mem_insert_self c S
  have hstep : ReachIn (insert c S) c s0 :=
    ReachIn.single ⟨hcmem, hsub hs0, hadj⟩
  have hto : ∀ u ∈ insert c S, ReachIn (insert c S) u s0 := by
    intro u hu
    rcases Finset.mem_insert.mp hu with rfl | huS
    · exact hstep
    · exact ReachIn.mono hsub (hconn u huS s0 hs0)
  intro u hu v hv
  exact Relation.ReflTransGen.trans (hto u hu) (ReachIn.symm (hto v hv))

/-- Kind-independent shape of a successful `generate_maze()`: an effective
size of at least 7, a generated grid of the right length with a fully walled
border, a successful start placement and a successful exit placement, whose
outcomes are the observable fields of the result. -/
theorem generateMaze_common {kind : SelectedGenerator} {size fuel : Nat}
    {r tr : Rng} {res : MazeResult} (hsz : 7 ≤ size)
    (hres : generateMaze kind size r tr fuel = some res) :
    ∃ (a : List Bool) (r1 : Rng) (start : Nat × Nat) (r2 : Rng)
      (endp : Nat × Nat) (d : Direction) (a2 : List Bool) (r3 tr3 : Rng),
      7 ≤ res.mazeSize ∧ a.length = res.mazeSize * res.mazeSize ∧
      (∀ r0 c0, r0 < res.mazeSize → c0 < res.mazeSize →
        (r0 = 0 ∨ r0 = res.mazeSize - 1 ∨ c0 = 0 ∨ c0 = res.mazeSize - 1) →
        a.getD (r0 * res.mazeSize + c0) true = true) ∧
      setStartPosition res.mazeSize a fuel r1 = some (start, r2) ∧
      setExitLoop res.mazeSize a fuel r2 tr = some (endp, d, a2, r3, tr3) ∧
      res.startPosition = start ∧ res.endPosition = endp ∧
      res.endBorder = d ∧ res.mazeArray = a2 := by
  rcases kind with - | -
  · obtain ⟨start, r2, endp, d, a2, r3, tr3, hs, he, hresq⟩ :=
      generateMaze_dfs_elim hres
    subst hresq
    obtain ⟨hlen, -, -⟩ := dfsGenerate_invariant size r hsz
    exact ⟨(dfsGenerate size r).1, (dfsGenerate size r).2, start, r2, endp, d, a2,
      r3, tr3, hsz, hlen,
      fun r0 c0 h1 h2 h3 => dfsGenerate_border size r hsz r0 c0 h1 h2 h3,
      hs, he, rfl, rfl, rfl, rfl⟩
  · obtain ⟨start, r2, endp, d, a2, r3, tr3, hs, he, hresq⟩ :=
      generateMaze_rd_elim hres
    subst hresq
    have hsz1 : 7 ≤ (if size % 2 = 0 then size + 1 else size) := by split <;> omega
    have hodd1 : (if size % 2 = 0 then size + 1 else size) % 2 = 1 := by
      split <;> omega
    obtain ⟨hlen, hborder, -, -, -⟩ := rdGenerate_invariant
      (if size % 2 = 0 then size + 1 else size) r hsz1 hodd1
    exact ⟨(rdGenerate (if size % 2 = 0 then size + 1 else size) r).1,
      (rdGenerate (if size % 2 = 0 then size + 1 else size) r).2,
      start, r2, endp, d, a2, r3, tr3, hsz1, hlen, hborder, hs, he,
      rfl, rfl, rfl, rfl⟩

/-! ## The claims -/

/-- C1: for every size of at least 7, every seeded source and every thread
source, a completed DFS generation (including the pierced exit hole) has an
open-cell graph under 4-adjacency that is a tree: connected, acyclic, and
with edge count one less than its open-cell count. -/
theorem C1_dfs_perfect_maze {size fuel : Nat} {r tr : Rng} {res : MazeResult}
    (hsz : 7 ≤ size) (hres : generateMaze .DFS size r tr fuel = some res) :
    Conn (openFinset res.mazeSize res.mazeArray) ∧
    ¬ HasCycle (openFinset res.mazeSize res.mazeArray) ∧
    edgeCount (openFinset res.mazeSize res.mazeArray) + 1 =
      (openFinset res.mazeSize res.mazeArray).card := by
  obtain ⟨start, r2, endp, d, a2, r3, tr3, hs, he, hresq⟩ :=
    generateMaze_dfs_elim hres
  subst hresq
  obtain ⟨hlen, hct, -⟩ := dfsGenerate_invariant size r hsz
  have hborder := fun r0 c0 h1 h2 h3 => dfsGenerate_border size r hsz r0 c0 h1 h2 h3
  obtain ⟨hins, hnot, hcard, -, -, -, -, -, -, -⟩ :=
    setExit_pierce (by omega) he hlen hborder
  have hct2 : CarvedTree (openFinset size a2) := by
    rw [hins]
    exact CarvedTree.grow _ _ hnot hcard hct
  exact ⟨carvedTree_conn hct2, carvedTree_noCycle hct2, carvedTree_edgeCount hct2⟩

/-- C1 instantiated at size 7 with concrete sources. -/
theorem C1_dfs_perfect_maze_witness :
    ∃ res, generateMaze .DFS 7 zeroSrc zeroSrc 50 = some res ∧
      (Conn (openFinset res.mazeSize res.mazeArray) ∧
      ¬ HasCycle (openFinset res.mazeSize res.mazeArray) ∧
      edgeCount (openFinset res.mazeSize res.mazeArray) + 1 =
        (openFinset res.mazeSize res.mazeArray).card) := by
  rcases hq : generateMaze .DFS 7 zeroSrc zeroSrc 50 with - | res
  · exact absurd hq (by decide)
  · exact ⟨res, rfl, C1_dfs_perfect_maze (by decide) hq⟩

/-- C2: for every size of at least 7, every seeded source and every thread
source, after a completed RD generation a flood fill over open cells started
at the recorded start position reaches every open cell of the final grid,
including the recorded exit cell and the pierced border hole (both of which
are open cells of the final grid). -/
theorem C2_rd_full_connectivity {size fuel : Nat} {r tr : Rng} {res : MazeResult}
    (hsz : 7 ≤ size) (hres : generateMaze .RD size r tr fuel = some res) :
    (res.startPosition.2, res.startPosition.1) ∈
      openFinset res.mazeSize res.mazeArray ∧
    (∀ c ∈ openFinset res.mazeSize res.mazeArray,
      ReachIn (openFinset res.mazeSize res.mazeArray)
        (res.startPosition.2, res.startPosition.1) c) ∧
    (res.endPosition.2, res.endPosition.1) ∈
      openFinset res.mazeSize res.mazeArray ∧
    holeCell res.mazeSize res.endPosition res.endBorder ∈
      openFinset res.mazeSize res.mazeArray := by
  obtain ⟨start, r2, endp, d, a2, r3, tr3, hs, he, hresq⟩ :=
    generateMaze_rd_elim hres
  subst hresq
  have hsz1 : 7 ≤ (if size % 2 = 0 then size + 1 else size) := by split <;> omega
  have hodd1 : (if size % 2 = 0 then size + 1 else size) % 2 = 1 := by
    split <;> omega
  obtain ⟨hlen, hborder, -, -, hconn⟩ := rdGenerate_invariant
    (if size % 2 = 0 then size + 1 else size) r hsz1 hodd1
  obtain ⟨hins, -, -, hinw, hadj, -, -, -, -, -⟩ :=
    setExit_pierce (by omega) he hlen hborder
  obtain ⟨h1, h2, h3, h4, hopen⟩ := start_interior_open (by omega) hs hborder
  have hconn2 := conn_insert (fun u hu v hv => hconn u v hu hv) hinw hadj
  have hmem2 : (start.2, start.1) ∈
      openFinset (if size % 2 = 0 then size + 1 else size) a2 := by
    rw [hins]
    exact Finset.mem_insert_of_mem (mem_openFinset.mpr ⟨by omega, by omega, hopen⟩)
  have hreach : ∀ c ∈ openFinset (if size % 2 = 0 then size + 1 else size) a2,
      ReachIn (openFinset (if size % 2 = 0 then size + 1 else size) a2)
        (start.2, start.1) c := by
    intro c hc
    rw [hins] at hc hmem2 ⊢
    exact hconn2 _ hmem2 c hc
  have hexit : (endp.2, endp.1) ∈
      openFinset (if size % 2 = 0 then size + 1 else size) a2 := by
    rw [hins]
    exact Finset.mem_insert_of_mem hinw
  have hhole : holeCell (if size % 2 = 0 then size + 1 else size) endp d ∈
      openFinset (if size % 2 = 0 then size + 1 else size) a2 := by
    rw [hins]
    exact Finset.mem_insert_self _ _
  exact ⟨hmem2, hreach, hexit, hhole⟩

/-- C2 instantiated at size 7 with concrete sources. -/
theorem C2_rd_full_connectivity_witness :
    ∃ res, generateMaze .RD 7 zeroSrc zeroSrc 50 = some res ∧
      ((res.startPosition.2, res.startPosition.1) ∈
        openFinset res.mazeSize res.mazeArray ∧
      (∀ c ∈ openFinset res.mazeSize res.mazeArray,
        ReachIn (openFinset res.mazeSize res.mazeArray)
          (res.startPosition.2, res.startPosition.1) c) ∧
      (res.endPosition.2, res.endPosition.1) ∈
        openFinset res.mazeSize res.mazeArray ∧
      holeCell res.mazeSize res.endPosition res.endBorder ∈
        openFinset res.mazeSize res.mazeArray) := by
  rcases hq : generateMaze .RD 7 zeroSrc zeroSrc 50 with - | res
  · exact absurd hq (by decide)
  · exact ⟨res, rfl, C2_rd_full_connectivity (by decide) hq⟩

/-- C3: for every size of at least 7, both kinds and all sources, after a
completed generation an outer-ring cell of the final grid is open exactly
when it is the pierced hole cell, and that hole is 4-adjacent to the
recorded exit cell and lies on the recorded exit border. -/
theorem C3_border_integrity {kind : SelectedGenerator} {size fuel : Nat}
    {r tr : Rng} {res : MazeResult} (hsz : 7 ≤ size)
    (hres : generateMaze kind size r tr fuel = some res) :
    (∀ r0 c0, r0 < res.mazeSize → c0 < res.mazeSize →
      (r0 = 0 ∨ r0 = res.mazeSize - 1 ∨ c0 = 0 ∨ c0 = res.mazeSize - 1) →
      (res.mazeArray.getD (r0 * res.mazeSize + c0) true = false ↔
        (r0, c0) = holeCell res.mazeSize res.endPosition res.endBorder)) ∧
    adjC (holeCell res.mazeSize res.endPosition res.endBorder)
      (res.endPosition.2, res.endPosition.1) ∧
    onBorderSide res.mazeSize res.endBorder
      (holeCell res.mazeSize res.endPosition res.endBorder) := by
  obtain ⟨a, r1, start, r2, endp, d, a2, r3, tr3, hsz1, hlen, hborder, hs, he,
    hstart, hend, hdir, harr⟩ := generateMaze_common hsz hres
  obtain ⟨hins, hnot, -, hinw, hadj, hside, -, -, -, -⟩ :=
    setExit_pierce (by omega) he hlen hborder
  rw [hend, hdir, harr]
  refine ⟨?_, hadj, hside⟩
  intro r0 c0 h1 h2 h3
  constructor
  · intro hval
    have hmem : ((r0, c0) : Nat × Nat) ∈ openFinset res.mazeSize a2 :=
      mem_openFinset.mpr ⟨h1, h2, hval⟩
    rw [hins] at hmem
    rcases Finset.mem_insert.mp hmem with heq | hmemS
    · exact heq
    · exfalso
      have hw := hborder r0 c0 h1 h2 h3
      have hv := (mem_openFinset.mp hmemS).2.2
      rw [hv] at hw
      exact Bool.noConfusion hw
  · intro heq
    have hmem : holeCell res.mazeSize endp d ∈ openFinset res.mazeSize a2 := by
      rw [hins]
      exact Finset.mem_insert_self _ _
    rw [Prod.ext_iff] at heq
    have hr0 : r0 = (holeCell res.mazeSize endp d).1 := heq.1
    have hc0 : c0 = (holeCell res.mazeSize endp d).2 := heq.2
    rw [hr0, hc0]
    exact (mem_openFinset.mp hmem).2.2

/-- C3 instantiated at size 7 with concrete sources. -/
theorem C3_border_integrity_witness :
    ∃ res, generateMaze .DFS 7 oneSrc oneSrc 50 = some res ∧
      ((∀ r0 c0, r0 < res.mazeSize → c0 < res.mazeSize →
        (r0 = 0 ∨ r0 = res.mazeSize - 1 ∨ c0 = 0 ∨ c0 = res.mazeSize - 1) →
        (res.mazeArray.getD (r0 * res.mazeSize + c0) true = false ↔
          (r0, c0) = holeCell res.mazeSize res.endPosition res.endBorder)) ∧
      adjC (holeCell res.mazeSize res.endPosition res.endBorder)
        (res.endPosition.2, res.endPosition.1) ∧
      onBorderSide res.mazeSize res.endBorder
        (holeCell res.mazeSize res.endPosition res.endBorder)) := by
  rcases hq : generateMaze .DFS 7 oneSrc oneSrc 50 with - | res
  · exact absurd hq (by decide)
  · exact ⟨res, rfl, C3_border_integrity (by decide) hq⟩

/-- C7: for every size of at least 7, both kinds and all sources, the
recorded start position (x, y) of a completed generation satisfies
1 ≤ x, y ≤ size - 2 and its grid cell (row y, column x) is open in the
final grid. -/
theorem C7_start_validity {kind : SelectedGenerator} {size fuel : Nat}
    {r tr : Rng} {res : MazeResult} (hsz : 7 ≤ size)
    (hres : generateMaze kind size r tr fuel = some res) :
    1 ≤ res.startPosition.1 ∧ res.startPosition.1 ≤ res.mazeSize - 2 ∧
    1 ≤ res.startPosition.2 ∧ res.startPosition.2 ≤ res.mazeSize - 2 ∧
    res.mazeArray.getD (res.startPosition.2 * res.mazeSize +
      res.startPosition.1) true = false := by
  obtain ⟨a, r1, start, r2, endp, d, a2, r3, tr3, hsz1, hlen, hborder, hs, he,
    hstart, hend, hdir, harr⟩ := generateMaze_common hsz hres
  obtain ⟨h1, h2, h3, h4, hopen⟩ := start_interior_open (by omega) hs hborder
  obtain ⟨hins, -, -, -, -, -, -, -, -, -⟩ :=
    setExit_pierce (by omega) he hlen hborder
  have hmem : (start.2, start.1) ∈ openFinset res.mazeSize a :=
    mem_openFinset.mpr ⟨by omega, by omega, hopen⟩
  have hmem2 : (start.2, start.1) ∈ openFinset res.mazeSize a2 := by
    rw [hins]
    exact Finset.mem_insert_of_mem hmem
  rw [hstart, harr]
  exact ⟨h1, h2, h3, h4, (mem_openFinset.mp hmem2).2.2⟩

/-- C7 instantiated at size 8 (RD, effective size 9) with concrete sources. -/
theorem C7_start_validity_witness :
    ∃ res, generateMaze .RD 8 zeroSrc oneSrc 50 = some res ∧
      (1 ≤ res.startPosition.1 ∧ res.startPosition.1 ≤ res.mazeSize - 2 ∧
      1 ≤ res.startPosition.2 ∧ res.startPosition.2 ≤ res.mazeSize - 2 ∧
      res.mazeArray.getD (res.startPosition.2 * res.mazeSize +
        res.startPosition.1) true = false) := by
  rcases hq : generateMaze .RD 8 zeroSrc oneSrc 50 with - | res
  · exact absurd hq (by decide)
  · exact ⟨res, rfl, C7_start_validity (by decide) hq⟩

/-- C8: with the RD kind, an even requested size N runs the whole pipeline
exactly as the odd size N + 1 does, and the reported maze size is N + 1; an
odd requested size is used unchanged. -/
theorem C8_rd_odd_size_normalization (size : Nat) (r tr : Rng) (fuel : Nat) :
    (size % 2 = 0 →
      generateMaze .RD size r tr fuel = generateMaze .RD (size + 1) r tr fuel ∧
      ∀ res, generateMaze .RD size r tr fuel = some res →
        res.mazeSize = size + 1) ∧
    (size % 2 = 1 →
      ∀ res, generateMaze .RD size r tr fuel = some res →
        res.mazeSize = size) := by
  constructor
  · intro heven
    constructor
    · unfold generateMaze
      simp only []
      rw [if_pos heven, if_neg (by omega)]
    · intro res hres
      obtain ⟨start, r2, endp, d, a2, r3, tr3, -, -, hresq⟩ :=
        generateMaze_rd_elim hres
      rw [hresq]
      show (if size % 2 = 0 then size + 1 else size) = size + 1
      rw [if_pos heven]
  · intro hodd res hres
    obtain ⟨start, r2, endp, d, a2, r3, tr3, -, -, hresq⟩ :=
      generateMaze_rd_elim hres
    rw [hresq]
    show (if size % 2 = 0 then size + 1 else size) = size
    rw [if_neg (by omega)]

/-- C8 instantiated at the even size 10 and the odd size 11. -/
theorem C8_rd_odd_size_normalization_witness :
    (generateMaze .RD 10 zeroSrc zeroSrc 50 =
      generateMaze .RD 11 zeroSrc zeroSrc 50 ∧
    ∀ res, generateMaze .RD 10 zeroSrc zeroSrc 50 = some res →
      res.mazeSize = 11) ∧
    ∀ res, generateMaze .RD 11 zeroSrc zeroSrc 50 = some res →
      res.mazeSize = 11 := by
  have h10 := C8_rd_odd_size_normalization 10 zeroSrc zeroSrc 50
  have h11 := C8_rd_odd_size_normalization 11 zeroSrc zeroSrc 50
  exact ⟨h10.1 (by decide), h11.2 (by decide)⟩

/-- C10: exit placement samples its index from [1, size-1], yet every
accepted exit point of a completed generation has both coordinates in
[1, size-2], and the pierced border hole is never one of the four corner
cells. -/
theorem C10_exit_interior_no_corner {kind : SelectedGenerator} {size fuel : Nat}
    {r tr : Rng} {res : MazeResult} (hsz : 7 ≤ size)
    (hres : generateMaze kind size r tr fuel = some res) :
    1 ≤ res.endPosition.1 ∧ res.endPosition.1 ≤ res.mazeSize - 2 ∧
    1 ≤ res.endPosition.2 ∧ res.endPosition.2 ≤ res.mazeSize - 2 ∧
    holeCell res.mazeSize res.endPosition res.endBorder ≠ (0, 0) ∧
    holeCell res.mazeSize res.endPosition res.endBorder ≠
      (0, res.mazeSize - 1) ∧
    holeCell res.mazeSize res.endPosition res.endBorder ≠
      (res.mazeSize - 1, 0) ∧
    holeCell res.mazeSize res.endPosition res.endBorder ≠
      (res.mazeSize - 1, res.mazeSize - 1) := by
  obtain ⟨a, r1, start, r2, endp, d, a2, r3, tr3, hsz1, hlen, hborder, hs, he,
    hstart, hend, hdir, harr⟩ := generateMaze_common hsz hres
  obtain ⟨-, -, -, -, -, -, he1, he2, he3, he4⟩ :=
    setExit_pierce (by omega) he hlen hborder
  rw [hend, hdir]
  refine ⟨he1, he2, he3, he4, ?_, ?_, ?_, ?_⟩
  all_goals rcases d with - | - | - | -
  all_goals intro hcon
  all_goals simp only [holeCell, Prod.mk.injEq] at hcon
  all_goals omega

/-- C10 instantiated at size 9 (RD) with concrete sources. -/
theorem C10_exit_interior_no_corner_witness :
    ∃ res, generateMaze .RD 9 zeroSrc zeroSrc 50 = some res ∧
      (1 ≤ res.endPosition.1 ∧ res.endPosition.1 ≤ res.mazeSize - 2 ∧
      1 ≤ res.endPosition.2 ∧ res.endPosition.2 ≤ res.mazeSize - 2 ∧
      holeCell res.mazeSize res.endPosition res.endBorder ≠ (0, 0) ∧
      holeCell res.mazeSize res.endPosition res.endBorder ≠
        (0, res.mazeSize - 1) ∧
      holeCell res.mazeSize res.endPosition res.endBorder ≠
        (res.mazeSize - 1, 0) ∧
      holeCell res.mazeSize res.endPosition res.endBorder ≠
        (res.mazeSize - 1, res.mazeSize - 1)) := by
  rcases hq : generateMaze .RD 9 zeroSrc zeroSrc 50 with - | res
  · exact absurd hq (by decide)
  · exact ⟨res, rfl, C10_exit_interior_no_corner (by decide) hq⟩

/-- C4: determinism fails — `set_exit` draws the exit border from the
ambient thread RNG (`rand::random()`), not from the seeded engine, so two
runs with identical (kind, size, seed) inputs but different ambient thread
randomness agree on the start position yet disagree on the exit border and
on the final grid. -/
theorem C4_thread_rng_breaks_determinism :
    (generateMaze .DFS 7 zeroSrc zeroSrc 50).isSome = true ∧
    (generateMaze .DFS 7 zeroSrc oneSrc 50).isSome = true ∧
    (generateMaze .DFS 7 zeroSrc zeroSrc 50).map MazeResult.startPosition =
      (generateMaze .DFS 7 zeroSrc oneSrc 50).map MazeResult.startPosition ∧
    (generateMaze .DFS 7 zeroSrc zeroSrc 50).map MazeResult.endBorder ≠
      (generateMaze .DFS 7 zeroSrc oneSrc 50).map MazeResult.endBorder ∧
    (generateMaze .DFS 7 zeroSrc zeroSrc 50).map MazeResult.mazeArray ≠
      (generateMaze .DFS 7 zeroSrc oneSrc 50).map MazeResult.mazeArray := by
  exact ⟨by decide, by decide, by decide, by decide, by decide⟩

/-- C5 counterexample: start-placement coordinates are drawn from
[1, size-1], not [1, size-2]: on the RD grid of size 7 from the all-zero
seed, the placement loop run from `fiveFiveZeroSrc` succeeds, and the first
candidate point it drew is (6, 6), both of whose coordinates exceed
size - 2 = 5. -/
theorem C5_start_range_counterexample :
    (setStartPosition 7 (rdGenerate 7 zeroSrc).1 2 fiveFiveZeroSrc).isSome
      = true ∧
    startCandidate 7 fiveFiveZeroSrc 0 = (6, 6) ∧
    ¬((startCandidate 7 fiveFiveZeroSrc 0).1 ≤ 7 - 2) ∧
    ¬((startCandidate 7 fiveFiveZeroSrc 0).2 ≤ 7 - 2) := by
  exact ⟨by decide, by decide, by decide, by decide⟩

/-- C5 amended: every candidate coordinate of start placement is drawn from
the inclusive range [1, size-1] (not [1, size-2]), and a successful
placement returns the first candidate point whose grid cell is open. -/
theorem C5_start_placement_amended (size : Nat) (a : List Bool) (fuel : Nat)
    (r : Rng) (hsz : 2 ≤ size)
    (h : (setStartPosition size a fuel r).isSome = true) :
    (∀ k, 1 ≤ (startCandidate size r k).1 ∧
      (startCandidate size r k).1 ≤ size - 1 ∧
      1 ≤ (startCandidate size r k).2 ∧
      (startCandidate size r k).2 ≤ size - 1) ∧
    ∃ p r1, setStartPosition size a fuel r = some (p, r1) ∧
      ∃ k, k ≤ fuel ∧ p = startCandidate size r k ∧
        a.getD (p.2 * size + p.1) true = false ∧
        ∀ j, j < k → a.getD ((startCandidate size r j).2 * size +
          (startCandidate size r j).1) true = true := by
  obtain ⟨pr, hq⟩ := Option.isSome_iff_exists.mp h
  exact ⟨fun k => startCandidate_bounds size r k hsz,
    pr.1, pr.2, by rw [hq],
    setStartPosition_first_open size a fuel r pr.1 pr.2 (by rw [hq])⟩

/-- C5 amended, instantiated on the RD grid of size 7 from the all-zero
seed with the source that draws (6, 6) and then (1, 1). -/
theorem C5_start_placement_amended_witness :
    (∀ k, 1 ≤ (startCandidate 7 fiveFiveZeroSrc k).1 ∧
      (startCandidate 7 fiveFiveZeroSrc k).1 ≤ 7 - 1 ∧
      1 ≤ (startCandidate 7 fiveFiveZeroSrc k).2 ∧
      (startCandidate 7 fiveFiveZeroSrc k).2 ≤ 7 - 1) ∧
    ∃ p r1, setStartPosition 7 (rdGenerate 7 zeroSrc).1 2 fiveFiveZeroSrc =
        some (p, r1) ∧
      ∃ k, k ≤ 2 ∧ p = startCandidate 7 fiveFiveZeroSrc k ∧
        (rdGenerate 7 zeroSrc).1.getD (p.2 * 7 + p.1) true = false ∧
        ∀ j, j < k → (rdGenerate 7 zeroSrc).1.getD
          ((startCandidate 7 fiveFiveZeroSrc j).2 * 7 +
            (startCandidate 7 fiveFiveZeroSrc j).1) true = true :=
  C5_start_placement_amended 7 (rdGenerate 7 zeroSrc).1 2 fiveFiveZeroSrc
    (by decide) (by decide)

/-- C6 counterexample: the sampling loops do not terminate for every random
stream.  On the RD maze of size 7 generated from the all-zero seed, the
start-placement loop run from the all-five source draws the wall candidate
(6, 6) at every iteration, and no amount of fuel makes it return. -/
theorem C6_start_nontermination_counterexample :
    ¬ startTerminates 7 (rdGenerate 7 zeroSrc).1 fiveSrc := by
  have hwall : (rdGenerate 7 zeroSrc).1.getD (6 * 7 + 6) true = true := by decide
  have hloop : ∀ (fuel : Nat) (r1 : Rng), r1.stream = fiveSrc.stream →
      setStartLoop 7 (rdGenerate 7 zeroSrc).1 fuel 6 6 r1 = none := by
    intro fuel
    induction fuel with
    | zero =>
      intro r1 hstream
      rw [setStartLoop, if_pos hwall]
    | succ fuel ih =>
      intro r1 hstream
      rw [setStartLoop, if_pos hwall]
      show setStartLoop 7 (rdGenerate 7 zeroSrc).1 fuel
        (genRange 1 (7 - 1) r1).1
        (genRange 1 (7 - 1) (genRange 1 (7 - 1) r1).2).1
        (genRange 1 (7 - 1) (genRange 1 (7 - 1) r1).2).2 = none
      have hx : (genRange 1 (7 - 1) r1).1 = 6 := by
        show 1 + r1.stream r1.pos % (7 - 1 + 1 - 1) = 6
        rw [hstream]
        rfl
      have hy : (genRange 1 (7 - 1) (genRange 1 (7 - 1) r1).2).1 = 6 := by
        show 1 + r1.stream (r1.pos + 1) % (7 - 1 + 1 - 1) = 6
        rw [hstream]
        rfl
      rw [hx, hy]
      exact ih _ hstream
  rintro ⟨fuel, hf⟩
  have hnone : setStartPosition 7 (rdGenerate 7 zeroSrc).1 fuel fiveSrc
      = none := by
    show setStartLoop 7 (rdGenerate 7 zeroSrc).1 fuel
      (genRange 1 (7 - 1) fiveSrc).1
      (genRange 1 (7 - 1) (genRange 1 (7 - 1) fiveSrc).2).1
      (genRange 1 (7 - 1) (genRange 1 (7 - 1) fiveSrc).2).2 = none
    rw [show (genRange 1 (7 - 1) fiveSrc).1 = 6 from rfl,
      show (genRange 1 (7 - 1) (genRange 1 (7 - 1) fiveSrc).2).1 = 6 from rfl]
    exact hloop fuel _ rfl
  rw [hnone] at hf
  exact Bool.noConfusion hf

theorem exitCandidate_shift (size : Nat) (s : Rng) (k : Nat) :
    exitCandidate size (s.advance 1) k = exitCandidate size s (k + 1) := by
  unfold exitCandidate
  have h1 : (s.advance 1).advance k = s.advance (k + 1) := by
    show Rng.mk s.stream (s.pos + 1 + k) = Rng.mk s.stream (s.pos + (k + 1))
    congr 1
    omega
  rw [h1]

theorem exitWallCandidate_shift (ts : Rng) (k : Nat) :
    exitWallCandidate (ts.advance 1) k = exitWallCandidate ts (k + 1) := by
  unfold exitWallCandidate
  have h1 : (ts.advance 1).advance k = ts.advance (k + 1) := by
    show Rng.mk ts.stream (ts.pos + 1 + k) = Rng.mk ts.stream (ts.pos + (k + 1))
    congr 1
    omega
  rw [h1]

theorem exitAccept_shift (size : Nat) (a : List Bool) (s ts : Rng) (k : Nat)
    (h : exitAccept size a s ts (k + 1)) :
    exitAccept size a (s.advance 1) (ts.advance 1) k := by
  unfold exitAccept at h ⊢
  rw [exitWallCandidate_shift, exitCandidate_shift]
  exact h

/-- C6 amended: both generators leave at least one open strictly interior
cell, and the two sampling loops terminate exactly when some iteration of
the respective stream hits an open cell: with that iteration's index as
fuel, start placement returns, and with one more than that index as fuel,
exit placement returns. -/
theorem C6_open_cell_and_conditional_termination (size : Nat) (r : Rng)
    (hsz : 7 ≤ size) (hodd : size % 2 = 1) :
    (∃ p : Nat × Nat, 1 ≤ p.1 ∧ p.1 ≤ size - 2 ∧ 1 ≤ p.2 ∧ p.2 ≤ size - 2 ∧
      (dfsGenerate size r).1.getD (p.1 * size + p.2) true = false) ∧
    (∃ p : Nat × Nat, 1 ≤ p.1 ∧ p.1 ≤ size - 2 ∧ 1 ≤ p.2 ∧ p.2 ≤ size - 2 ∧
      (rdGenerate size r).1.getD (p.1 * size + p.2) true = false) ∧
    (∀ (a : List Bool) (s : Rng) (k : Nat),
      a.getD ((startCandidate size s k).2 * size +
        (startCandidate size s k).1) true = false →
      (setStartPosition size a k s).isSome = true) ∧
    (∀ (a : List Bool) (s ts : Rng) (k : Nat),
      exitAccept size a s ts k →
      (setExitLoop size a (k + 1) s ts).isSome = true) := by
  refine ⟨(dfsGenerate_invariant size r hsz).2.2, ?_, ?_, ?_⟩
  · have hin : inRect 0 0 ((size - 1) / 2 - 1) ((size - 1) / 2 - 1)
        ((1, 1) : Nat × Nat) := by
      show 2 * 0 + 1 ≤ 1 ∧ 1 ≤ 2 * ((size - 1) / 2 - 1) + 1 ∧
        2 * 0 + 1 ≤ 1 ∧ 1 ≤ 2 * ((size - 1) / 2 - 1) + 1
      omega
    have hcell := (rdGenerate_invariant size r hsz hodd).2.2.2.1 (1, 1) hin rfl rfl
    refine ⟨(1, 1), ?_, ?_, ?_, ?_, hcell⟩
    · show (1 : Nat) ≤ 1
      omega
    · show (1 : Nat) ≤ size - 2
      omega
    · show (1 : Nat) ≤ 1
      omega
    · show (1 : Nat) ≤ size - 2
      omega
  · intro a s k hopen
    have hloop : ∀ (k : Nat) (s : Rng),
        a.getD ((startCandidate size s k).2 * size +
          (startCandidate size s k).1) true = false →
        (setStartLoop size a k (startCandidate size s 0).1
          (startCandidate size s 0).2 (s.advance 2)).isSome = true := by
      intro k
      induction k with
      | zero =>
        intro s hop
        rw [setStartLoop, if_neg (by rw [hop]; exact Bool.false_ne_true)]
        rfl
      | succ k ih =>
        intro s hop
        by_cases hval : a.getD ((startCandidate size s 0).2 * size +
            (startCandidate size s 0).1) true = true
        · rw [setStartLoop, if_pos hval]
          exact ih (s.advance 2) (by rw [startCandidate_shift]; exact hop)
        · rw [setStartLoop, if_neg hval]
          rfl
    exact hloop k s hopen
  · intro a s ts k hacc
    have hloop : ∀ (k : Nat) (s ts : Rng), exitAccept size a s ts k →
        (setExitLoop size a (k + 1) s ts).isSome = true := by
      intro k
      induction k with
      | zero =>
        intro s ts hacc0
        unfold exitAccept at hacc0
        rw [show exitWallCandidate ts 0 = (randDirection ts).1 from rfl]
          at hacc0
        rw [show exitCandidate size s 0 = (genRange 1 (size - 1) s).1 from rfl]
          at hacc0
        rw [setExitLoop]
        rcases hd : (randDirection ts).1 with - | - | - | -
        all_goals rw [hd] at hacc0
        · have hacc1 : a.getD (1 * size + (genRange 1 (size - 1) s).1)
              true = false := hacc0
          rw [if_pos hacc1]
          rfl
        · have hacc1 : a.getD ((size - 2) * size + (genRange 1 (size - 1) s).1)
              true = false := hacc0
          rw [if_pos hacc1]
          rfl
        · have hacc1 : a.getD ((genRange 1 (size - 1) s).1 * size + 1)
              true = false := hacc0
          rw [if_pos hacc1]
          rfl
        · have hacc1 : a.getD ((genRange 1 (size - 1) s).1 * size + (size - 2))
              true = false := hacc0
          rw [if_pos hacc1]
          rfl
      | succ k ih =>
        intro s ts hacck
        rw [setExitLoop]
        rcases hd : (randDirection ts).1 with - | - | - | -
        · by_cases hacc0 : a.getD (1 * size + (genRange 1 (size - 1) s).1)
              true = false
          · rw [if_pos hacc0]
            rfl
          · rw [if_neg hacc0]
            exact ih (s.advance 1) (ts.advance 1)
              (exitAccept_shift size a s ts k hacck)
        · by_cases hacc0 : a.getD ((size - 2) * size +
              (genRange 1 (size - 1) s).1) true = false
          · rw [if_pos hacc0]
            rfl
          · rw [if_neg hacc0]
            exact ih (s.advance 1) (ts.advance 1)
              (exitAccept_shift size a s ts k hacck)
        · by_cases hacc0 : a.getD ((genRange 1 (size - 1) s).1 * size + 1)
              true = false
          · rw [if_pos hacc0]
            rfl
          · rw [if_neg hacc0]
            exact ih (s.advance 1) (ts.advance 1)
              (exitAccept_shift size a s ts k hacck)
        · by_cases hacc0 : a.getD ((genRange 1 (size - 1) s).1 * size +
              (size - 2)) true = false
          · rw [if_pos hacc0]
            rfl
          · rw [if_neg hacc0]
            exact ih (s.advance 1) (ts.advance 1)
              (exitAccept_shift size a s ts k hacck)
    exact hloop k s ts hacc

/-! ## Totality of the pipeline (checked mirrors) -/

theorem divideChamber_length (size : Nat) (fuel : Nat) :
    ∀ (sx sy ex ey : Nat) (orient : Orientation) (r : Rng) (a : List Bool),
      (divideChamber size fuel sx sy ex ey orient r a).1.length = a.length := by
  induction fuel with
  | zero =>
    intro sx sy ex ey orient r a
    rfl
  | succ fuel ih =>
    intro sx sy ex ey orient r a
    by_cases hguard : ex - sx < 1 ∨ ey - sy < 1
    · simp only [divideChamber]
      rw [if_pos hguard]
    · rcases orient with - | -
      · simp only [divideChamber]
        rw [if_neg hguard]
        rw [ih, ih, List.length_set, setAll_length]
      · simp only [divideChamber]
        rw [if_neg hguard]
        rw [ih, ih, List.length_set, setAll_length]

theorem getOrientationChk_true {sx sy ex ey : Nat} (h1 : sx ≤ ex)
    (h2 : sy ≤ ey) : getOrientationChk sx sy ex ey = true := by
  unfold getOrientationChk
  rw [decide_eq_true h1, decide_eq_true h2]
  simp only [Bool.true_and]
  by_cases ha : ey - sy < ex - sx
  · rw [if_pos ha]
  · rw [if_neg ha]
    by_cases hb : ex - sx < ey - sy
    · rw [if_pos hb]
    · rw [if_neg hb]
      rfl

theorem addPathChk_true (size : Nat) (hsz : 3 ≤ size) (fuel : Nat) :
    ∀ (a : List Bool) (r : Rng) (stack : List (Nat × Nat)),
      a.length = size * size →
      addPathChk size fuel a r stack = true := by
  induction fuel with
  | zero =>
    intro a r stack hlen
    rfl
  | succ fuel ih =>
    intro a r stack hlen
    rcases stack with - | ⟨⟨x, y⟩, rest⟩
    · rfl
    · simp only [addPathChk]
      by_cases hguard : size - 1 ≤ x ∨ x < 1 ∨ y < 1 ∨ size - 1 ≤ y
      · rw [if_pos hguard]
        exact ih a r rest hlen
      · rw [if_neg hguard]
        push_neg at hguard
        obtain ⟨hg1, hg2, hg3, hg4⟩ := hguard
        rw [decide_eq_true (show x * size + y < a.length from by
          rw [hlen]; exact index_lt (by omega) (by omega)), Bool.true_and]
        by_cases hopen : a.getD (x * size + y) true = false
        · rw [if_pos hopen]
          exact ih a r rest hlen
        · rw [if_neg hopen]
          rw [decide_eq_true hg2, decide_eq_true hg3,
            decide_eq_true (show (x - 1) * size + y < a.length from by
              rw [hlen]; exact index_lt (by omega) (by omega)),
            decide_eq_true (show (x + 1) * size + y < a.length from by
              rw [hlen]; exact index_lt (by omega) (by omega)),
            decide_eq_true (show x * size + (y - 1) < a.length from by
              rw [hlen]; exact index_lt (by omega) (by omega)),
            decide_eq_true (show x * size + (y + 1) < a.length from by
              rw [hlen]; exact index_lt (by omega) (by omega))]
          simp only [Bool.true_and]
          by_cases hcnt : 1 < countOpenNeighbors size a x y
          · rw [if_pos hcnt]
            exact ih a r rest hlen
          · rw [if_neg hcnt]
            exact ih _ _ _ (by rw [List.length_set]; exact hlen)

theorem dfsGenerateChk_true (size : Nat) (r : Rng) (hsz : 7 ≤ size) :
    dfsGenerateChk size r = true := by
  have hxb := genRange_bounds 3 (size - 3) r (by omega)
  have hyb := genRange_bounds 3 (size - 3) (genRange 3 (size - 3) r).2 (by omega)
  simp only [dfsGenerateChk, rangeOkIncl, Bool.and_eq_true, decide_eq_true_eq]
  refine ⟨⟨⟨⟨⟨⟨by omega, by omega⟩, by omega⟩, by omega⟩, by omega⟩, ?_⟩, ?_⟩
  · rw [List.length_replicate]
    exact index_lt (by omega) (by omega)
  · exact addPathChk_true size (by omega) (4 * size * size + 5) _ _ _
      (by rw [List.length_set, List.length_replicate])

theorem divideChamberChk_true (size : Nat) (fuel : Nat) :
    ∀ (sx sy ex ey : Nat) (orient : Orientation) (r : Rng) (a : List Bool),
      a.length = size * size → 3 ≤ size →
      sx ≤ ex → sy ≤ ey →
      2 * ex + 2 ≤ size - 1 → 2 * ey + 2 ≤ size - 1 →
      divideChamberChk size fuel sx sy ex ey orient r a = true := by
  induction fuel with
  | zero =>
    intro sx sy ex ey orient r a hlen hsz hx hy hex hey
    rfl
  | succ fuel ih =>
    intro sx sy ex ey orient r a hlen hsz hx hy hex hey
    by_cases hguard : ex - sx < 1 ∨ ey - sy < 1
    · simp only [divideChamberChk]
      rw [decide_eq_true hx, decide_eq_true hy, if_pos hguard]
      rfl
    · push_neg at hguard
      obtain ⟨hg1, hg2⟩ := hguard
      rcases orient with - | -
      · have hwb := genRangeEx_bounds sy ey r (by omega)
        have hpb := genRange_bounds sx ex (genRangeEx sy ey r).2 hx
        simp only [divideChamberChk]
        rw [decide_eq_true hx, decide_eq_true hy,
          if_neg (show ¬(ex - sx < 1 ∨ ey - sy < 1) from by omega)]
        simp only [Bool.true_and, rangeOkExcl, rangeOkIncl, Bool.and_eq_true,
          decide_eq_true_eq, List.all_eq_true]
        refine ⟨⟨⟨⟨⟨⟨⟨by omega, ?_⟩, hx⟩, ?_⟩, ?_⟩, ?_⟩, ?_⟩, ?_⟩
        · intro j hj
          obtain ⟨n, hn, rfl⟩ := List.mem_map.mp hj
          obtain ⟨hn1, hn2⟩ := List.mem_range'_1.mp hn
          rw [hlen]
          exact index_lt (by omega) (by omega)
        · rw [setAll_length, hlen]
          exact index_lt (by omega) (by omega)
        · exact getOrientationChk_true hx hwb.1
        · exact getOrientationChk_true hx (by omega)
        · exact ih _ _ _ _ _ _ _
            (by rw [List.length_set, setAll_length]; exact hlen)
            hsz hx hwb.1 hex (by omega)
        · exact ih _ _ _ _ _ _ _
            (by rw [divideChamber_length, List.length_set, setAll_length]
                exact hlen)
            hsz hx (by omega) hex hey
      · have hwb := genRangeEx_bounds sx ex r (by omega)
        have hpb := genRange_bounds sy ey (genRangeEx sx ex r).2 hy
        simp only [divideChamberChk]
        rw [decide_eq_true hx, decide_eq_true hy,
          if_neg (show ¬(ex - sx < 1 ∨ ey - sy < 1) from by omega)]
        simp only [Bool.true_and, rangeOkExcl, rangeOkIncl, Bool.and_eq_true,
          decide_eq_true_eq, List.all_eq_true]
        refine ⟨⟨⟨⟨⟨⟨⟨by omega, ?_⟩, hy⟩, ?_⟩, ?_⟩, ?_⟩, ?_⟩, ?_⟩
        · intro j hj
          obtain ⟨n, hn, rfl⟩ := List.mem_map.mp hj
          obtain ⟨hn1, hn2⟩ := List.mem_range'_1.mp hn
          rw [hlen]
          exact index_lt (by omega) (by omega)
        · rw [setAll_length, hlen]
          exact index_lt (by omega) (by omega)
        · exact getOrientationChk_true hwb.1 hy
        · exact getOrientationChk_true (by omega) hy
        · exact ih _ _ _ _ _ _ _
            (by rw [List.length_set, setAll_length]; exact hlen)
            hsz hwb.1 hy (by omega) hey
        · exact ih _ _ _ _ _ _ _
            (by rw [divideChamber_length, List.length_set, setAll_length]
                exact hlen)
            hsz (by omega) hy hex hey

theorem rdGenerateChk_true (size : Nat) (r : Rng) (hsz : 7 ≤ size)
    (hodd : size % 2 = 1) :
    rdGenerateChk size r = true := by
  simp only [rdGenerateChk, rangeOkIncl, Bool.and_eq_true, decide_eq_true_eq,
    List.all_eq_true]
  refine ⟨⟨⟨⟨by omega, ?_⟩, by omega⟩, by omega⟩, ?_⟩
  · intro j hj
    obtain ⟨n, hn, hcase⟩ := mem_borderIdxs.mp hj
    rw [List.length_replicate]
    have h1 := @index_lt size n 0 hn (by omega)
    have h2 := @index_lt size 0 n (by omega) hn
    have h3 := @index_lt size n (size - 1) hn (by omega)
    have h4 := @index_lt size (size - 1) n (by omega) hn
    omega
  · exact divideChamberChk_true size size 0 0 ((size - 1) / 2 - 1)
      ((size - 1) / 2 - 1) _ _ _
      (by rw [setAll_length, List.length_replicate])
      (by omega) (by omega) (by omega) (by omega) (by omega)

theorem setStartLoopChk_true (size : Nat) (a : List Bool)
    (hlen : a.length = size * size) (hsz : 2 ≤ size) :
    ∀ (fuel x y : Nat) (r : Rng), x ≤ size - 1 → y ≤ size - 1 →
      setStartLoopChk size a fuel x y r = true := by
  intro fuel
  induction fuel with
  | zero =>
    intro x y r hx hy
    simp only [setStartLoopChk]
    rw [decide_eq_true (show y * size + x < a.length from by
      rw [hlen]; exact index_lt (by omega) (by omega)), Bool.true_and]
    by_cases hv : a.getD (y * size + x) true = true
    · rw [if_pos hv]
    · rw [if_neg hv]
  | succ fuel ih =>
    intro x y r hx hy
    simp only [setStartLoopChk]
    rw [decide_eq_true (show y * size + x < a.length from by
      rw [hlen]; exact index_lt (by omega) (by omega)), Bool.true_and]
    by_cases hv : a.getD (y * size + x) true = true
    · rw [if_pos hv]
      have hb1 := genRange_bounds 1 (size - 1) r (by omega)
      have hb2 := genRange_bounds 1 (size - 1) (genRange 1 (size - 1) r).2
        (by omega)
      rw [show rangeOkIncl 1 (size - 1) = true from decide_eq_true (by omega)]
      simp only [Bool.true_and]
      exact ih _ _ _ (by omega) (by omega)
    · rw [if_neg hv]

theorem setStartPositionChk_true (size : Nat) (a : List Bool) (fuel : Nat)
    (r : Rng) (hlen : a.length = size * size) (hsz : 2 ≤ size) :
    setStartPositionChk size a fuel r = true := by
  simp only [setStartPositionChk]
  have hb1 := genRange_bounds 1 (size - 1) r (by omega)
  have hb2 := genRange_bounds 1 (size - 1) (genRange 1 (size - 1) r).2 (by omega)
  rw [decide_eq_true (show 1 ≤ size by omega),
    show rangeOkIncl 1 (size - 1) = true from decide_eq_true (by omega)]
  simp only [Bool.true_and]
  exact setStartLoopChk_true size a hlen hsz fuel _ _ _ (by omega) (by omega)

theorem setExitLoopChk_true (size : Nat) (a : List Bool)
    (hlen : a.length = size * size) (hsz : 3 ≤ size) :
    ∀ (fuel : Nat) (r tr : Rng), setExitLoopChk size a fuel r tr = true := by
  intro fuel
  induction fuel with
  | zero =>
    intro r tr
    rfl
  | succ fuel ih =>
    intro r tr
    simp only [setExitLoopChk]
    have hb := genRange_bounds 1 (size - 1) r (by omega)
    rw [decide_eq_true (show 2 ≤ size by omega),
      show rangeOkIncl 1 (size - 1) = true from decide_eq_true (by omega),
      show rangeOkIncl 0 3 = true from rfl]
    simp only [Bool.true_and]
    rcases hd : (randDirection tr).1 with - | - | - | -
    · rw [decide_eq_true (show 1 * size + (genRange 1 (size - 1) r).1 < a.length
          from by rw [hlen]; exact index_lt (by omega) (by omega)),
        Bool.true_and]
      by_cases hacc : a.getD (1 * size + (genRange 1 (size - 1) r).1)
          true = false
      · rw [if_pos hacc]
        exact decide_eq_true (by rw [hlen]; exact index_lt (by omega) (by omega))
      · rw [if_neg hacc]
        exact ih _ _
    · rw [decide_eq_true (show (size - 2) * size + (genRange 1 (size - 1) r).1
            < a.length
          from by rw [hlen]; exact index_lt (by omega) (by omega)),
        Bool.true_and]
      by_cases hacc : a.getD ((size - 2) * size + (genRange 1 (size - 1) r).1)
          true = false
      · rw [if_pos hacc]
        exact decide_eq_true (by rw [hlen]; exact index_lt (by omega) (by omega))
      · rw [if_neg hacc]
        exact ih _ _
    · rw [decide_eq_true (show (genRange 1 (size - 1) r).1 * size + 1 < a.length
          from by rw [hlen]; exact index_lt (by omega) (by omega)),
        Bool.true_and]
      by_cases hacc : a.getD ((genRange 1 (size - 1) r).1 * size + 1)
          true = false
      · rw [if_pos hacc]
        exact decide_eq_true (by rw [hlen]; exact index_lt (by omega) (by omega))
      · rw [if_neg hacc]
        exact ih _ _
    · rw [decide_eq_true (show (genRange 1 (size - 1) r).1 * size + (size - 2)
            < a.length
          from by rw [hlen]; exact index_lt (by omega) (by omega)),
        Bool.true_and]
      by_cases hacc : a.getD ((genRange 1 (size - 1) r).1 * size + (size - 2))
          true = false
      · rw [if_pos hacc]
        exact decide_eq_true (by rw [hlen]; exact index_lt (by omega) (by omega))
      · rw [if_neg hacc]
        exact ih _ _

/-- C9: for every size of at least 7, both kinds, all sources and any fuel,
the checked replay of the whole pipeline succeeds: every grid index used
during generation, start placement and exit placement is within the
size²-length array, every random-range request is non-empty, and no
unsigned subtraction underflows (in particular every recursive
`divide_chamber` call has start_field ≤ end_field on both axes). -/
theorem C9_no_out_of_bounds (kind : SelectedGenerator) (size : Nat)
    (r tr : Rng) (fuel : Nat) (hsz : 7 ≤ size) :
    generateMazeChk kind size r tr fuel = true := by
  rcases kind with - | -
  · obtain ⟨hlen, -, -⟩ := dfsGenerate_invariant size r hsz
    simp only [generateMazeChk]
    rw [dfsGenerateChk_true size r hsz,
      setStartPositionChk_true size (dfsGenerate size r).1 fuel
        (dfsGenerate size r).2 hlen (by omega)]
    simp only [Bool.true_and]
    rcases hs : setStartPosition size (dfsGenerate size r).1 fuel
        (dfsGenerate size r).2 with - | ⟨p, r2⟩
    · rfl
    · exact setExitLoopChk_true size (dfsGenerate size r).1 hlen (by omega)
        fuel r2 tr
  · have hsz1 : 7 ≤ (if size % 2 = 0 then size + 1 else size) := by
      split <;> omega
    have hodd1 : (if size % 2 = 0 then size + 1 else size) % 2 = 1 := by
      split <;> omega
    obtain ⟨hlen, -, -, -, -⟩ := rdGenerate_invariant
      (if size % 2 = 0 then size + 1 else size) r hsz1 hodd1
    simp only [generateMazeChk]
    rw [rdGenerateChk_true (if size % 2 = 0 then size + 1 else size) r
        hsz1 hodd1,
      setStartPositionChk_true (if size % 2 = 0 then size + 1 else size)
        (rdGenerate (if size % 2 = 0 then size + 1 else size) r).1 fuel
        (rdGenerate (if size % 2 = 0 then size + 1 else size) r).2 hlen
        (by omega)]
    simp only [Bool.true_and]
    rcases hs : setStartPosition (if size % 2 = 0 then size + 1 else size)
        (rdGenerate (if size % 2 = 0 then size + 1 else size) r).1 fuel
        (rdGenerate (if size % 2 = 0 then size + 1 else size) r).2
      with - | ⟨p, r2⟩
    · rfl
    · exact setExitLoopChk_true (if size % 2 = 0 then size + 1 else size)
        (rdGenerate (if size % 2 = 0 then size + 1 else size) r).1 hlen
        (by omega) fuel r2 tr

/-- C9 instantiated at size 7 (DFS) with concrete sources. -/
theorem C9_no_out_of_bounds_witness :
    generateMazeChk .DFS 7 zeroSrc zeroSrc 50 = true :=
  C9_no_out_of_bounds .DFS 7 zeroSrc zeroSrc 50 (by decide)

/-- C6 amended, instantiated at size 7 with the all-zero source. -/
theorem C6_open_cell_and_conditional_termination_witness :
    (∃ p : Nat × Nat, 1 ≤ p.1 ∧ p.1 ≤ 7 - 2 ∧ 1 ≤ p.2 ∧ p.2 ≤ 7 - 2 ∧
      (dfsGenerate 7 zeroSrc).1.getD (p.1 * 7 + p.2) true = false) ∧
    (∃ p : Nat × Nat, 1 ≤ p.1 ∧ p.1 ≤ 7 - 2 ∧ 1 ≤ p.2 ∧ p.2 ≤ 7 - 2 ∧
      (rdGenerate 7 zeroSrc).1.getD (p.1 * 7 + p.2) true = false) ∧
    (∀ (a : List Bool) (s : Rng) (k : Nat),
      a.getD ((startCandidate 7 s k).2 * 7 +
        (startCandidate 7 s k).1) true = false →
      (setStartPosition 7 a k s).isSome = true) ∧
    (∀ (a : List Bool) (s ts : Rng) (k : Nat),
      exitAccept 7 a s ts k →
      (setExitLoop 7 a (k + 1) s ts).isSome = true) :=
  C6_open_cell_and_conditional_termination 7 zeroSrc (by decide) (by decide)

end DsdMaze
